import Mathlib

/-!
Verification of the wikiparse MediaWiki-markup parser.

This file gives a shallow embedding of the two source layers:
the generic backtracking engine (`class Parser`, src/unnamed/part_000) and
the wiki grammar (`class WikiParser`, src/wikiparser.js), together with
theorems about the embedded definitions.

Modelling conventions:
- JavaScript strings are `List Char` (the inputs relevant here consist of
  basic-multilingual-plane scalars, where JS UTF-16 code units and Unicode
  scalars coincide one-to-one; lone surrogates are not representable and
  `String.fromCharCode` is modelled as producing NUL for them).
- The parser's `lowercaseStr` array (`str.split('').map(c => c.toLowerCase())`)
  is a pure function of the input and is modelled as the derived view
  `jsToLower` applied at each index; `jsToLower` covers ASCII, the Cyrillic
  block used by the repository's tests, and the multi-unit expansion of
  U+0130, and is the identity elsewhere.
- JavaScript runtime values (AST nodes, parameter maps) are modelled by the
  dynamic type `JVal`; `Object.assign` and property assignment keep JS key
  insertion order.
- All mutation of the engine state (`this.pos`, `this.backtrackingCount`,
  `this.backtrackOn`, `this.stack`) is explicit state passing over `St`.
- General recursion (the mutually recursive `next` / `node` / production
  functions and their internal loops) is made total with a fuel parameter:
  `interp : Nat -> Interp` peels one fuel layer per nested call or loop
  iteration and returns the distinguished answer `PRes.noFuel` when fuel
  runs out.  Fuel is a device of the model only; theorems about parse
  results are quantified over all fuel values.
-/

namespace Wikiparse

/-- Characters of a string literal, used to write grammar tokens. -/
def chars (s : String) : List Char := s.data

/-- The apostrophe character, used to build the quote tokens of the grammar. -/
def apoC : Char := Char.ofNat 39

/-- Per-character `toLowerCase` as used to build the parser's parallel
lowercase view.  Covers ASCII letters, the Cyrillic uppercase block and Ё,
and the two-unit lowercase expansion of U+0130; identity elsewhere (the
grammar's prefixes are ASCII, so only the ASCII part affects matching). -/
def jsToLower (c : Char) : List Char :=
  if 65 ≤ c.toNat ∧ c.toNat ≤ 90 then [Char.ofNat (c.toNat + 32)]
  else if 0x410 ≤ c.toNat ∧ c.toNat ≤ 0x42F then [Char.ofNat (c.toNat + 0x20)]
  else if c.toNat = 0x401 then [Char.ofNat 0x451]
  else if c.toNat = 0x130 then [Char.ofNat 0x69, Char.ofNat 0x307]
  else [c]

/-- JavaScript whitespace (the `\s` class, also used by `String.trim`). -/
def jsWhitespace (c : Char) : Bool :=
  c == ' ' || c == '\t' || c == '\n' || c == '\r' ||
  c.toNat == 0x0B || c.toNat == 0x0C || c.toNat == 0xA0 || c.toNat == 0x1680 ||
  (0x2000 ≤ c.toNat && c.toNat ≤ 0x200A) ||
  c.toNat == 0x2028 || c.toNat == 0x2029 || c.toNat == 0x202F ||
  c.toNat == 0x205F || c.toNat == 0x3000 || c.toNat == 0xFEFF

/-- The JavaScript regular-expression class `\w`: ASCII letters, digits, `_`. -/
def isWordChar (c : Char) : Bool := c.isAlpha || c.isDigit || c == '_'

/-- First character of a tag name, the regex `[a-z-]` with the `i` flag. -/
def isTagNameChar (c : Char) : Bool := c.isAlpha || c == '-'

/-- `String.prototype.trimLeft`. -/
def trimLeftStr (s : String) : String := String.mk (s.data.dropWhile jsWhitespace)

/-- `String.prototype.trimRight`. -/
def trimRightStr (s : String) : String :=
  String.mk ((s.data.reverse.dropWhile jsWhitespace).reverse)

/-- `String.prototype.trim`. -/
def jsTrimStr (s : String) : String := trimRightStr (trimLeftStr s)

/-- Characters stripped from comment content: the class `[\s-]`. -/
def dashWs (c : Char) : Bool := jsWhitespace c || c == '-'

/-- The comment post-processor `x.replace(/^[\s-]+|[\s-]+$/g, '')`. -/
def stripCommentEdges (s : String) : String :=
  String.mk (((s.data.dropWhile dashWs).reverse.dropWhile dashWs).reverse)

/-- Full-string `toLowerCase`, concatenating the per-character mapping. -/
def jsLowerStr (s : String) : String := String.mk ((s.data.map jsToLower).flatten)

/-- Value of a run of decimal digits; `none` if empty or any non-digit. -/
def decValAux : List Char → Nat → Option Nat
  | [], acc => some acc
  | c :: rest, acc =>
    if c.isDigit then decValAux rest (acc * 10 + (c.toNat - 48)) else none

/-- Decimal value of a nonempty all-digit character list. -/
def decVal (l : List Char) : Option Nat :=
  if l.isEmpty then none else decValAux l 0

/-- The numeric test `isNaN(key)` and the coercion `key - 1` used to place
template and link parameters, modelled for decimal integer literals with an
optional sign.  Other forms that JavaScript would also coerce to numbers
(floats, hex, exponent notation) are outside the modelled key syntax. -/
def jsToInt (s : String) : Option Int :=
  match s.data with
  | '-' :: rest => (decVal rest).map (fun n => -(n : Int))
  | '+' :: rest => (decVal rest).map (fun n => (n : Int))
  | l => (decVal l).map (fun n => (n : Int))

/-- Digit value of a character in the given radix (10 or 16). -/
def digitValIn (radix : Nat) (c : Char) : Option Nat :=
  if c.isDigit then
    some (c.toNat - 48)
  else if radix == 16 && 97 ≤ c.toNat && c.toNat ≤ 102 then
    some (c.toNat - 87)
  else if radix == 16 && 65 ≤ c.toNat && c.toNat ≤ 70 then
    some (c.toNat - 55)
  else
    none

/-- Accumulate the longest digit prefix, stopping at the first non-digit. -/
def parseIntGo (radix : Nat) : List Char → Nat → Nat
  | [], acc => acc
  | c :: rest, acc =>
    match digitValIn radix c with
    | some d => parseIntGo radix rest (acc * radix + d)
    | none => acc

/-- `parseInt(s, radix)`: skip leading whitespace, then the longest digit
prefix; `none` models NaN.  The sign and `0x` prefix forms accepted by
JavaScript are outside the modelled syntax (no grammar path produces them
from digit input). -/
def jsParseInt (s : String) (radix : Nat) : Option Nat :=
  let l := s.data.dropWhile jsWhitespace
  match l with
  | c :: _ =>
    match digitValIn radix c with
    | some _ => some (parseIntGo radix l 0)
    | none => none
  | [] => none

/-- `String.fromCharCode`: the code unit `n mod 2^16`; values that are not
Unicode scalars (lone surrogates) are mapped to NUL by `Char.ofNat`. -/
def fromCharCode (n : Nat) : Char := Char.ofNat (n % 65536)

/-- Dynamic JavaScript values: AST nodes, parameter maps, attribute maps.
Objects are association lists in key insertion order. -/
inductive JVal where
  | jstr : String → JVal
  | jnum : Nat → JVal
  | jbool : Bool → JVal
  | jnull : JVal
  | jarr : List JVal → JVal
  | jobj : List (String × JVal) → JVal

/-- JavaScript truthiness of a modelled value. -/
def jsTruthy : JVal → Bool
  | .jstr s => s != ""
  | .jnum n => n != 0
  | .jbool b => b
  | .jnull => false
  | .jarr _ => true
  | .jobj _ => true

/-- Property read on an object (first binding of the key). -/
def getKey : List (String × JVal) → String → Option JVal
  | [], _ => none
  | (k, v) :: rest, key => if k == key then some v else getKey rest key

/-- Property write: update in place if present, else append (JS key order). -/
def setKey : List (String × JVal) → String → JVal → List (String × JVal)
  | [], key, v => [(key, v)]
  | (k, w) :: rest, key, v =>
    if k == key then (k, v) :: rest else (k, w) :: setKey rest key v

/-- `Object.assign(base, extra)`: later sources override, keeping key order. -/
def objAssign (base extra : List (String × JVal)) : List (String × JVal) :=
  extra.foldl (fun acc kv => setKey acc kv.1 kv.2) base

/-- Removal of a property, for the `lineBreak` post-processor
`({content, ...rest}) => rest`. -/
def removeKey : List (String × JVal) → String → List (String × JVal)
  | [], _ => []
  | (k, v) :: rest, key => if k == key then rest else (k, v) :: removeKey rest key

/-- `[].concat(node)`: an array spreads one level, anything else is boxed. -/
def concatNode : JVal → List JVal
  | .jarr l => l
  | v => [v]

/-- Whether a value is a comment node (`part.type === 'comment'`). -/
def isCommentNode (v : JVal) : Bool :=
  match v with
  | .jobj fs =>
    match getKey fs "type" with
    | some (.jstr t) => t == "comment"
    | _ => false
  | _ => false

/-- One step of `Parser.append`: a string chunk is concatenated onto a final
string element, any other chunk (or a chunk after a non-string) is pushed. -/
def appendOne : List JVal → JVal → List JVal
  | [], c => [c]
  | [x], c =>
    match x, c with
    | .jstr a, .jstr b => [.jstr (a ++ b)]
    | x, c => [x, c]
  | x :: y :: rest, c => x :: appendOne (y :: rest) c

/-- `Parser.append(content, chunks)`, processing chunks left to right. -/
def appendJS (content : List JVal) (chunks : List JVal) : List JVal :=
  chunks.foldl appendOne content

/-- First half of `Parser.trim`: trim the first element if it is a string,
removing it when it becomes empty. -/
def trimHead (content : List JVal) : List JVal :=
  match content with
  | .jstr s :: rest =>
    let t := trimLeftStr s
    if t == "" then rest else .jstr t :: rest
  | _ => content

/-- Second half of `Parser.trim`: trim the last element if it is a string,
removing it when it becomes empty. -/
def trimLastGo : List JVal → List JVal
  | [] => []
  | [x] =>
    match x with
    | .jstr s =>
      let t := trimRightStr s
      if t == "" then [] else [.jstr t]
    | x => [x]
  | x :: y :: rest => x :: trimLastGo (y :: rest)

/-- `Parser.trim` on a non-null content list: left-trim the first element,
then right-trim the last element of the result. -/
def trimList (content : List JVal) : List JVal :=
  if content.isEmpty then content else trimLastGo (trimHead content)

/-- Coarse string coercion of a value, for `parseInt`'s argument (an array
coerces via `join(',')`; only the single-string case is exercised). -/
def jvalCoerceStr : JVal → String
  | .jstr s => s
  | .jnull => ""
  | .jbool b => if b then "true" else "false"
  | .jnum n => toString n
  | .jarr _ => ""
  | .jobj _ => "[object Object]"

/-- `Array.prototype.toString`, i.e. `join(',')` over coerced elements. -/
def jarrToString (l : List JVal) : String :=
  String.intercalate "," (l.map jvalCoerceStr)

/-- `String.prototype.split('#')`. -/
def splitHashAux : List Char → List Char → List (List Char)
  | [], acc => [acc.reverse]
  | c :: rest, acc =>
    if c == '#' then acc.reverse :: splitHashAux rest []
    else splitHashAux rest (c :: acc)

/-- Split a string on `#` (always a nonempty list of pieces). -/
def jsSplitHash (s : String) : List String :=
  (splitHashAux s.data []).map String.mk

/-- Cursor: `{offset, lineNumber}` of the source `Parser`. -/
structure Pos where
  offset : Nat
  lineNumber : Nat

/-- Parser options with the source's `kDefaultOptions` defaults.  `debug`
only selects stderr logging in the source and has no effect on results. -/
structure Options where
  backtrackingLimit : Nat := 50000
  «throwError» : Bool := false
  returnError : Bool := false
  debug : Bool := false

/-- Faults that can escape the engine: the named
`BacktrackingLimitExceededError`, `this.error(...)` parse errors (the
annotated context-stack snapshot attached to the message is a debugging aid
and is not modelled), runtime `TypeError`s from calling string or iteration
methods on non-strings, and the internal post-processor check. -/
inductive Fault where
  | backtrackingLimitExceeded
  | parseError (expected : String) (line : Nat)
  | typeError (msg : String)
  | postProcessInvalid (t : String)

/-- Predicates pushed on `this.backtrackOn`.  Every call site in the
repository pushes `this.isEndOfLine`, so that is the only constructor. -/
inductive BtPred where
  | isEndOfLine

/-- Engine state: the fields of `Parser` mutated during a parse, plus the
immutable options.  The lowercase view is derived (see the header). -/
structure St where
  str : List Char
  pos : Pos
  btPreds : List BtPred
  backtrackingCount : Nat
  stack : List Pos
  options : Options

/-- Result of an engine routine: a value with the updated state, the
"no match" answer `null` (with the state as the source leaves it), a thrown
fault, or fuel exhaustion (a device of the model only). -/
inductive PRes (α : Type) where
  | ok : α → St → PRes α
  | nullRes : St → PRes α
  | fault : Fault → St → PRes α
  | noFuel : PRes α

/-- `Parser.isStart`. -/
def isStart (s : St) : Bool := s.pos.offset == 0

/-- `Parser.isEnd`. -/
def isEnd (s : St) : Bool := s.str.length ≤ s.pos.offset

/-- Character of the input at an absolute index. -/
def charAt (s : St) (i : Nat) : Option Char := s.str.get? i

/-- `Parser.isStartOfLine` (when `offset` is `0` the first disjunct reads
index `0` instead of JavaScript's out-of-range `-1`, but `isStart` then
makes the result `true` either way). -/
def isStartOfLine (s : St) : Bool :=
  (decide (0 < s.str.length) &&
    (match charAt s (s.pos.offset - 1) with
     | some c => c == '\n'
     | none => false)) || isStart s

/-- `Parser.isEndOfLine`. -/
def isEndOfLine (s : St) : Bool :=
  isEnd s ||
  (match charAt s s.pos.offset with
   | some c => c == '\n'
   | none => false)

/-- Case-insensitive prefix match of `Parser.startsWith` against the
lowercase view: position `i` matches iff the lowercase expansion of the
input character there is exactly the one prefix character. -/
def startsWithFrom : List Char → List Char → Bool
  | _, [] => true
  | [], _ :: _ => false
  | c :: cs, p :: ps => jsToLower c == [p] && startsWithFrom cs ps

/-- `Parser.startsWith(prefix)` at the cursor. -/
def startsWith (s : St) (p : List Char) : Bool :=
  startsWithFrom (s.str.drop s.pos.offset) p

/-- `Parser.startsWithAny`. -/
def startsWithAny (s : St) (ps : List (List Char)) : Bool :=
  ps.any (startsWith s)

/-- `Parser.advance(chunk)`: move the offset by the chunk length and count
its newlines into the line number. -/
def advance (s : St) (chunk : List Char) : St :=
  { s with
    pos :=
      { offset := s.pos.offset + chunk.length
        lineNumber := s.pos.lineNumber + (chunk.filter (fun c => c == '\n')).length } }

/-- `Parser.eat(chunk, false)`: the non-raising variant. -/
def eatB (s : St) (chunk : List Char) : Bool × St :=
  if startsWith s chunk then (true, advance s chunk) else (false, s)

/-- `Parser.eat(chunk)` with `error = true`: raise when absent. -/
def eatT (s : St) (chunk : List Char) : PRes Unit :=
  if startsWith s chunk then .ok () (advance s chunk)
  else .fault (.parseError (String.mk chunk) s.pos.lineNumber) s

/-- `Parser.eatAny(chunks, false)`: eat the first matching chunk. -/
def eatAnyB (s : St) : List (List Char) → Bool × St
  | [] => (false, s)
  | c :: rest => if startsWith s c then (true, advance s c) else eatAnyB s rest

/-- `Parser.eatAny(chunks)` with `error = true`. -/
def eatAnyT (s : St) (chunks : List (List Char)) : PRes Unit :=
  match eatAnyB s chunks with
  | (true, s') => .ok () s'
  | (false, _) =>
    .fault (.parseError (String.intercalate ", " (chunks.map String.mk)) s.pos.lineNumber) s

/-- Loop body of `Parser.eatWhitespace`, bounded by the remaining input
(each iteration consumes one character). -/
def eatWhitespaceAux : Nat → Bool → St → St
  | 0, _, s => s
  | n + 1, newLine, s =>
    match eatAnyB s ([[' '], ['\t']] ++ (if newLine then [['\n']] else [])) with
    | (true, s') => eatWhitespaceAux n newLine s'
    | (false, _) => s

/-- `Parser.eatWhitespace(newLine)`. -/
def eatWhitespace (newLine : Bool) (s : St) : St :=
  eatWhitespaceAux (s.str.length + 1) newLine s

/-- Loop body of `Parser.eatCount`, bounded by the remaining input (all
call sites pass a nonempty chunk, so each iteration advances). -/
def eatCountAux : Nat → List Char → St → St × Nat
  | 0, _, s => (s, 0)
  | n + 1, chunk, s =>
    if startsWith s chunk then
      let r := eatCountAux n chunk (advance s chunk)
      (r.1, r.2 + 1)
    else (s, 0)

/-- `Parser.eatCount(chunk)`: greedily consume, returning the count. -/
def eatCount (chunk : List Char) (s : St) : St × Nat :=
  eatCountAux (s.str.length + 1) chunk s

/-- The backtrack accounting `++this.backtrackingCount > limit`: `none`
models the `BacktrackingLimitExceededError` throw. -/
def bump (s : St) : Option St :=
  if s.options.backtrackingLimit < s.backtrackingCount + 1 then none
  else some { s with backtrackingCount := s.backtrackingCount + 1 }

/-- Push `this.isEndOfLine` onto the predicate stack when the `next` call
carries `backtrackOn` (the stack top is the array end of the source). -/
def pushBtIf (b : Bool) (s : St) : St :=
  if b then { s with btPreds := .isEndOfLine :: s.btPreds } else s

/-- Pop the predicate pushed by this `next` call, if any. -/
def popBtIf (b : Bool) (s : St) : St :=
  if b then { s with btPreds := s.btPreds.tail } else s

/-- `this.backtrackOn.some(x => x())`. -/
def anyBtFires (s : St) : Bool :=
  s.btPreds.any (fun p => match p with | .isEndOfLine => isEndOfLine s)

/-- Push the current position onto the context stack. -/
def pushStack (s : St) : St := { s with stack := s.pos :: s.stack }

/-- Pop the context stack. -/
def popStack (s : St) : St := { s with stack := s.stack.tail }

/-- `this.str.substr(start, len)`. -/
def substr (s : St) (start len : Nat) : String :=
  String.mk ((s.str.drop start).take len)

/-- Options of `Parser.next`.  The source signature also destructures
`endBeforeRegex` and `endOn`, but no call site in the repository supplies
either, so both checks in the loop are always skipped and the two fields are
omitted here.  Call sites that pass a `stop` key are modelled without it:
`stop` is not among `next`'s destructured parameters, so the source silently
drops it (it does not become `backtrack`). -/
structure NextOpts where
  endTok : List (List Char) := []
  endAtEos : Bool := false
  notEndTok : List (List Char) := []
  endBeforeTok : List (List Char) := []
  backtrackTok : List (List Char) := []
  allow : Option (List String) := none
  disallow : List String := []
  backtrackOn : Bool := false

/-- Pre-conditions appearing in the grammar table (`this.isStartOfLine`). -/
inductive PreC where
  | isStartOfLine

/-- Post-conditions appearing in the grammar table: the external-link URI
scheme regex and `this.isAfterTagName`. -/
inductive PostC where
  | uriScheme
  | afterTagName

/-- Post-processors appearing in the grammar table. -/
inductive PostP where
  | commentStrip
  | dropContent
  | retagTemplate
  | nowikiCollapse

/-- Options record of `WikiParser.tag`, with the source's defaults. -/
structure TagOpts where
  only : Option (List String) := none
  hasContent : Bool := true
  type : String := "tag"
  allow : Option (List String) := none
  disallow : List String := ["preformatted"]
  endBeforeTok : List (List Char) := [chars "\n|", chars "\n!"]
  trim : Bool := true

/-- Ad-hoc production functions referenced by `func` fields of the grammar. -/
inductive GFunc where
  | link
  | externalLink
  | template (allow : Option (List String))
  | list (marker : Char)
  | indent
  | description
  | heading
  | preformatted
  | htmlEntity
  | tag (o : TagOpts)
  | table
  | gallery

/-- Declarative fields of a grammar descriptor.  `endTok`, `notEndTok` and
`stopTok` are the source's `end`, `notEnd` and `stop` keys; `gname` is the
`name` key of group descriptors.  No descriptor carries `endAtEos`,
`endBefore` or `backtrack` keys, so those have no field here. -/
structure GFields where
  type : Option String := none
  gname : Option String := none
  start : List Char
  keepStart : Bool := false
  endTok : List (List Char) := []
  notEndTok : List (List Char) := []
  stopTok : List (List Char) := []
  allow : Option (List String) := none
  disallow : List String := []
  backtrackOn : Bool := false
  preC : Option PreC := none
  postC : Option PostC := none
  replaceWith : Option String := none
  postP : Option PostP := none

mutual
/-- A grammar descriptor: its declarative fields plus its action. -/
inductive GEntry where
  | mk (fields : GFields) (act : GAction)
/-- Action of a descriptor: plain `next(descriptor)`, an ad-hoc `func`, or a
`group` sub-table. -/
inductive GAction where
  | declarative
  | func (g : GFunc)
  | group (entries : List GEntry)
end

/-- Fields of a descriptor. -/
def GEntry.fields : GEntry → GFields
  | .mk f _ => f

/-- Action of a descriptor. -/
def GEntry.act : GEntry → GAction
  | .mk _ a => a

/-- The option object that `next(nodeType)` receives for a declarative
descriptor: only keys that `next` destructures survive (`stop` is dropped,
matching the source's silent discard of that key). -/
def GFields.toNextOpts (g : GFields) : NextOpts :=
  { endTok := g.endTok
    notEndTok := g.notEndTok
    allow := g.allow
    disallow := g.disallow
    backtrackOn := g.backtrackOn }

/-- Two apostrophes, the `italics` token. -/
def tokQuote2 : List Char := List.replicate 2 apoC

/-- Three apostrophes, the `bold` token. -/
def tokQuote3 : List Char := List.replicate 3 apoC

/-- Five apostrophes, the `boldItalics` token. -/
def tokQuote5 : List Char := List.replicate 5 apoC

/-- The `htmlEntities` group (start `&`). -/
def htmlEntitiesGroup : List GEntry :=
  [ .mk { type := some "nbsp", start := chars "nbsp;", replaceWith := some " " } .declarative
  , .mk { type := some "lt", start := chars "lt;", replaceWith := some "<" } .declarative
  , .mk { type := some "gt", start := chars "gt;", replaceWith := some ">" } .declarative
  , .mk { type := some "mdash", start := chars "mdash;", replaceWith := some "—" } .declarative
  , .mk { type := some "ndash", start := chars "ndash;", replaceWith := some "–" } .declarative
  , .mk { type := some "minus", start := chars "minus;", replaceWith := some "−" } .declarative
  , .mk { type := some "thinsp", start := chars "thinsp;", replaceWith := some " " } .declarative
  , .mk { type := some "htmlEntity", start := chars "#" } (.func .htmlEntity) ]

/-- The `tags` group (start `<`, keepStart). -/
def tagsGroup : List GEntry :=
  [ .mk { type := some "comment", start := chars "<!--", endTok := [chars "-->"],
          allow := some [], postP := some .commentStrip } .declarative
  , .mk { type := some "lineBreak", start := chars "<br", postC := some .afterTagName,
          endTok := [chars ">"], postP := some .dropContent } .declarative
  , .mk { type := some "hr", start := chars "<hr", keepStart := true }
      (.func (.tag { only := some ["hr"], hasContent := false }))
  , .mk { type := some "source", start := chars "<source", keepStart := true }
      (.func (.tag { only := some ["source"], type := "source", allow := some [] }))
  , .mk { type := some "math", start := chars "<math", keepStart := true }
      (.func (.tag { only := some ["math"], type := "math",
                     disallow := ["template", "templatePreformatted"] }))
  , .mk { type := some "ref", start := chars "<ref", keepStart := true }
      (.func (.tag { only := some ["ref"], type := "ref" }))
  , .mk { type := some "nowiki", start := chars "<nowiki", keepStart := true,
          postP := some .nowikiCollapse }
      (.func (.tag { only := some ["nowiki"], type := "nowiki", allow := some [] }))
  , .mk { type := some "pre", start := chars "<pre", keepStart := true }
      (.func (.tag { only := some ["pre"], type := "pre", allow := some [], trim := false }))
  , .mk { type := some "syntaxhighlight", start := chars "<syntaxhighlight", keepStart := true }
      (.func (.tag { only := some ["syntaxhighlight"], type := "syntaxhighlight",
                     allow := some [] }))
  , .mk { type := some "code", start := chars "<code", keepStart := true }
      (.func (.tag { only := some ["code"], type := "code", allow := some [] }))
  , .mk { type := some "gallery", start := chars "<gallery", postC := some .afterTagName }
      (.func .gallery)
  , .mk { type := some "tag", start := chars "<", keepStart := true } (.func (.tag {})) ]

/-- The ordered grammar table of `WikiParser` (declaration order matters).
The `start` literals of `toc` and `notoc` are kept verbatim in the source's
upper case even though `startsWith` expects lowercase prefixes, so, as in
the source, those two entries can never match. -/
def wikiGrammar : List GEntry :=
  [ .mk { type := some "link", start := chars "[[" } (.func .link)
  , .mk { type := some "externalLink", start := chars "[", postC := some .uriScheme }
      (.func .externalLink)
  , .mk { type := some "boldItalics", start := tokQuote5, endTok := [tokQuote5],
          stopTok := [chars "]]"], backtrackOn := true } .declarative
  , .mk { type := some "bold", start := tokQuote3, endTok := [tokQuote3],
          stopTok := [chars "]]"], backtrackOn := true } .declarative
  , .mk { type := some "italics", start := tokQuote2, endTok := [tokQuote2],
          notEndTok := [tokQuote3], stopTok := [chars "]]"],
          disallow := ["preformatted"], backtrackOn := true } .declarative
  , .mk { type := some "template", start := chars "\x7b\x7b" } (.func (.template none))
  , .mk { type := some "templatePreformatted", start := chars "\x7b\x7b",
          postP := some .retagTemplate } (.func (.template (some [])))
  , .mk { type := some "unorderedList", start := chars "*", keepStart := true,
          preC := some .isStartOfLine } (.func (.list '*'))
  , .mk { type := some "orderedList", start := chars "#", keepStart := true,
          preC := some .isStartOfLine } (.func (.list '#'))
  , .mk { type := some "indent", start := chars ":", keepStart := true,
          preC := some .isStartOfLine } (.func .indent)
  , .mk { type := some "description", start := chars ";", preC := some .isStartOfLine }
      (.func .description)
  , .mk { type := some "heading", start := chars "=", keepStart := true,
          preC := some .isStartOfLine } (.func .heading)
  , .mk { gname := some "htmlEntities", start := chars "&" } (.group htmlEntitiesGroup)
  , .mk { type := some "toc", start := chars "__TOC__", endTok := [[]] } .declarative
  , .mk { type := some "notoc", start := chars "__NOTOC__", endTok := [[]] } .declarative
  , .mk { type := some "preformatted", start := chars " ", keepStart := true,
          preC := some .isStartOfLine } (.func .preformatted)
  , .mk { gname := some "tags", start := chars "<", keepStart := true } (.group tagsGroup)
  , .mk { type := some "table", start := chars "\x7b|" } (.func .table)
  , .mk { type := some "horizontalRule", start := chars "----", preC := some .isStartOfLine }
      .declarative ]

/-- The external-link post-condition: the sticky case-insensitive URI regex
`((https?|ftps?|sftp|git|svn|ircs?):)?\/\/|(mailto|magnet|tel|urn|xmpp|geo):`
at the cursor, expressed as the equivalent prefix disjunction over the
lowercase view (the regex alternatives are ASCII literals). -/
def uriSchemeAt (s : St) : Bool :=
  startsWithAny s
    ([ "http://", "https://", "ftp://", "ftps://", "sftp://", "git://", "svn://",
       "irc://", "ircs://", "//", "mailto:", "magnet:", "tel:", "urn:", "xmpp:",
       "geo:" ].map chars)

/-- `WikiParser.isAfterTagName`. -/
def isAfterTagName (s : St) : Bool :=
  startsWithAny s [[' '], chars ">", chars "/>", chars "/ >", ['\t']]

/-- Evaluate a grammar pre-condition. -/
def evalPreC : PreC → St → Bool
  | .isStartOfLine, s => isStartOfLine s

/-- Evaluate a grammar post-condition. -/
def evalPostC : PostC → St → Bool
  | .uriScheme, s => uriSchemeAt s
  | .afterTagName, s => isAfterTagName s

/-- Strip the comment edges of every element of a content list; a non-string
element would raise a `TypeError` (`x.replace` on a non-string). -/
def mapStripStrings : List JVal → Option (List JVal)
  | [] => some []
  | .jstr s :: rest => (mapStripStrings rest).map (fun r => .jstr (stripCommentEdges s) :: r)
  | _ :: _ => none

/-- Apply a grammar post-processor to the wrapped node.  Each returns
`some`; the `none` case feeds the source's internal null check.  The
fall-through identity cases for non-objects are unreachable: every
post-processed production yields an object. -/
def applyPostP : PostP → JVal → Except Fault (Option JVal)
  | .commentStrip, v =>
    match v with
    | .jobj fs =>
      match getKey fs "content" with
      | some (.jarr l) =>
        match mapStripStrings l with
        | some l2 => .ok (some (.jobj (objAssign fs [("content", .jarr l2)])))
        | none => .error (.typeError "replace is not a function")
      | _ => .error (.typeError "map is not a function")
    | v => .ok (some v)
  | .dropContent, v =>
    match v with
    | .jobj fs => .ok (some (.jobj (removeKey fs "content")))
    | v => .ok (some v)
  | .retagTemplate, v =>
    match v with
    | .jobj fs => .ok (some (.jobj (objAssign fs [("type", .jstr "template")])))
    | v => .ok (some v)
  | .nowikiCollapse, v =>
    match v with
    | .jobj fs =>
      match getKey fs "content" with
      | some .jnull => .ok (some (.jarr []))
      | some _ => .ok (some v)
      | none => .ok (some (.jarr []))
    | v => .ok (some v)

/-- The `allow`/`disallow` filter of `Parser.node` (descriptors without a
`type`, i.e. groups, are never filtered). -/
def filteredOut (t : Option String) (allow : Option (List String)) (disallow : List String) :
    Bool :=
  match t with
  | none => false
  | some ty =>
    (match allow with
     | some l => !(l.contains ty)
     | none => false) || disallow.contains ty

/-- The `type` wrapping of `Parser.node`: a bare list becomes
`{type, content}`, a map gets `type` merged in front (the map's own `type`
key, if any, overrides, as `Object.assign` does); strings and other
primitives pass through unwrapped. -/
def wrapContent (t : Option String) (v : JVal) : JVal :=
  match v with
  | .jarr l =>
    .jobj ((match t with | some ty => [("type", .jstr ty)] | none => []) ++
           [("content", .jarr l)])
  | .jobj fs =>
    .jobj (objAssign (match t with | some ty => [("type", .jstr ty)] | none => []) fs)
  | v => v

/-- Positional parameters as the final dense array value: holes (created by
sparse assignment) read as undefined and are rendered `null`, like JSON
serialisation of a sparse array. -/
def posParamsToJ (l : List (Option JVal)) : JVal :=
  .jarr (l.map (fun o => o.getD .jnull))

/-- Sparse array assignment `arr[i] = v` for a natural index, extending with
holes beyond the current length. -/
def setIndexNat : List (Option JVal) → Nat → JVal → List (Option JVal)
  | [], 0, v => [some v]
  | [], n + 1, v => none :: setIndexNat [] n v
  | _ :: rest, 0, v => some v :: rest
  | x :: rest, n + 1, v => x :: setIndexNat rest n v

/-- Sparse array assignment with the coerced JavaScript index `key - 1`: a
negative index creates a non-index property that the dense array never
shows, modelled as a no-op. -/
def setIndexInt (l : List (Option JVal)) (i : Int) (v : JVal) : List (Option JVal) :=
  if i < 0 then l else setIndexNat l i.toNat v

/-- Parameter placement shared by `WikiParser.template` and
`WikiParser.link`: `isNaN(name) ? parameters[name] = value :
positionalParameters[name - 1] = value`. -/
def storeParameter (params : List (String × JVal)) (posParams : List (Option JVal))
    (key : String) (value : JVal) : List (String × JVal) × List (Option JVal) :=
  match jsToInt key with
  | none => (setKey params key value, posParams)
  | some n => (params, setIndexInt posParams (n - 1) value)

/-- Loop of the link-trail rule: consume consecutive `\w` characters after
`]]`, appending each to the link content via `append` (a `TypeError` if the
content is not an array).  Bounded by the remaining input. -/
def linkTrailAux : Nat → JVal → St → PRes JVal
  | 0, content, s => .ok content s
  | n + 1, content, s =>
    match charAt s s.pos.offset with
    | none => .ok content s
    | some c =>
      if isWordChar c then
        match content with
        | .jarr l => linkTrailAux n (.jarr (appendJS l [.jstr (String.mk [c])])) (advance s [c])
        | _ => .fault (.typeError "append to non-array link content") s
      else .ok content s

/-- The link-trail loop at the cursor. -/
def linkTrail (s : St) (content : JVal) : PRes JVal :=
  linkTrailAux (s.str.length - s.pos.offset) content s

/-- Concatenation of the string parts of the external-link URI
(`uri.filter(part => typeof part === 'string').join('')`). -/
def joinStrings (l : List JVal) : String :=
  String.join (l.filterMap (fun v => match v with | .jstr s => some s | _ => none))

/-- One fuel layer of the engine: every mutually recursive routine of the
source (`next`, `node`, the productions, and their internal loops, each
loop iteration consuming one layer). -/
structure Interp where
  next : NextOpts → St → PRes (List JVal)
  nextLoop : NextOpts → Pos → Nat → Nat → List JVal → St → PRes (List JVal)
  node : Option (List String) → List String → List GEntry → St → PRes JVal
  template : Option (List String) → St → PRes JVal
  templateParams : Option (List String) → List (String × JVal) → List (Option JVal) → St →
    PRes (List (String × JVal) × List (Option JVal))
  link : St → PRes JVal
  linkParams : List (String × JVal) → List (Option JVal) → St →
    PRes (List (String × JVal) × List (Option JVal))
  externalLink : St → PRes JVal
  tag : TagOpts → St → PRes JVal
  attributes : List (List Char) → Bool → St → PRes (List (String × JVal))
  attrLoop : List (List Char) → Bool → List (String × JVal) → St →
    PRes (List (String × JVal))
  quotedString : Bool → St → PRes JVal
  listLoop : Char → List JVal → St → PRes (List JVal)
  indentLoop : Bool → List JVal → St → PRes (List JVal)
  description : St → PRes JVal
  heading : St → PRes JVal
  preLoop : List JVal → St → PRes (List JVal)
  htmlEntity : St → PRes JVal
  table : St → PRes JVal
  tableLoop : List JVal → St → PRes (List JVal)
  tableRow : Bool → St → PRes JVal
  cellLoop : List JVal → St → PRes (List JVal)
  gallery : St → PRes JVal
  galleryLoop : List JVal → St → PRes (List JVal)
  eatComments : List JVal → St → PRes (List JVal)

/-- Exit of the `next` loop: flush the pending plaintext chunk and pop the
predicate pushed by this call. -/
def nextFinish (opts : NextOpts) (chunkStart chunkLength : Nat) (content : List JVal)
    (s : St) : PRes (List JVal) :=
  let content1 :=
    if 0 < chunkLength then appendJS content [.jstr (substr s chunkStart chunkLength)]
    else content
  .ok content1 (popBtIf opts.backtrackOn s)

/-- Plaintext step of the `next` loop: extend the current chunk by one input
unit.  Reading past the end (possible only after a falsy non-null node moved
the cursor to the end) is the source's `undefined.length` `TypeError`. -/
def nextPlain (I : Interp) (opts : NextOpts) (originalPos : Pos)
    (chunkStart chunkLength : Nat) (content : List JVal) (s : St) : PRes (List JVal) :=
  match charAt s s.pos.offset with
  | none => .fault (.typeError "length of undefined") s
  | some c =>
    let chunkStart1 := if chunkLength == 0 then s.pos.offset else chunkStart
    I.nextLoop opts originalPos chunkStart1 (chunkLength + 1) content (advance s [c])

/-- Body of `Parser.next` before the loop: the early empty return when no
end condition is configured, then the predicate push. -/
def nextF (I : Interp) (opts : NextOpts) (s : St) : PRes (List JVal) :=
  if opts.endTok.isEmpty && opts.endBeforeTok.isEmpty && opts.backtrackTok.isEmpty &&
      !opts.endAtEos then
    .ok [] s
  else
    I.nextLoop opts s.pos s.pos.offset 0 [] (pushBtIf opts.backtrackOn s)

/-- One iteration of the `for (;;)` loop of `Parser.next`. -/
def nextLoopF (I : Interp) (opts : NextOpts) (originalPos : Pos)
    (chunkStart chunkLength : Nat) (content : List JVal) (s : St) : PRes (List JVal) :=
  let eos := isEnd s
  if eos && opts.endAtEos then
    nextFinish opts chunkStart chunkLength content s
  else if anyBtFires s || startsWithAny s opts.backtrackTok || eos then
    match bump s with
    | none =>
      .fault .backtrackingLimitExceeded
        { s with backtrackingCount := s.backtrackingCount + 1 }
    | some s1 => .nullRes (popBtIf opts.backtrackOn { s1 with pos := originalPos })
  else if startsWithAny s opts.endTok && !startsWithAny s opts.notEndTok then
    match eatAnyT s opts.endTok with
    | .ok _ s1 => nextFinish opts chunkStart chunkLength content s1
    | .fault e s1 => .fault e s1
    | .nullRes s1 => .nullRes s1
    | .noFuel => .noFuel
  else if startsWithAny s opts.endBeforeTok then
    nextFinish opts chunkStart chunkLength content s
  else
    match I.node opts.allow opts.disallow wikiGrammar (pushStack s) with
    | .noFuel => .noFuel
    | .fault e s1 => .fault e s1
    | .nullRes s1 => nextPlain I opts originalPos chunkStart chunkLength content (popStack s1)
    | .ok v s1 =>
      let s2 := popStack s1
      if jsTruthy v then
        let content1 :=
          if 0 < chunkLength then appendJS content [.jstr (substr s2 chunkStart chunkLength)]
          else content
        let chunkStart1 := if 0 < chunkLength then s2.pos.offset else chunkStart
        I.nextLoop opts originalPos chunkStart1 0 (appendJS content1 (concatNode v)) s2
      else
        nextPlain I opts originalPos chunkStart chunkLength content s2

/-- Wrapping and post-processing tail of one `Parser.node` candidate. -/
def nodeWrap (f : GFields) (v : JVal) (s2 : St) : PRes JVal :=
  let w := wrapContent f.type v
  match f.postP with
  | none => .ok w s2
  | some pp =>
    match applyPostP pp w with
    | .error e => .fault e s2
    | .ok none => .fault (.postProcessInvalid (f.type.getD "")) s2
    | .ok (some v2) => .ok v2 s2

/-- Dispatch of a `func` field to its production. -/
def runGFunc (I : Interp) : GFunc → St → PRes JVal
  | .link, s => I.link s
  | .externalLink, s => I.externalLink s
  | .template a, s => I.template a s
  | .list m, s =>
    match I.listLoop m [] s with
    | .ok items s1 => .ok (.jobj [("items", .jarr items)]) s1
    | .nullRes s1 => .nullRes s1
    | .fault e s1 => .fault e s1
    | .noFuel => .noFuel
  | .indent, s =>
    match I.indentLoop false [] s with
    | .ok items s1 => .ok (.jobj [("items", .jarr items)]) s1
    | .nullRes s1 => .nullRes s1
    | .fault e s1 => .fault e s1
    | .noFuel => .noFuel
  | .description, s => I.description s
  | .heading, s => I.heading s
  | .preformatted, s =>
    match I.preLoop [] s with
    | .ok content s1 => .ok (.jarr content) s1
    | .nullRes s1 => .nullRes s1
    | .fault e s1 => .fault e s1
    | .noFuel => .noFuel
  | .htmlEntity, s => I.htmlEntity s
  | .tag o, s => I.tag o s
  | .table, s => I.table s
  | .gallery, s => I.gallery s

/-- The state at which a matched candidate's body runs: the start literal is
kept in place for `keepStart` descriptors and consumed otherwise. -/
def entryStart (f : GFields) (s : St) : St :=
  if f.keepStart then s else advance s f.start

/-- Walk of the grammar table in `Parser.node`.  `originalPos` is the
position at entry; each `continue` of the source restores it exactly where
the source does.  The `eat(start)` of a matched candidate cannot raise
because `startsWith` was just checked, so it is modelled as `advance`. -/
def nodeGo (I : Interp) (allow : Option (List String)) (disallow : List String)
    (originalPos : Pos) : List GEntry → St → PRes JVal
  | [], s => .nullRes s
  | .mk f act :: rest, s =>
    if !(startsWith s f.start) || filteredOut f.type allow disallow then
      nodeGo I allow disallow originalPos rest s
    else if (match f.preC with | some pc => !(evalPreC pc s) | none => false) then
      nodeGo I allow disallow originalPos rest { s with pos := originalPos }
    else
      let s1 := entryStart f s
      if (match f.postC with | some pc => !(evalPostC pc s1) | none => false) then
        nodeGo I allow disallow originalPos rest { s1 with pos := originalPos }
      else
        match act with
        | .group g =>
          match I.node allow disallow g s1 with
          | .nullRes s2 => nodeGo I allow disallow originalPos rest { s2 with pos := originalPos }
          | r => r
        | .func gf =>
          match runGFunc I gf s1 with
          | .noFuel => .noFuel
          | .fault e s2 => .fault e s2
          | .ok v s2 =>
            match f.replaceWith with
            | some rw => .ok (.jstr rw) s2
            | none => nodeWrap f v s2
          | .nullRes s2 =>
            match f.replaceWith with
            | some rw => .ok (.jstr rw) s2
            | none =>
              match bump s2 with
              | none =>
                .fault .backtrackingLimitExceeded
                  { s2 with backtrackingCount := s2.backtrackingCount + 1 }
              | some s3 => nodeGo I allow disallow originalPos rest { s3 with pos := originalPos }
        | .declarative =>
          match I.next f.toNextOpts s1 with
          | .noFuel => .noFuel
          | .fault e s2 => .fault e s2
          | .ok l s2 =>
            match f.replaceWith with
            | some rw => .ok (.jstr rw) s2
            | none => nodeWrap f (.jarr l) s2
          | .nullRes s2 =>
            match f.replaceWith with
            | some rw => .ok (.jstr rw) s2
            | none =>
              match bump s2 with
              | none =>
                .fault .backtrackingLimitExceeded
                  { s2 with backtrackingCount := s2.backtrackingCount + 1 }
              | some s3 => nodeGo I allow disallow originalPos rest { s3 with pos := originalPos }

/-- `Parser.node(allow, disallow, grammar)`. -/
def nodeF (I : Interp) (allow : Option (List String)) (disallow : List String)
    (grammar : List GEntry) (s : St) : PRes JVal :=
  nodeGo I allow disallow s.pos grammar s

/-- Option object of a template or link `key=value` value parse. -/
def templateValueOpts (allow1 : Option (List String)) : NextOpts :=
  { endBeforeTok := [chars "|", chars "\x7d\x7d"], allow := allow1,
    disallow := ["preformatted"] }

/-- Positional branch of the template parameter loop: restore the segment
start, parse the segment as a positional value, and continue the loop. -/
def templateParamsPositional (I : Interp) (allow1 : Option (List String))
    (params : List (String × JVal)) (posParams : List (Option JVal)) (s : St) :
    PRes (List (String × JVal) × List (Option JVal)) :=
  match I.next (templateValueOpts allow1) s with
  | .noFuel => .noFuel
  | .fault e s1 => .fault e s1
  | .ok vl s1 => I.templateParams allow1 params (posParams ++ [some (.jarr (trimList vl))]) s1
  | .nullRes s1 => I.templateParams allow1 params (posParams ++ [some .jnull]) s1

/-- One iteration of the `while (this.eat('|', false))` parameter loop of
`WikiParser.template`.  The key parse passes `end: ['=']` with `allow:
['comment']` and the end-of-line backtrack predicate; the `stop` key of the
source call is silently dropped by `next` and so does not appear. -/
def templateParamsF (I : Interp) (allow1 : Option (List String))
    (params : List (String × JVal)) (posParams : List (Option JVal)) (s : St) :
    PRes (List (String × JVal) × List (Option JVal)) :=
  match eatB s (chars "|") with
  | (false, s1) => .ok (params, posParams) s1
  | (true, s1) =>
    let originalPos := s1.pos
    match I.next { endTok := [chars "="], allow := some ["comment"], backtrackOn := true } s1 with
    | .noFuel => .noFuel
    | .fault e s2 => .fault e s2
    | .nullRes s2 =>
      templateParamsPositional I allow1 params posParams { s2 with pos := originalPos }
    | .ok nc s2 =>
      match nc with
      | [] => templateParamsPositional I allow1 params posParams { s2 with pos := originalPos }
      | p0 :: _ =>
        match p0 with
        | .jstr k0 =>
          let nm := jsLowerStr (jsTrimStr k0)
          if nm == "" then
            templateParamsPositional I allow1 params posParams { s2 with pos := originalPos }
          else
            match I.next (templateValueOpts allow1) s2 with
            | .noFuel => .noFuel
            | .fault e s3 => .fault e s3
            | .ok vl s3 =>
              let r := storeParameter params posParams nm (.jarr (trimList vl))
              I.templateParams allow1 r.1 r.2 s3
            | .nullRes s3 =>
              let r := storeParameter params posParams nm .jnull
              I.templateParams allow1 r.1 r.2 s3
        | _ => .fault (.typeError "trim is not a function") s2

/-- `WikiParser.template(allow)`: name, whitespace, parameter loop, and the
mandatory closing braces. -/
def templateF (I : Interp) (allowParam : Option (List String)) (s : St) : PRes JVal :=
  match I.next { endBeforeTok := [chars "|", chars "\x7d\x7d"],
                 allow := some ["comment", "template"] } s with
  | .noFuel => .noFuel
  | .fault e s1 => .fault e s1
  | .nullRes s1 => .nullRes s1
  | .ok parts s1 =>
    match parts.filter (fun p => !(isCommentNode p)) with
    | [] => .nullRes s1
    | p0 :: _ =>
      match p0 with
      | .jstr str0 =>
        let nm := jsLowerStr (jsTrimStr str0)
        if nm == "" then .nullRes s1
        else
          let allow1 := if nm == "code" then some [] else allowParam
          match I.templateParams allow1 [] [] (eatWhitespace true s1) with
          | .noFuel => .noFuel
          | .fault e s2 => .fault e s2
          | .nullRes s2 => .nullRes s2
          | .ok pp s2 =>
            match eatB s2 (chars "\x7d\x7d") with
            | (false, s3) => .nullRes s3
            | (true, s3) =>
              .ok (.jobj [("name", .jstr nm), ("parameters", .jobj pp.1),
                          ("positionalParameters", posParamsToJ pp.2)]) s3
      | _ => .fault (.typeError "trim is not a function") s1

/-- Option object of a link parameter value parse (no `allow` is passed). -/
def linkValueOpts : NextOpts :=
  { endBeforeTok := [chars "|", chars "]]"], disallow := ["preformatted"] }

/-- Positional branch of the link parameter loop. -/
def linkParamsPositional (I : Interp) (params : List (String × JVal))
    (posParams : List (Option JVal)) (s : St) :
    PRes (List (String × JVal) × List (Option JVal)) :=
  match I.next linkValueOpts s with
  | .noFuel => .noFuel
  | .fault e s1 => .fault e s1
  | .ok vl s1 => I.linkParams params (posParams ++ [some (.jarr (trimList vl))]) s1
  | .nullRes s1 => I.linkParams params (posParams ++ [some .jnull]) s1

/-- One iteration of the parameter loop of `WikiParser.link`; identical in
shape to the template loop with link stoppers (the `stop` key is again
dropped by `next`). -/
def linkParamsF (I : Interp) (params : List (String × JVal))
    (posParams : List (Option JVal)) (s : St) :
    PRes (List (String × JVal) × List (Option JVal)) :=
  match eatB s (chars "|") with
  | (false, s1) => .ok (params, posParams) s1
  | (true, s1) =>
    let originalPos := s1.pos
    match I.next { endTok := [chars "="], allow := some ["comment"], backtrackOn := true } s1 with
    | .noFuel => .noFuel
    | .fault e s2 => .fault e s2
    | .nullRes s2 => linkParamsPositional I params posParams { s2 with pos := originalPos }
    | .ok nc s2 =>
      match nc with
      | [] => linkParamsPositional I params posParams { s2 with pos := originalPos }
      | p0 :: _ =>
        match p0 with
        | .jstr k0 =>
          let nm := jsLowerStr (jsTrimStr k0)
          if nm == "" then linkParamsPositional I params posParams { s2 with pos := originalPos }
          else
            match I.next linkValueOpts s2 with
            | .noFuel => .noFuel
            | .fault e s3 => .fault e s3
            | .ok vl s3 =>
              let r := storeParameter params posParams nm (.jarr (trimList vl))
              I.linkParams r.1 r.2 s3
            | .nullRes s3 =>
              let r := storeParameter params posParams nm .jnull
              I.linkParams r.1 r.2 s3
        | _ => .fault (.typeError "trim is not a function") s2

/-- The displayed content of a link before the trail rule: the last
positional parameter when one was given (a popped hole reads as undefined,
which behaves like the modelled null in every consumer), else `[to]`. -/
def linkContent0 (pp2 : List (Option JVal)) (t : String) : JVal :=
  match pp2 with
  | [] => .jarr [.jstr t]
  | _ => ((pp2.getLast?).getD none).getD .jnull

/-- The positional parameters kept on the link node: all but the popped
last one, and none when the list was empty. -/
def linkPosParams1 (pp2 : List (Option JVal)) : List (Option JVal) :=
  match pp2 with
  | [] => []
  | _ => pp2.dropLast

/-- `WikiParser.link`: page token, parameter loop, the `]]` that on failure
makes the production return the falsy value `false` (not null), the page
split on `#`, the displayed content (last positional parameter, else
`[to]`), and the trail rule. -/
def linkF (I : Interp) (s : St) : PRes JVal :=
  match I.next { endBeforeTok := [chars "|", chars "]]"], allow := some ["nbsp"],
                 backtrackOn := true } s with
  | .noFuel => .noFuel
  | .fault e s1 => .fault e s1
  | .nullRes s1 => .nullRes s1
  | .ok page s1 =>
    match I.linkParams [] [] s1 with
    | .noFuel => .noFuel
    | .fault e s2 => .fault e s2
    | .nullRes s2 => .nullRes s2
    | .ok pp s2 =>
      match eatB s2 (chars "]]") with
      | (false, s3) => .ok (.jbool false) s3
      | (true, s3) =>
        match page with
        | [] => .nullRes s3
        | p0 :: _ =>
          match p0 with
          | .jstr page0 =>
            let parts := jsSplitHash (jsTrimStr page0)
            let toStr := parts.headD ""
            let content0 : JVal := linkContent0 pp.2 toStr
            let posParams1 := linkPosParams1 pp.2
            match linkTrail s3 content0 with
            | .noFuel => .noFuel
            | .fault e s4 => .fault e s4
            | .nullRes s4 => .nullRes s4
            | .ok content1 s4 =>
              .ok (.jobj ([("to", .jstr toStr), ("content", content1)] ++
                (match parts.get? 1 with
                 | some a => if a != "" then [("anchor", .jstr a)] else []
                 | none => []) ++
                (if pp.1.isEmpty then [] else [("parameters", .jobj pp.1)]) ++
                (if posParams1.isEmpty then []
                 else [("positionalParameters", posParamsToJ posParams1)]))) s4
          | _ => .fault (.typeError "trim is not a function") s3

/-- `WikiParser.externalLink`: the URI up to whitespace or `]`, then the
optional display content; `trim(next(...)) || []` turns a null content into
the empty list. -/
def externalLinkF (I : Interp) (s : St) : PRes JVal :=
  match I.next { endTok := [[' '], ['\t']], endBeforeTok := [chars "]"],
                 allow := some ["comment"] } s with
  | .noFuel => .noFuel
  | .fault e s1 => .fault e s1
  | .nullRes s1 => .nullRes s1
  | .ok uriParts s1 =>
    match I.next { endTok := [chars "]"], backtrackOn := true } s1 with
    | .noFuel => .noFuel
    | .fault e s2 => .fault e s2
    | .ok l s2 =>
      .ok (.jobj [("uri", .jstr (joinStrings uriParts)),
                  ("content", .jarr (trimList l))]) s2
    | .nullRes s2 =>
      .ok (.jobj [("uri", .jstr (joinStrings uriParts)), ("content", .jarr [])]) s2

/-- `WikiParser.quotedString(closeQuoteOnNewline)`; the `stop` key of the
source call is dropped by `next`.  Returns `content[0] || ''`. -/
def quotedStringF (I : Interp) (cqn : Bool) (s : St) : PRes JVal :=
  match eatT s (chars "\x22") with
  | .fault e s0 => .fault e s0
  | .nullRes s0 => .nullRes s0
  | .noFuel => .noFuel
  | .ok _ s1 =>
    match I.next { endTok := [chars "\x22"],
                   endBeforeTok := if cqn then [chars "\n"] else [],
                   allow := some [] } s1 with
    | .noFuel => .noFuel
    | .fault e s2 => .fault e s2
    | .nullRes s2 => .nullRes s2
    | .ok l s2 =>
      match l with
      | [] => .ok (.jstr "") s2
      | v0 :: _ => .ok (if jsTruthy v0 then v0 else .jstr "") s2

/-- One iteration of the attribute loop of `WikiParser.attributes`. -/
def attrLoopF (I : Interp) (endBefore : List (List Char)) (cqn : Bool)
    (attrs : List (String × JVal)) (s : St) : PRes (List (String × JVal)) :=
  if isEnd s || startsWithAny s endBefore then .ok attrs s
  else
    let s1 := eatWhitespace false s
    match I.next { endTok := [[' '], ['\t']], endBeforeTok := endBefore ++ [chars "="] } s1 with
    | .noFuel => .noFuel
    | .fault e s2 => .fault e s2
    | .nullRes s2 => .ok attrs (eatWhitespace false s2)
    | .ok l s2 =>
      let s3 := eatWhitespace false s2
      match trimList l with
      | [] => .ok attrs s3
      | n0 :: _ =>
        let key := jvalCoerceStr n0
        match eatB s3 (chars "=") with
        | (false, s4) => I.attrLoop endBefore cqn (setKey attrs key (.jbool true)) s4
        | (true, s4) =>
          let s5 := eatWhitespace false s4
          if startsWith s5 (chars "\x22") then
            match I.quotedString cqn s5 with
            | .noFuel => .noFuel
            | .fault e s6 => .fault e s6
            | .nullRes s6 => .ok attrs s6
            | .ok v s6 => I.attrLoop endBefore cqn (setKey attrs key v) s6
          else
            match I.next { endTok := [[' '], ['\t']], endBeforeTok := endBefore } s5 with
            | .noFuel => .noFuel
            | .fault e s6 => .fault e s6
            | .nullRes s6 => .ok attrs s6
            | .ok vl s6 =>
              match vl with
              | [] => .ok attrs s6
              | v0 :: _ => I.attrLoop endBefore cqn (setKey attrs key v0) s6

/-- `WikiParser.attributes(endBefore, closeQuoteOnNewline)`. -/
def attributesF (I : Interp) (endBefore : List (List Char)) (cqn : Bool) (s : St) :
    PRes (List (String × JVal)) :=
  I.attrLoop endBefore cqn [] (eatWhitespace false s)

/-- Object literal shared by the three return points of `WikiParser.tag`. -/
def tagValue (o : TagOpts) (nm : String) (extra : List (String × JVal))
    (attrs : List (String × JVal)) : JVal :=
  .jobj ([("type", .jstr o.type)] ++ extra ++ [("attributes", .jobj attrs)] ++
         (if o.type == "tag" then [("name", .jstr nm)] else []))

/-- The continuation of `WikiParser.tag` once the tag name is in hand: the
name guard, the attributes, the self-closing and no-content early returns,
the content parse bounded by the outer terminators, and the lenient
closing-tag handling. -/
def tagAfterName (I : Interp) (o : TagOpts) (nm : String) (s2 : St) : PRes JVal :=
  if nm == "" || !(isAfterTagName s2) ||
      (match o.only with | some l => !(l.contains nm) | none => false) then
    .nullRes s2
  else
    match I.attributes [chars "/>", chars "/ >", chars ">"] false s2 with
    | .noFuel => .noFuel
    | .fault e s3 => .fault e s3
    | .nullRes s3 => .nullRes s3
    | .ok attrs s3 =>
      match eatAnyB s3 [chars "/>", chars "/ >"] with
      | (true, s4) => .ok (tagValue o nm [("selfClosing", .jbool true)] attrs) s4
      | (false, s4) =>
        match eatB s4 (chars ">") with
        | (false, s5) => .nullRes s5
        | (true, s5) =>
          if !o.hasContent then .ok (tagValue o nm [] attrs) s5
          else
            match I.next { endAtEos := true,
                           endBeforeTok := o.endBeforeTok ++
                             [chars "</" ++ nm.data, chars "]]", chars "\x7d\x7d"],
                           allow := o.allow, disallow := o.disallow } s5 with
            | .noFuel => .noFuel
            | .fault e s6 => .fault e s6
            | .nullRes s6 => .nullRes s6
            | .ok l s6 =>
              let content := if o.trim then trimList l else l
              if isEnd s6 then
                .ok (tagValue o nm [("content", .jarr content)] attrs) s6
              else
                match eatB s6 (chars "</" ++ nm.data ++ chars ">") with
                | (true, s7) =>
                  .ok (tagValue o nm [("content", .jarr content)] attrs) s7
                | (false, s7) =>
                  match eatB s7 (chars "</" ++ nm.data) with
                  | (false, s8) =>
                    .ok (tagValue o nm [("content", .jarr content)] attrs) s8
                  | (true, s8) =>
                    match eatB (eatWhitespace true s8) (chars ">") with
                    | (false, s9) => .nullRes s9
                    | (true, s9) =>
                      .ok (tagValue o nm [("content", .jarr content)] attrs) s9

/-- `WikiParser.tag(options)`: the opening `<`, the tag-name character guard,
the name parse, and the handoff to `tagAfterName`. -/
def tagF (I : Interp) (o : TagOpts) (s : St) : PRes JVal :=
  match eatT s (chars "<") with
  | .fault e s0 => .fault e s0
  | .nullRes s0 => .nullRes s0
  | .noFuel => .noFuel
  | .ok _ s1 =>
    if (match charAt s1 s1.pos.offset with
        | none => true
        | some c => !(isTagNameChar c)) then .nullRes s1
    else
      match I.next { endBeforeTok := [[' '], ['\t'], chars ">", chars "/"],
                     backtrackOn := true } s1 with
      | .noFuel => .noFuel
      | .fault e s2 => .fault e s2
      | .nullRes s2 => .nullRes s2
      | .ok tagParts s2 =>
        match tagParts with
        | .jstr t0 :: _ => tagAfterName I o (jsLowerStr t0) s2
        | _ => .nullRes s2

/-- The optional embedded indent at the head of a list item: when the marker
run is followed by `:`, the indent production runs and its items are wrapped
in an `indent` node; otherwise the embedded content is empty. -/
def listEmbedded (I : Interp) (s1 : St) : PRes (List JVal) :=
  if startsWith s1 (chars ":") then
    match I.indentLoop true [] s1 with
    | .ok ii s2 =>
      .ok (appendJS []
        [.jobj (objAssign [("type", .jstr "indent")] [("items", .jarr ii)])]) s2
    | .nullRes s2 => .nullRes s2
    | .fault e s2 => .fault e s2
    | .noFuel => .noFuel
  else .ok [] s1

/-- Iterations of `WikiParser.list(character)`: while at start of line and at
the marker, count the marker run, optionally parse an embedded indent, parse
the rest of the line, and accumulate the item.  A null line parse feeds the
source's `append(content, null)` `TypeError`. -/
def listLoopF (I : Interp) (marker : Char) (items : List JVal) (s : St) :
    PRes (List JVal) :=
  if isStartOfLine s && startsWith s [marker] then
    let r := eatCount [marker] s
    match listEmbedded I r.1 with
    | .noFuel => .noFuel
    | .fault e s2 => .fault e s2
    | .nullRes s2 => .nullRes s2
    | .ok content0 s2 =>
      match I.next { endTok := [chars "\n"], endAtEos := true,
                     endBeforeTok := [chars "\x7d\x7d", chars "</"] } s2 with
      | .noFuel => .noFuel
      | .fault e s3 => .fault e s3
      | .nullRes s3 => .fault (.typeError "chunks is not iterable") s3
      | .ok l s3 =>
        I.listLoop marker
          (items ++ [.jobj [("level", .jnum r.2),
                            ("content", .jarr (trimList (appendJS content0 l)))]]) s3
  else .ok items s

/-- Iterations of `WikiParser.indent(start)`: `start` stays `true` for the
embedded indent of a list item, as in the source. -/
def indentLoopF (I : Interp) (start : Bool) (items : List JVal) (s : St) :
    PRes (List JVal) :=
  if (start || isStartOfLine s) && startsWith s (chars ":") then
    let r := eatCount (chars ":") s
    match I.next { endTok := [chars "\n"], endAtEos := true,
                   endBeforeTok := [chars "\x7d\x7d", chars "</"] } r.1 with
    | .noFuel => .noFuel
    | .fault e s2 => .fault e s2
    | .nullRes s2 =>
      I.indentLoop start (items ++ [.jobj [("level", .jnum r.2), ("content", .jnull)]]) s2
    | .ok l s2 =>
      I.indentLoop start
        (items ++ [.jobj [("level", .jnum r.2), ("content", .jarr (trimList l))]]) s2
  else .ok items s

/-- `WikiParser.description`: title up to `\n` or `:`; content after a `:`. -/
def descriptionF (I : Interp) (s : St) : PRes JVal :=
  match I.next { endTok := [chars "\n"], endAtEos := true,
                 endBeforeTok := [chars ":"] } s with
  | .noFuel => .noFuel
  | .fault e s1 => .fault e s1
  | .nullRes s1 => .nullRes s1
  | .ok l s1 =>
    let title := trimList l
    match eatB s1 (chars ":") with
    | (false, s2) => .ok (.jobj [("title", .jarr title), ("content", .jarr [])]) s2
    | (true, s2) =>
      match I.next { endTok := [chars "\n"], endAtEos := true } s2 with
      | .noFuel => .noFuel
      | .fault e s3 => .fault e s3
      | .nullRes s3 => .ok (.jobj [("title", .jarr title), ("content", .jnull)]) s3
      | .ok l2 s3 =>
        .ok (.jobj [("title", .jarr title), ("content", .jarr (trimList l2))]) s3

/-- Closing half of `WikiParser.heading`: require a run of `level` equals
signs, then eat an optional newline. -/
def headingClose (level : Nat) (content : JVal) (s : St) : PRes JVal :=
  match eatB s (List.replicate level '=') with
  | (false, s1) => .nullRes s1
  | (true, s1) =>
    .ok (.jobj [("level", .jnum level), ("content", content)]) (eatB s1 (chars "\n")).2

/-- `WikiParser.heading`: the leading `=` run is the level (the production
is dispatched with `keepStart`, so the run is intact at the cursor). -/
def headingF (I : Interp) (s : St) : PRes JVal :=
  let r := eatCount (chars "=") s
  match I.next { endBeforeTok := [chars "="], backtrackOn := true } r.1 with
  | .noFuel => .noFuel
  | .fault e s1 => .fault e s1
  | .nullRes s1 => headingClose r.2 .jnull s1
  | .ok l s1 => headingClose r.2 (.jarr (trimList l)) s1

/-- Iterations of `WikiParser.preformatted`: consume the leading space, parse
the line with the restricted allow list, fall back to a plain-text line
parse when that returns no match, and append the line plus `'\n'`. -/
def preLoopF (I : Interp) (content : List JVal) (s : St) : PRes (List JVal) :=
  if isStartOfLine s && startsWith s (chars " ") then
    match eatT s (chars " ") with
    | .fault e s0 => .fault e s0
    | .nullRes s0 => .nullRes s0
    | .noFuel => .noFuel
    | .ok _ s1 =>
      match I.next { endTok := [chars "\n"], endAtEos := true,
                     allow := some ["lineBreak", "templatePreformatted", "comment",
                                    "link", "bold", "italics"] } s1 with
      | .noFuel => .noFuel
      | .fault e s2 => .fault e s2
      | .ok line s2 => I.preLoop (appendJS content (line ++ [.jstr "\n"])) s2
      | .nullRes s2 =>
        match I.next { endTok := [chars "\n"], endAtEos := true, allow := some [] } s2 with
        | .noFuel => .noFuel
        | .fault e s3 => .fault e s3
        | .ok line s3 => I.preLoop (appendJS content (line ++ [.jstr "\n"])) s3
        | .nullRes s3 => .fault (.typeError "line is not iterable") s3
  else .ok content s

/-- `WikiParser.htmlEntity` (the group already consumed `&` and `#`): an
optional `x` selects hexadecimal, the digits run to `;`, and the character
is `String.fromCharCode(parseInt(digits, radix))` (NaN coerces to NUL). -/
def htmlEntityF (I : Interp) (s : St) : PRes JVal :=
  let r := eatB s (chars "x")
  match I.next { endTok := [chars ";"], backtrackOn := true } r.2 with
  | .noFuel => .noFuel
  | .fault e s1 => .fault e s1
  | .nullRes s1 => .nullRes s1
  | .ok digits s1 =>
    .ok (.jstr (String.mk
      [fromCharCode ((jsParseInt (jarrToString digits) (if r.1 then 16 else 10)).getD 0)])) s1

/-- Row phase of `WikiParser.table` after attributes and caption. -/
def tableAfterCaption (I : Interp) (attrs : List (String × JVal)) (caption : JVal)
    (s : St) : PRes JVal :=
  match I.tableLoop [] s with
  | .noFuel => .noFuel
  | .fault e s1 => .fault e s1
  | .nullRes s1 => .nullRes s1
  | .ok rows s1 =>
    match eatB s1 (chars "|\x7d") with
    | (false, s2) => .nullRes s2
    | (true, s2) =>
      .ok (.jobj [("type", .jstr "table"), ("attributes", .jobj attrs),
                  ("caption", caption), ("content", .jarr rows)]) s2

/-- `WikiParser.table`: attributes to the end of the line, the optional
`|+ caption` line, the row loop, and the required `|}` terminator. -/
def tableF (I : Interp) (s : St) : PRes JVal :=
  match I.attributes [chars "\n"] false s with
  | .noFuel => .noFuel
  | .fault e s1 => .fault e s1
  | .nullRes s1 => .nullRes s1
  | .ok attrs s1 =>
    let s2 := eatWhitespace true (eatB s1 (chars "\n")).2
    match eatB s2 (chars "|+") with
    | (false, s3) => tableAfterCaption I attrs (.jarr []) s3
    | (true, s3) =>
      match I.next { endTok := [chars "\n"] } s3 with
      | .noFuel => .noFuel
      | .fault e s4 => .fault e s4
      | .nullRes s4 => tableAfterCaption I attrs .jnull s4
      | .ok l s4 => tableAfterCaption I attrs (.jarr (trimList l)) s4

/-- The `comments` field of a row node, when present (`row.comments || []`
in spirit: the source spreads `row.comments` only when it is an array it
put there itself). -/
def tableRowComments (row : JVal) : List JVal :=
  match row with
  | .jobj fs =>
    match getKey fs "comments" with
    | some (.jarr l) => l
    | _ => []
  | _ => []

/-- Re-attach the merged comment list to a row node when it is non-empty. -/
def tableRowMerge (row : JVal) (comments : List JVal) : JVal :=
  if comments.isEmpty then row
  else
    match row with
    | .jobj fs => .jobj (setKey fs "comments" (.jarr comments))
    | r => r

/-- One iteration of the row `do`/`while` of `WikiParser.table`: comments
before the row, the row itself (implicitly started for the first row when no
`|-` is present), comments after, and the merged `comments` field. -/
def tableLoopF (I : Interp) (rows : List JVal) (s : St) : PRes (List JVal) :=
  match I.eatComments [] s with
  | .noFuel => .noFuel
  | .fault e s1 => .fault e s1
  | .nullRes s1 => .nullRes s1
  | .ok commentsBefore s1 =>
    match I.tableRow (rows.isEmpty && !(startsWith s1 (chars "|-"))) s1 with
    | .noFuel => .noFuel
    | .fault e s2 => .fault e s2
    | .nullRes s2 => .nullRes s2
    | .ok row s2 =>
      match I.eatComments [] s2 with
      | .noFuel => .noFuel
      | .fault e s3 => .fault e s3
      | .nullRes s3 => .nullRes s3
      | .ok commentsAfter s3 =>
        let comments := commentsBefore ++ tableRowComments row ++ commentsAfter
        let row1 := tableRowMerge row comments
        if startsWith s3 (chars "|-") then I.tableLoop (rows ++ [row1]) s3
        else .ok (rows ++ [row1]) s3

/-- `WikiParser.tableRow(started)`: the explicit `|-` header with its
attributes (quoted values close at newlines here) and leading comments, then
the cell loop. -/
def tableRowF (I : Interp) (started : Bool) (s : St) : PRes JVal :=
  if started then
    match I.cellLoop [] s with
    | .noFuel => .noFuel
    | .fault e s1 => .fault e s1
    | .nullRes s1 => .nullRes s1
    | .ok cells s1 =>
      .ok (.jobj [("type", .jstr "table-row"), ("attributes", .jobj []),
                  ("content", .jarr cells)]) s1
  else
    match eatT s (chars "|-") with
    | .fault e s0 => .fault e s0
    | .nullRes s0 => .nullRes s0
    | .noFuel => .noFuel
    | .ok _ s1 =>
      match I.attributes [chars "\n"] true (eatCount (chars "-") s1).1 with
      | .noFuel => .noFuel
      | .fault e s2 => .fault e s2
      | .nullRes s2 => .nullRes s2
      | .ok rowAttrs s2 =>
        match eatB s2 (chars "\n") with
        | (false, s3) => .nullRes s3
        | (true, s3) =>
          match I.eatComments [] s3 with
          | .noFuel => .noFuel
          | .fault e s4 => .fault e s4
          | .nullRes s4 => .nullRes s4
          | .ok comments s4 =>
            match I.cellLoop [] s4 with
            | .noFuel => .noFuel
            | .fault e s5 => .fault e s5
            | .nullRes s5 => .nullRes s5
            | .ok cells s5 =>
              .ok (.jobj ([("type", .jstr "table-row"), ("attributes", .jobj rowAttrs),
                           ("content", .jarr cells)] ++
                          (if comments.isEmpty then []
                           else [("comments", .jarr comments)]))) s5

/-- Cell attribute resolution of `WikiParser.tableRow`: the tentatively
parsed attributes stand only when a single `|` (not `||`) follows; otherwise
they are dropped and the cursor is restored. -/
def cellAttrsRestore (cellAttrs0 : List (String × JVal)) (originalPos : Pos) (s4 : St) :
    List (String × JVal) × St :=
  if startsWith s4 (chars "||") then ([], { s4 with pos := originalPos })
  else
    match eatB s4 (chars "|") with
    | (true, s5) => (cellAttrs0, s5)
    | (false, s5) => ([], { s5 with pos := originalPos })

/-- Separator consumption after a cell: one `|` of a `||`, or one `!` of a
`!!`. -/
def cellNextState (s6 : St) : St :=
  if startsWith s6 (chars "||") then (eatB s6 (chars "|")).2
  else if startsWith s6 (chars "!!") then (eatB s6 (chars "!")).2
  else s6

/-- One iteration of the cell `do`/`while` of `WikiParser.tableRow`: the
break checks, the `!`/`|` cell introducer, tentative cell attributes
(restored to empty unless a single `|` follows), newline skipping, the cell
content, the `||`/`!!` separators, and the loop condition. -/
def cellLoopF (I : Interp) (cells : List JVal) (s : St) : PRes (List JVal) :=
  let s1 := eatWhitespace true s
  if !(startsWithAny s1 [chars "|", chars "!"]) ||
      startsWithAny s1 [chars "|-", chars "|\x7d"] then .ok cells s1
  else
    let hr := eatB s1 (chars "!")
    match (if hr.1 then (.ok () hr.2 : PRes Unit) else eatT hr.2 (chars "|")) with
    | .fault e s2 => .fault e s2
    | .nullRes s2 => .nullRes s2
    | .noFuel => .noFuel
    | .ok _ s2 =>
      let s3 := eatWhitespace false s2
      let originalPos := s3.pos
      match I.attributes [chars "|", chars "!!", chars "\n"] false s3 with
      | .noFuel => .noFuel
      | .fault e s4 => .fault e s4
      | .nullRes s4 => .nullRes s4
      | .ok cellAttrs0 s4 =>
        let ar := cellAttrsRestore cellAttrs0 originalPos s4
        match I.next { endTok := [chars "\n"], endBeforeTok := [chars "|", chars "!!"],
                       disallow := ["preformatted"] } (eatCount (chars "\n") ar.2).1 with
        | .noFuel => .noFuel
        | .fault e s6 => .fault e s6
        | .nullRes s6 => .nullRes s6
        | .ok l s6 =>
          let s7 := cellNextState s6
          let cells1 := cells ++
            [.jobj [("type", .jstr "table-cell"), ("header", .jbool hr.1),
                    ("attributes", .jobj ar.1), ("content", .jarr (trimList l))]]
          if !(isEnd s7) && !(startsWith s7 (chars "|\x7d")) then I.cellLoop cells1 s7
          else .ok cells1 s7

/-- `WikiParser.gallery` after the group consumed `<gallery`: attributes up
to `>`, the line loop, and the required `</gallery>`. -/
def galleryF (I : Interp) (s : St) : PRes JVal :=
  match I.attributes [chars ">"] false s with
  | .noFuel => .noFuel
  | .fault e s1 => .fault e s1
  | .nullRes s1 => .nullRes s1
  | .ok attrs s1 =>
    match eatB s1 (chars ">") with
    | (false, s2) => .nullRes s2
    | (true, s2) =>
      match I.galleryLoop [] (eatWhitespace true s2) with
      | .noFuel => .noFuel
      | .fault e s3 => .fault e s3
      | .nullRes s3 => .nullRes s3
      | .ok items s3 =>
        match eatB s3 (chars "</gallery>") with
        | (false, s4) => .nullRes s4
        | (true, s4) => .ok (.jobj [("attributes", .jobj attrs), ("items", .jarr items)]) s4

/-- One iteration of the gallery line loop: each non-empty line is
`target[|caption]`, empty or bare `|` lines are skipped. -/
def galleryLoopF (I : Interp) (items : List JVal) (s : St) : PRes (List JVal) :=
  if !(isStartOfLine s) then .ok items s
  else
    let s1 := eatWhitespace true s
    if startsWith s1 (chars "</gallery>") then .ok items s1
    else
      match I.next { endTok := [chars "\n"],
                     endBeforeTok := [chars "|", chars "</gallery>"] } s1 with
      | .noFuel => .noFuel
      | .fault e s2 => .fault e s2
      | .nullRes s2 => .nullRes s2
      | .ok toRaw s2 =>
        let toV := (trimList toRaw).head?
        if !(match toV with | some v => jsTruthy v | none => false) then
          match eatB s2 (chars "|") with
          | (false, s3) => .nullRes s3
          | (true, s3) => I.galleryLoop items (eatWhitespace true s3)
        else
          let toVal := toV.getD .jnull
          match eatB s2 (chars "|") with
          | (false, s3) =>
            I.galleryLoop
              (items ++ [.jobj [("type", .jstr "link"), ("to", toVal),
                                ("content", .jarr [])]]) s3
          | (true, s3) =>
            match I.next { endTok := [chars "\n"],
                           endBeforeTok := [chars "</gallery>"] } s3 with
            | .noFuel => .noFuel
            | .fault e s4 => .fault e s4
            | .nullRes s4 =>
              I.galleryLoop
                (items ++ [.jobj [("type", .jstr "link"), ("to", toVal),
                                  ("content", .jnull)]]) s4
            | .ok cl s4 =>
              I.galleryLoop
                (items ++ [.jobj [("type", .jstr "link"), ("to", toVal),
                                  ("content", .jarr (trimList cl))]]) s4

/-- `WikiParser.eatComments(comments)`: whitespace, then comment nodes via
`node(['comment'])` until one fails or the input is not at a comment. -/
def eatCommentsF (I : Interp) (comments : List JVal) (s : St) : PRes (List JVal) :=
  let s1 := eatWhitespace true s
  if startsWith s1 (chars "<!--") then
    match I.node (some ["comment"]) [] wikiGrammar s1 with
    | .noFuel => .noFuel
    | .fault e s2 => .fault e s2
    | .nullRes s2 => .ok comments s2
    | .ok c s2 =>
      if jsTruthy c then I.eatComments (comments ++ [c]) s2 else .ok comments s2
  else .ok comments s1

/-- The zero-fuel interpreter: every routine reports fuel exhaustion. -/
def interpZero : Interp :=
  { next := fun _ _ => .noFuel
    nextLoop := fun _ _ _ _ _ _ => .noFuel
    node := fun _ _ _ _ => .noFuel
    template := fun _ _ => .noFuel
    templateParams := fun _ _ _ _ => .noFuel
    link := fun _ => .noFuel
    linkParams := fun _ _ _ => .noFuel
    externalLink := fun _ => .noFuel
    tag := fun _ _ => .noFuel
    attributes := fun _ _ _ => .noFuel
    attrLoop := fun _ _ _ _ => .noFuel
    quotedString := fun _ _ => .noFuel
    listLoop := fun _ _ _ => .noFuel
    indentLoop := fun _ _ _ => .noFuel
    description := fun _ => .noFuel
    heading := fun _ => .noFuel
    preLoop := fun _ _ => .noFuel
    htmlEntity := fun _ => .noFuel
    table := fun _ => .noFuel
    tableLoop := fun _ _ => .noFuel
    tableRow := fun _ _ => .noFuel
    cellLoop := fun _ _ => .noFuel
    gallery := fun _ => .noFuel
    galleryLoop := fun _ _ => .noFuel
    eatComments := fun _ _ => .noFuel }

/-- One more fuel layer on top of `I`: each routine's body, with every
nested call and loop iteration delegated to `I`. -/
def interpStep (I : Interp) : Interp :=
  { next := nextF I
    nextLoop := nextLoopF I
    node := nodeF I
    template := templateF I
    templateParams := templateParamsF I
    link := linkF I
    linkParams := linkParamsF I
    externalLink := externalLinkF I
    tag := tagF I
    attributes := attributesF I
    attrLoop := attrLoopF I
    quotedString := quotedStringF I
    listLoop := listLoopF I
    indentLoop := indentLoopF I
    description := descriptionF I
    heading := headingF I
    preLoop := preLoopF I
    htmlEntity := htmlEntityF I
    table := tableF I
    tableLoop := tableLoopF I
    tableRow := tableRowF I
    cellLoop := cellLoopF I
    gallery := galleryF I
    galleryLoop := galleryLoopF I
    eatComments := eatCommentsF I }

/-- The fuel-indexed interpreter. -/
def interp : Nat → Interp
  | 0 => interpZero
  | n + 1 => interpStep (interp n)

/-- The fresh engine state that `Parser.parse` creates for an input. -/
def initSt (options : Options) (input : String) : St :=
  { str := input.data
    pos := { offset := 0, lineNumber := 1 }
    btPreds := []
    backtrackingCount := 0
    stack := []
    options := options }

/-- Observable outcome of `Parser.parse`: the AST, a propagated fault
(`throwError`), the fault returned as a value (`returnError`), the null
return, or fuel exhaustion of the model. -/
inductive ParseOutcome where
  | ast (nodes : List JVal)
  | thrown (e : Fault)
  | returnedError (e : Fault)
  | returnedNull
  | outOfFuel

/-- `Parser.parse(str)`: run `next({endAtEos: true})` on a fresh state and
route any fault through the `throwError` / `returnError` options. -/
def parse (options : Options) (input : String) (fuel : Nat) : ParseOutcome :=
  match (interp fuel).next { endAtEos := true } (initSt options input) with
  | .ok l _ => .ast l
  | .nullRes _ => .returnedNull
  | .fault e _ =>
    if options.«throwError» then .thrown e
    else if options.returnError then .returnedError e
    else .returnedNull
  | .noFuel => .outOfFuel


/-- Whether a value is a plaintext string. -/
def isStrB : JVal → Bool
  | .jstr _ => true
  | _ => false

/-- No two adjacent elements of a node list are both strings (the
coalescing contract of `Parser.append`). -/
def noAdjB : List JVal → Bool
  | x :: y :: rest => !(isStrB x && isStrB y) && noAdjB (y :: rest)
  | _ => true

mutual
/-- Recursively, every node list of a value is coalesced: adjacent
plaintext strings never occur in any `jarr`, at any depth. -/
def coalV : JVal → Bool
  | .jarr l => noAdjB l && coalL l
  | .jobj fs => coalF fs
  | _ => true
/-- `coalV` over a list of values. -/
def coalL : List JVal → Bool
  | [] => true
  | v :: vs => coalV v && coalL vs
/-- `coalV` over the values of an object. -/
def coalF : List (String × JVal) → Bool
  | [] => true
  | kv :: fs => coalV kv.2 && coalF fs
end

mutual
/-- Recursively, every numeric value in the AST is at least `1`.  The only
numbers the grammar ever stores are the `level` fields of headings and of
list and indent items, so this is exactly the statement that every such
level is positive. -/
def hdV : JVal → Bool
  | .jnum n => decide (1 ≤ n)
  | .jarr l => hdL l
  | .jobj fs => hdF fs
  | _ => true
/-- `hdV` over a list of values. -/
def hdL : List JVal → Bool
  | [] => true
  | v :: vs => hdV v && hdL vs
/-- `hdV` over the values of an object. -/
def hdF : List (String × JVal) → Bool
  | [] => true
  | kv :: fs => hdV kv.2 && hdF fs
end

/-- Combined well-formedness of a value. -/
def WfV (v : JVal) : Prop := coalV v = true ∧ hdV v = true

/-- Combined well-formedness of a node list, including coalescing. -/
def WfL (l : List JVal) : Prop := WfV (.jarr l)

/-- Combined well-formedness of an object's bindings. -/
def WfF (fs : List (String × JVal)) : Prop := coalF fs = true ∧ hdF fs = true

/-- Well-formedness of a positional-parameter slot: a hole, the null value,
or a well-formed value list (the only shapes the parameter loops store). -/
def WfPP : Option JVal → Prop
  | none => True
  | some .jnull => True
  | some (.jarr l) => WfL l
  | some _ => False

/-- Well-formedness of a sparse positional-parameter array. -/
def WfPos (l : List (Option JVal)) : Prop := ∀ o ∈ l, WfPP o

/-- A well-formed non-string value: what `tableRow` produces, and what
`node(allow)` produces under a filter that admits no string-producing
entry. -/
def NStr (v : JVal) : Prop := WfV v ∧ isStrB v = false

/-- Result of `Parser.node`: well-formed, and under the `['comment']` allow
list (the only list `eatComments` uses) never a plain string, because the
only unfiltered typed entry is the comment descriptor, whose wrap is always
an object. -/
def NodeP (a : Option (List String)) (v : JVal) : Prop :=
  WfV v ∧ (a = some ["comment"] → isStrB v = false)

/-- A comments accumulator: a well-formed node list all of whose elements
are comment objects, hence not strings. -/
def CommentsP (l : List JVal) : Prop := WfL l ∧ ∀ x ∈ l, isStrB x = false

/-- The backtrack counter is within the configured limit. -/
def stOK (s : St) : Prop :=
  s.backtrackingCount ≤ s.options.backtrackingLimit

/-- Post-condition of an engine routine: successful and no-match results
leave the backtrack counter within the limit, and a successful value
satisfies `P` (faults escape the parse; fuel exhaustion is a model
artifact). -/
def ResOK {α : Type} (P : α → Prop) : PRes α → Prop
  | .ok a s2 => stOK s2 ∧ P a
  | .nullRes s2 => stOK s2
  | .fault _ _ => True
  | .noFuel => True

/-- Grammar tables reachable during a parse: the top-level table, its two
groups, and their suffixes (the walk of `node` proceeds down the list). -/
inductive GoodG : List GEntry → Prop where
  | wiki : GoodG wikiGrammar
  | html : GoodG htmlEntitiesGroup
  | tagsG : GoodG tagsGroup
  | tail (e : GEntry) (rest : List GEntry) : GoodG (e :: rest) → GoodG rest

/-- The per-routine invariants, one conjunct per `Interp` field.  The
`heading` spec carries the dispatch fact that the cursor is at `=` (the
grammar's heading entry has `keepStart` and start `=`), which makes its
`eatCount` level positive. -/
def InterpOK (I : Interp) : Prop :=
  (∀ o s, stOK s → ResOK WfL (I.next o s)) ∧
  (∀ o p cs cl content s, stOK s → WfL content →
    ResOK WfL (I.nextLoop o p cs cl content s)) ∧
  (∀ a d g s, stOK s → GoodG g → ResOK (NodeP a) (I.node a d g s)) ∧
  (∀ a s, stOK s → ResOK WfV (I.template a s)) ∧
  (∀ a ps pp s, stOK s → WfF ps → WfPos pp →
    ResOK (fun r => WfF r.1 ∧ WfPos r.2) (I.templateParams a ps pp s)) ∧
  (∀ s, stOK s → ResOK WfV (I.link s)) ∧
  (∀ ps pp s, stOK s → WfF ps → WfPos pp →
    ResOK (fun r => WfF r.1 ∧ WfPos r.2) (I.linkParams ps pp s)) ∧
  (∀ s, stOK s → ResOK WfV (I.externalLink s)) ∧
  (∀ o s, stOK s → ResOK WfV (I.tag o s)) ∧
  (∀ eb c s, stOK s → ResOK WfF (I.attributes eb c s)) ∧
  (∀ eb c attrs s, stOK s → WfF attrs → ResOK WfF (I.attrLoop eb c attrs s)) ∧
  (∀ c s, stOK s → ResOK WfV (I.quotedString c s)) ∧
  (∀ m items s, stOK s → WfL items → ResOK WfL (I.listLoop m items s)) ∧
  (∀ b items s, stOK s → WfL items → ResOK WfL (I.indentLoop b items s)) ∧
  (∀ s, stOK s → ResOK WfV (I.description s)) ∧
  (∀ s, stOK s → startsWith s (chars "=") = true → ResOK WfV (I.heading s)) ∧
  (∀ content s, stOK s → WfL content → ResOK WfL (I.preLoop content s)) ∧
  (∀ s, stOK s → ResOK WfV (I.htmlEntity s)) ∧
  (∀ s, stOK s → ResOK WfV (I.table s)) ∧
  (∀ rows s, stOK s → WfL rows → ResOK WfL (I.tableLoop rows s)) ∧
  (∀ b s, stOK s → ResOK NStr (I.tableRow b s)) ∧
  (∀ cells s, stOK s → WfL cells → ResOK WfL (I.cellLoop cells s)) ∧
  (∀ s, stOK s → ResOK WfV (I.gallery s)) ∧
  (∀ items s, stOK s → WfL items → ResOK WfL (I.galleryLoop items s)) ∧
  (∀ comments s, stOK s → CommentsP comments → ResOK CommentsP (I.eatComments comments s))


/-- Record updates that do not touch the counter or the options leave
`stOK` unchanged; this instance covers `advance`. -/
theorem stOK_advance (s : St) (c : List Char) : stOK (advance s c) ↔ stOK s := Iff.rfl

/-- `pushStack` preserves `stOK`. -/
theorem stOK_pushStack (s : St) : stOK (pushStack s) ↔ stOK s := Iff.rfl

/-- `popStack` preserves `stOK`. -/
theorem stOK_popStack (s : St) : stOK (popStack s) ↔ stOK s := Iff.rfl

/-- Restoring the cursor preserves `stOK`. -/
theorem stOK_withPos (s : St) (p : Pos) : stOK { s with pos := p } ↔ stOK s := Iff.rfl

/-- Pushing a backtrack predicate preserves `stOK`. -/
theorem stOK_pushBtIf (b : Bool) (s : St) : stOK (pushBtIf b s) ↔ stOK s := by
  cases b <;> exact Iff.rfl

/-- Popping a backtrack predicate preserves `stOK`. -/
theorem stOK_popBtIf (b : Bool) (s : St) : stOK (popBtIf b s) ↔ stOK s := by
  cases b <;> exact Iff.rfl

/-- `eat(chunk, false)` preserves `stOK`. -/
theorem stOK_eatB (s : St) (c : List Char) : stOK (eatB s c).2 ↔ stOK s := by
  unfold eatB; split <;> exact Iff.rfl

/-- `eatAny(chunks, false)` preserves `stOK`. -/
theorem stOK_eatAnyB (s : St) : ∀ cs : List (List Char), stOK (eatAnyB s cs).2 ↔ stOK s
  | [] => Iff.rfl
  | c :: rest => by
    unfold eatAnyB; split
    · exact Iff.rfl
    · exact stOK_eatAnyB s rest

/-- The whitespace loop preserves `stOK`. -/
theorem stOK_eatWhitespaceAux : ∀ (n : Nat) (nl : Bool) (s : St),
    stOK (eatWhitespaceAux n nl s) ↔ stOK s
  | 0, _, _ => Iff.rfl
  | n + 1, nl, s => by
    unfold eatWhitespaceAux
    rcases h : eatAnyB s ([[' '], ['\t']] ++ (if nl then [['\n']] else [])) with ⟨b, s2⟩
    cases b
    · exact Iff.rfl
    · have h2 := stOK_eatAnyB s ([[' '], ['\t']] ++ (if nl then [['\n']] else []))
      rw [h] at h2
      exact (stOK_eatWhitespaceAux n nl s2).trans h2

/-- `eatWhitespace` preserves `stOK`. -/
theorem stOK_eatWhitespace (nl : Bool) (s : St) : stOK (eatWhitespace nl s) ↔ stOK s :=
  stOK_eatWhitespaceAux _ nl s

/-- The `eatCount` loop preserves `stOK`. -/
theorem stOK_eatCountAux : ∀ (n : Nat) (c : List Char) (s : St),
    stOK (eatCountAux n c s).1 ↔ stOK s
  | 0, _, _ => Iff.rfl
  | n + 1, c, s => by
    unfold eatCountAux
    split
    · exact stOK_eatCountAux n c (advance s c)
    · exact Iff.rfl

/-- `eatCount` preserves `stOK`. -/
theorem stOK_eatCount (c : List Char) (s : St) : stOK (eatCount c s).1 ↔ stOK s :=
  stOK_eatCountAux _ c s

/-- A successful counter bump lands within the limit, unconditionally: the
increment site checks the limit before letting execution continue. -/
theorem bump_stOK {s s1 : St} (h : bump s = some s1) : stOK s1 := by
  unfold bump at h
  split at h
  · cases h
  · cases h
    next hle =>
    simp only [stOK]
    omega

/-- A bump fails exactly when the incremented counter exceeds the limit. -/
theorem bump_none_iff (s : St) :
    bump s = none ↔ s.options.backtrackingLimit < s.backtrackingCount + 1 := by
  unfold bump
  split <;> simp_all

/-- A successful `eat(chunk)` is an `advance`. -/
theorem eatT_ok {s s1 : St} {c : List Char} {a : Unit} (h : eatT s c = .ok a s1) :
    s1 = advance s c := by
  unfold eatT at h
  split at h
  · cases h; rfl
  · cases h

/-- A successful `eatAny(chunks)` preserves `stOK`. -/
theorem eatAnyT_ok_stOK {s s1 : St} {cs : List (List Char)} {a : Unit}
    (h : eatAnyT s cs = .ok a s1) (hs : stOK s) : stOK s1 := by
  unfold eatAnyT at h
  rcases he : eatAnyB s cs with ⟨b, s2⟩
  rw [he] at h
  cases b
  · cases h
  · cases h
    have h2 := stOK_eatAnyB s cs
    rw [he] at h2
    exact h2.mpr hs

/-- When the cursor starts with the chunk, `eatCount` counts at least one. -/
theorem eatCount_pos {s : St} {c : List Char} (h : startsWith s c = true) :
    1 ≤ (eatCount c s).2 := by
  unfold eatCount eatCountAux
  rw [h]
  simp

/-- Unfolding `noAdjB` over two leading elements. -/
theorem noAdjB_cons2 (x y : JVal) (rest : List JVal) :
    noAdjB (x :: y :: rest) = (!(isStrB x && isStrB y) && noAdjB (y :: rest)) := by
  simp [noAdjB]

/-- Singleton lists have no adjacent strings. -/
theorem noAdjB_single (x : JVal) : noAdjB [x] = true := by
  simp [noAdjB]

/-- `noAdjB` of a tail. -/
theorem noAdjB_tail {x : JVal} {rest : List JVal} (h : noAdjB (x :: rest) = true) :
    noAdjB rest = true := by
  cases rest with
  | nil => simp [noAdjB]
  | cons y ys =>
    rw [noAdjB_cons2] at h
    simp only [Bool.and_eq_true] at h
    exact h.2

/-- Unfolding `coalL` over a cons. -/
theorem coalL_cons (v : JVal) (vs : List JVal) : coalL (v :: vs) = (coalV v && coalL vs) := by
  simp [coalL]

/-- Unfolding `hdL` over a cons. -/
theorem hdL_cons (v : JVal) (vs : List JVal) : hdL (v :: vs) = (hdV v && hdL vs) := by
  simp [hdL]

/-- `coalL` as a membership statement. -/
theorem coalL_iff (l : List JVal) : coalL l = true ↔ ∀ v ∈ l, coalV v = true := by
  induction l with
  | nil => simp [coalL]
  | cons v vs ih => simp [coalL_cons, ih]

/-- `hdL` as a membership statement. -/
theorem hdL_iff (l : List JVal) : hdL l = true ↔ ∀ v ∈ l, hdV v = true := by
  induction l with
  | nil => simp [hdL]
  | cons v vs ih => simp [hdL_cons, ih]

/-- `coalF` as a membership statement. -/
theorem coalF_iff (fs : List (String × JVal)) :
    coalF fs = true ↔ ∀ kv ∈ fs, coalV kv.2 = true := by
  induction fs with
  | nil => simp [coalF]
  | cons kv rest ih =>
    rw [show coalF (kv :: rest) = (coalV kv.2 && coalF rest) from by simp [coalF]]
    simp [ih]

/-- `hdF` as a membership statement. -/
theorem hdF_iff (fs : List (String × JVal)) :
    hdF fs = true ↔ ∀ kv ∈ fs, hdV kv.2 = true := by
  induction fs with
  | nil => simp [hdF]
  | cons kv rest ih =>
    rw [show hdF (kv :: rest) = (hdV kv.2 && hdF rest) from by simp [hdF]]
    simp [ih]

/-- `WfL` as no-adjacent-strings plus member well-formedness. -/
theorem WfL_iff (l : List JVal) :
    WfL l ↔ noAdjB l = true ∧ ∀ v ∈ l, WfV v := by
  show WfV (.jarr l) ↔ _
  rw [WfV]
  rw [show coalV (.jarr l) = (noAdjB l && coalL l) from by simp [coalV]]
  rw [show hdV (.jarr l) = hdL l from by simp [hdV]]
  simp only [Bool.and_eq_true, coalL_iff, hdL_iff, WfV]
  constructor
  · rintro ⟨⟨hn, hc⟩, hh⟩
    exact ⟨hn, fun v hv => ⟨hc v hv, hh v hv⟩⟩
  · rintro ⟨hn, hall⟩
    exact ⟨⟨hn, fun v hv => (hall v hv).1⟩, fun v hv => (hall v hv).2⟩

/-- `WfF` as member well-formedness of the values. -/
theorem WfF_iff (fs : List (String × JVal)) : WfF fs ↔ ∀ kv ∈ fs, WfV kv.2 := by
  rw [WfF]
  simp only [coalF_iff, hdF_iff, WfV]
  constructor
  · rintro ⟨hc, hh⟩ kv hkv
    exact ⟨hc kv hkv, hh kv hkv⟩
  · intro h
    exact ⟨fun kv hkv => (h kv hkv).1, fun kv hkv => (h kv hkv).2⟩

/-- Object well-formedness coincides with field well-formedness. -/
theorem WfV_jobj (fs : List (String × JVal)) : WfV (.jobj fs) ↔ WfF fs := by
  rw [WfV, WfF]
  rw [show coalV (.jobj fs) = coalF fs from by simp [coalV]]
  rw [show hdV (.jobj fs) = hdF fs from by simp [hdV]]

/-- Strings are well-formed. -/
theorem WfV_jstr (s : String) : WfV (.jstr s) := by
  constructor <;> simp [coalV, hdV]

/-- The null value is well-formed. -/
theorem WfV_jnull : WfV .jnull := by
  constructor <;> simp [coalV, hdV]

/-- Booleans are well-formed. -/
theorem WfV_jbool (b : Bool) : WfV (.jbool b) := by
  constructor <;> simp [coalV, hdV]

/-- Positive numbers are well-formed. -/
theorem WfV_jnum {n : Nat} (h : 1 ≤ n) : WfV (.jnum n) := by
  constructor <;> simp [coalV, hdV, h]

/-- The empty node list is well-formed. -/
theorem WfL_nil : WfL ([] : List JVal) := by
  rw [WfL_iff]
  simp [noAdjB]

/-- The empty field list is well-formed. -/
theorem WfF_nil : WfF ([] : List (String × JVal)) := by
  rw [WfF_iff]
  simp

/-- A stored positional slot is a well-formed value. -/
theorem WfPP_some {v : JVal} (h : WfPP (some v)) : WfV v := by
  cases v <;> simp [WfPP] at h <;> first
    | exact WfV_jnull
    | exact h

/-- The head of `appendOne` on a nonempty list keeps the string-ness of the
original head (a merged chunk is still a string). -/
theorem appendOne_cons_head (y : JVal) (rest : List JVal) (c : JVal) :
    ∃ z zs, appendOne (y :: rest) c = z :: zs ∧ isStrB z = isStrB y := by
  cases rest with
  | nil => cases y <;> cases c <;> simp [appendOne, isStrB]
  | cons r rs => exact ⟨y, appendOne (r :: rs) c, rfl, rfl⟩

/-- `appendOne` on a singleton either merges two strings or pushes after a
non-string pair. -/
theorem appendOne_single_cases (x c : JVal) :
    (∃ a b, x = JVal.jstr a ∧ c = JVal.jstr b ∧ appendOne [x] c = [.jstr (a ++ b)]) ∨
    ((isStrB x && isStrB c) = false ∧ appendOne [x] c = [x, c]) := by
  cases x <;> cases c <;>
    first
      | exact Or.inl ⟨_, _, rfl, rfl, rfl⟩
      | exact Or.inr ⟨rfl, rfl⟩

/-- `appendOne` keeps a list free of adjacent strings, whatever the chunk. -/
theorem noAdjB_appendOne : ∀ (l : List JVal) (c : JVal),
    noAdjB l = true → noAdjB (appendOne l c) = true
  | [], c, _ => by simp [appendOne, noAdjB]
  | [x], c, _ => by
    rcases appendOne_single_cases x c with ⟨a, b, hx, hc2, he⟩ | ⟨hs, he⟩ <;> rw [he]
    · exact noAdjB_single _
    · rw [noAdjB_cons2, hs]
      simp [noAdjB_single]
  | x :: y :: rest, c, h => by
    rw [noAdjB_cons2] at h
    simp only [Bool.and_eq_true] at h
    obtain ⟨hxy, ht⟩ := h
    have ih := noAdjB_appendOne (y :: rest) c ht
    obtain ⟨z, zs, hz, hstr⟩ := appendOne_cons_head y rest c
    show noAdjB (x :: appendOne (y :: rest) c) = true
    rw [hz, noAdjB_cons2, hstr]
    rw [hz] at ih
    simp [hxy, ih]

/-- Every member of `appendOne` is an input member, the chunk, or a string. -/
theorem appendOne_mem_cases : ∀ (l : List JVal) (c : JVal), ∀ v ∈ appendOne l c,
    v ∈ l ∨ v = c ∨ ∃ a, v = JVal.jstr a
  | [], c, v, hv => by
    simp [appendOne] at hv
    exact Or.inr (Or.inl hv)
  | [x], c, v, hv => by
    rcases appendOne_single_cases x c with ⟨a, b, hx, hc2, he⟩ | ⟨hs, he⟩ <;> rw [he] at hv
    · simp at hv
      exact Or.inr (Or.inr ⟨a ++ b, hv⟩)
    · rcases List.mem_cons.mp hv with rfl | hv
      · exact Or.inl (by simp)
      · simp at hv
        subst hv
        exact Or.inr (Or.inl rfl)
  | x :: y :: rest, c, v, hv => by
    rcases List.mem_cons.mp hv with rfl | hv
    · exact Or.inl (by simp)
    · rcases appendOne_mem_cases (y :: rest) c v hv with h | h
      · exact Or.inl (by simp [List.mem_cons.mp h])
      · exact Or.inr h

/-- Members of `appendOne` are well-formed when the inputs are. -/
theorem WfV_mem_appendOne (l : List JVal) (c : JVal)
    (hl : ∀ v ∈ l, WfV v) (hc : WfV c) : ∀ v ∈ appendOne l c, WfV v := by
  intro v hv
  rcases appendOne_mem_cases l c v hv with h | rfl | ⟨a, rfl⟩
  · exact hl v h
  · exact hc
  · exact WfV_jstr a

/-- `appendOne` preserves list well-formedness. -/
theorem WfL_appendOne {l : List JVal} {c : JVal} (hl : WfL l) (hc : WfV c) :
    WfL (appendOne l c) := by
  rw [WfL_iff] at hl ⊢
  exact ⟨noAdjB_appendOne l c hl.1, WfV_mem_appendOne l c hl.2 hc⟩

/-- `Parser.append` preserves list well-formedness, for any chunk list. -/
theorem WfL_appendJS {chunks : List JVal} :
    ∀ {l : List JVal}, WfL l → (∀ c ∈ chunks, WfV c) → WfL (appendJS l chunks) := by
  induction chunks with
  | nil => intro l hl _; exact hl
  | cons c cs ih =>
    intro l hl hc
    show WfL (appendJS (appendOne l c) cs)
    exact ih (WfL_appendOne hl (hc c (by simp))) (fun d hd => hc d (by simp [hd]))

/-- `noAdjB` only depends on the string-ness of the head. -/
theorem noAdjB_cons_congr (x x2 : JVal) (h : isStrB x = isStrB x2) (rest : List JVal) :
    noAdjB (x :: rest) = noAdjB (x2 :: rest) := by
  cases rest with
  | nil => simp [noAdjB]
  | cons y ys => rw [noAdjB_cons2, noAdjB_cons2, h]

/-- Decomposition of list well-formedness over a cons. -/
theorem WfL_cons {x : JVal} {rest : List JVal} (h : WfL (x :: rest)) :
    WfV x ∧ WfL rest := by
  rw [WfL_iff] at h
  obtain ⟨hn, hm⟩ := h
  refine ⟨hm x (by simp), ?_⟩
  rw [WfL_iff]
  exact ⟨noAdjB_tail hn, fun v hv => hm v (by simp [hv])⟩

/-- `trimHead` preserves list well-formedness. -/
theorem WfL_trimHead {l : List JVal} (h : WfL l) : WfL (trimHead l) := by
  match l with
  | [] => exact h
  | .jstr s :: rest =>
    show WfL (if (trimLeftStr s == "") = true then rest
              else .jstr (trimLeftStr s) :: rest)
    split
    · exact (WfL_cons h).2
    · rw [WfL_iff] at h ⊢
      obtain ⟨hn, hm⟩ := h
      constructor
      · rw [noAdjB_cons_congr (JVal.jstr (trimLeftStr s)) (JVal.jstr s) rfl rest]
        exact hn
      · intro v hv
        rcases List.mem_cons.mp hv with rfl | hv
        · exact WfV_jstr _
        · exact hm v (by simp [hv])
  | .jnum n :: rest => exact h
  | .jbool b :: rest => exact h
  | .jnull :: rest => exact h
  | .jarr a :: rest => exact h
  | .jobj a :: rest => exact h

/-- `trimLastGo` keeps the list empty or keeps the string-ness of its head. -/
theorem trimLastGo_cases (y : JVal) (rest : List JVal) :
    trimLastGo (y :: rest) = [] ∨
    ∃ z zs, trimLastGo (y :: rest) = z :: zs ∧ isStrB z = isStrB y := by
  cases rest with
  | nil =>
    cases y with
    | jstr s =>
      have he : trimLastGo [JVal.jstr s] =
          if (trimRightStr s == "") = true then [] else [JVal.jstr (trimRightStr s)] := rfl
      rw [he]
      split
      · exact Or.inl rfl
      · exact Or.inr ⟨_, [], rfl, rfl⟩
    | jnum n => exact Or.inr ⟨_, [], rfl, rfl⟩
    | jbool b => exact Or.inr ⟨_, [], rfl, rfl⟩
    | jnull => exact Or.inr ⟨_, [], rfl, rfl⟩
    | jarr a => exact Or.inr ⟨_, [], rfl, rfl⟩
    | jobj a => exact Or.inr ⟨_, [], rfl, rfl⟩
  | cons r rs => exact Or.inr ⟨y, trimLastGo (r :: rs), rfl, rfl⟩

/-- `trimLastGo` preserves list well-formedness. -/
theorem WfL_trimLastGo : ∀ l : List JVal, WfL l → WfL (trimLastGo l)
  | [], h => h
  | [x], h => by
    match x with
    | .jstr s =>
      show WfL (if (trimRightStr s == "") = true then [] else [.jstr (trimRightStr s)])
      split
      · exact WfL_nil
      · rw [WfL_iff]
        refine ⟨noAdjB_single _, ?_⟩
        intro v hv
        simp at hv
        subst hv
        exact WfV_jstr _
    | .jnum n => exact h
    | .jbool b => exact h
    | .jnull => exact h
    | .jarr a => exact h
    | .jobj a => exact h
  | x :: y :: rest, h => by
    obtain ⟨hx, ht⟩ := WfL_cons h
    have ih := WfL_trimLastGo (y :: rest) ht
    show WfL (x :: trimLastGo (y :: rest))
    rcases trimLastGo_cases y rest with he | ⟨z, zs, he, hstr⟩ <;> rw [he]
    · rw [WfL_iff]
      refine ⟨noAdjB_single _, ?_⟩
      intro v hv
      simp at hv
      subst hv
      exact hx
    · rw [WfL_iff]
      rw [he] at ih
      rw [WfL_iff] at ih
      constructor
      · rw [noAdjB_cons2]
        have hxy : (!(isStrB x && isStrB z)) = true := by
          rw [hstr]
          rw [WfL_iff] at h
          have h1 := h.1
          rw [noAdjB_cons2] at h1
          simp only [Bool.and_eq_true] at h1
          exact h1.1
        simp [hxy, ih.1]
      · intro v hv
        rcases List.mem_cons.mp hv with rfl | hv
        · exact hx
        · exact ih.2 v hv

/-- `Parser.trim` preserves list well-formedness. -/
theorem WfL_trimList {l : List JVal} (h : WfL l) : WfL (trimList l) := by
  unfold trimList
  split
  · exact h
  · exact WfL_trimLastGo _ (WfL_trimHead h)

/-- Members of `setKey` come from the list or are the new binding. -/
theorem setKey_mem_cases : ∀ (fs : List (String × JVal)) (k : String) (v : JVal),
    ∀ kv ∈ setKey fs k v, kv ∈ fs ∨ kv = (k, v)
  | [], k, v, kv, hkv => by
    simp [setKey] at hkv
    exact Or.inr hkv
  | (k1, w) :: rest, k, v, kv, hkv => by
    unfold setKey at hkv
    split at hkv
    · next hbeq =>
      have hk : k1 = k := by simpa using hbeq
      subst hk
      rcases List.mem_cons.mp hkv with rfl | hkv
      · exact Or.inr rfl
      · exact Or.inl (by simp [hkv])
    · rcases List.mem_cons.mp hkv with rfl | hkv
      · exact Or.inl (by simp)
      · rcases setKey_mem_cases rest k v kv hkv with h | h
        · exact Or.inl (by simp [h])
        · exact Or.inr h

/-- `setKey` preserves field well-formedness. -/
theorem WfF_setKey {fs : List (String × JVal)} {k : String} {v : JVal}
    (hf : WfF fs) (hv : WfV v) : WfF (setKey fs k v) := by
  rw [WfF_iff] at hf ⊢
  intro kv hkv
  rcases setKey_mem_cases fs k v kv hkv with h | rfl
  · exact hf kv h
  · exact hv

/-- `Object.assign` preserves field well-formedness. -/
theorem WfF_objAssign {extra : List (String × JVal)} :
    ∀ {base : List (String × JVal)}, WfF base → WfF extra → WfF (objAssign base extra) := by
  induction extra with
  | nil => intro base hb _; exact hb
  | cons kv rest ih =>
    intro base hb he
    rw [WfF_iff] at he
    show WfF (objAssign (setKey base kv.1 kv.2) rest)
    refine ih (WfF_setKey hb (he kv (by simp))) ?_
    rw [WfF_iff]
    intro kv2 hkv2
    exact he kv2 (by simp [hkv2])

/-- Members of `removeKey` come from the list. -/
theorem removeKey_sub : ∀ (fs : List (String × JVal)) (k : String),
    ∀ kv ∈ removeKey fs k, kv ∈ fs
  | [], _, kv, hkv => by simp [removeKey] at hkv
  | (k1, w) :: rest, k, kv, hkv => by
    unfold removeKey at hkv
    split at hkv
    · exact (by simp [hkv] : kv ∈ (k1, w) :: rest)
    · rcases List.mem_cons.mp hkv with rfl | hkv
      · simp
      · exact List.mem_cons_of_mem _ (removeKey_sub rest k kv hkv)

/-- `removeKey` preserves field well-formedness. -/
theorem WfF_removeKey {fs : List (String × JVal)} {k : String} (hf : WfF fs) :
    WfF (removeKey fs k) := by
  rw [WfF_iff] at hf ⊢
  exact fun kv hkv => hf kv (removeKey_sub fs k kv hkv)

/-- Field lists assembled by concatenation are well-formed piecewise. -/
theorem WfF_append {a b : List (String × JVal)} (ha : WfF a) (hb : WfF b) :
    WfF (a ++ b) := by
  rw [WfF_iff] at ha hb ⊢
  intro kv hkv
  rcases List.mem_append.mp hkv with h | h
  · exact ha kv h
  · exact hb kv h

/-- A two-field decomposition of `WfF`. -/
theorem WfF_cons {kv : String × JVal} {fs : List (String × JVal)}
    (hv : WfV kv.2) (hf : WfF fs) : WfF (kv :: fs) := by
  rw [WfF_iff] at hf ⊢
  intro kv2 hkv2
  rcases List.mem_cons.mp hkv2 with rfl | h
  · exact hv
  · exact hf kv2 h

/-- The value found by `getKey` is a binding of the object. -/
theorem getKey_mem : ∀ (fs : List (String × JVal)) (k : String) (v : JVal),
    getKey fs k = some v → ∃ k2, (k2, v) ∈ fs
  | [], _, _, h => by simp [getKey] at h
  | (k1, w) :: rest, k, v, h => by
    unfold getKey at h
    split at h
    · cases h
      exact ⟨k1, by simp⟩
    · obtain ⟨k2, hk2⟩ := getKey_mem rest k v h
      exact ⟨k2, by simp [hk2]⟩

/-- Extending a positional-parameter array preserves its well-formedness. -/
theorem WfPos_push {l : List (Option JVal)} {o : Option JVal}
    (hl : WfPos l) (ho : WfPP o) : WfPos (l ++ [o]) := by
  intro o2 ho2
  rcases List.mem_append.mp ho2 with h | h
  · exact hl o2 h
  · simp at h
    subst h
    exact ho

/-- Sparse assignment preserves the well-formedness of the array. -/
theorem WfPos_setIndexNat {v : JVal} (hv : WfPP (some v)) :
    ∀ (l : List (Option JVal)) (n : Nat), WfPos l → WfPos (setIndexNat l n v)
  | [], 0, _ => by
    intro o ho
    simp [setIndexNat] at ho
    subst ho
    exact hv
  | [], n + 1, _ => by
    intro o ho
    unfold setIndexNat at ho
    rcases List.mem_cons.mp ho with rfl | ho
    · trivial
    · exact WfPos_setIndexNat hv [] n (by intro o2 ho2; simp at ho2) o ho
  | x :: rest, 0, hl => by
    intro o ho
    unfold setIndexNat at ho
    rcases List.mem_cons.mp ho with rfl | ho
    · exact hv
    · exact hl o (by simp [ho])
  | x :: rest, n + 1, hl => by
    intro o ho
    unfold setIndexNat at ho
    rcases List.mem_cons.mp ho with rfl | ho
    · exact hl o (by simp)
    · exact WfPos_setIndexNat hv rest n (fun o2 ho2 => hl o2 (by simp [ho2])) o ho

/-- `storeParameter` preserves both parameter stores, for any stored slot
shape the loops use. -/
theorem storeParameter_wf {ps : List (String × JVal)} {pp : List (Option JVal)}
    {k : String} {v : JVal} (hps : WfF ps) (hpp : WfPos pp) (hv : WfPP (some v)) :
    WfF (storeParameter ps pp k v).1 ∧ WfPos (storeParameter ps pp k v).2 := by
  unfold storeParameter
  cases jsToInt k with
  | none => exact ⟨WfF_setKey hps (WfPP_some hv), hpp⟩
  | some n =>
    refine ⟨hps, ?_⟩
    show WfPos (setIndexInt pp (n - 1) v)
    unfold setIndexInt
    split
    · exact hpp
    · exact WfPos_setIndexNat hv pp (n - 1).toNat hpp

/-- Lists without strings trivially have no adjacent strings. -/
theorem noAdjB_of_no_str : ∀ l : List JVal, (∀ v ∈ l, isStrB v = false) → noAdjB l = true
  | [], _ => rfl
  | [x], _ => noAdjB_single x
  | x :: y :: rest, h => by
    rw [noAdjB_cons2]
    have hx := h x (by simp)
    have := noAdjB_of_no_str (y :: rest) (fun v hv => h v (by simp [List.mem_cons.mp hv]))
    simp [hx, this]

/-- The dense positional-parameter array is well-formed. -/
theorem WfV_posParamsToJ {l : List (Option JVal)} (hl : WfPos l) :
    WfV (posParamsToJ l) := by
  show WfL (l.map (fun o => o.getD .jnull))
  rw [WfL_iff]
  constructor
  · apply noAdjB_of_no_str
    intro v hv
    rcases List.mem_map.mp hv with ⟨o, ho, rfl⟩
    have hw := hl o ho
    cases o with
    | none => rfl
    | some w => cases w <;> first | rfl | simp [WfPP] at hw
  · intro v hv
    rcases List.mem_map.mp hv with ⟨o, ho, rfl⟩
    have hw := hl o ho
    cases o with
    | none => exact WfV_jnull
    | some w => exact WfPP_some hw

/-- Elements of `[].concat(node)` are well-formed when the node is. -/
theorem concatNode_mem_wf {v : JVal} (h : WfV v) : ∀ x ∈ concatNode v, WfV x := by
  intro x hx
  cases v with
  | jarr l =>
    have hl : WfL l := h
    rw [WfL_iff] at hl
    exact hl.2 x hx
  | jstr s => simp [concatNode] at hx; subst hx; exact h
  | jnum n => simp [concatNode] at hx; subst hx; exact h
  | jbool b => simp [concatNode] at hx; subst hx; exact h
  | jnull => simp [concatNode] at hx; subst hx; exact h
  | jobj fs => simp [concatNode] at hx; subst hx; exact h

/-- The type wrapping of `node` preserves well-formedness. -/
theorem WfV_wrapContent (t : Option String) {v : JVal} (h : WfV v) :
    WfV (wrapContent t v) := by
  cases v with
  | jarr l =>
    show WfV (.jobj ((match t with | some ty => [("type", .jstr ty)] | none => []) ++
      [("content", .jarr l)]))
    rw [WfV_jobj]
    refine WfF_append ?_ (WfF_cons h WfF_nil)
    cases t with
    | some ty => exact WfF_cons (WfV_jstr ty) WfF_nil
    | none => exact WfF_nil
  | jobj fs =>
    show WfV (.jobj (objAssign
      (match t with | some ty => [("type", .jstr ty)] | none => []) fs))
    rw [WfV_jobj]
    refine WfF_objAssign ?_ ((WfV_jobj fs).mp h)
    cases t with
    | some ty => exact WfF_cons (WfV_jstr ty) WfF_nil
    | none => exact WfF_nil
  | jstr s => exact h
  | jnum n => exact h
  | jbool b => exact h
  | jnull => exact h

/-- Stripping comment edges of a coalesced content list yields a
well-formed list. -/
theorem mapStrip_wf : ∀ {l l2 : List JVal}, noAdjB l = true →
    mapStripStrings l = some l2 → WfL l2 := by
  intro l
  match l with
  | [] =>
    intro l2 _ h
    simp [mapStripStrings] at h
    subst h
    exact WfL_nil
  | [JVal.jstr s] =>
    intro l2 _ h
    simp [mapStripStrings] at h
    subst h
    rw [WfL_iff]
    exact ⟨noAdjB_single _, by intro v hv; simp at hv; subst hv; exact WfV_jstr _⟩
  | JVal.jstr s :: x :: rest =>
    intro l2 hn h
    cases x with
    | jstr s2 =>
      rw [noAdjB_cons2] at hn
      simp [isStrB] at hn
    | jnum n => simp [mapStripStrings] at h
    | jbool b => simp [mapStripStrings] at h
    | jnull => simp [mapStripStrings] at h
    | jarr a => simp [mapStripStrings] at h
    | jobj a => simp [mapStripStrings] at h
  | JVal.jnum n :: rest => intro l2 _ h; simp [mapStripStrings] at h
  | JVal.jbool b :: rest => intro l2 _ h; simp [mapStripStrings] at h
  | JVal.jnull :: rest => intro l2 _ h; simp [mapStripStrings] at h
  | JVal.jarr a :: rest => intro l2 _ h; simp [mapStripStrings] at h
  | JVal.jobj a :: rest => intro l2 _ h; simp [mapStripStrings] at h

/-- Post-processors preserve well-formedness of the produced node. -/
theorem applyPostP_wf {pp : PostP} {v v2 : JVal} (hv : WfV v)
    (h : applyPostP pp v = .ok (some v2)) : WfV v2 := by
  cases pp with
  | commentStrip =>
    cases v with
    | jobj fs =>
      rcases hg : getKey fs "content" with _ | w
      · simp only [applyPostP, hg] at h
        cases h
      · cases w with
        | jarr l =>
          rcases hm : mapStripStrings l with _ | l2
          · simp only [applyPostP, hg, hm] at h
            cases h
          · simp only [applyPostP, hg, hm] at h
            cases h
            rw [WfV_jobj]
            have hfs := (WfV_jobj fs).mp hv
            have hla : WfV (.jarr l) := by
              obtain ⟨k2, hk2⟩ := getKey_mem fs "content" _ hg
              exact (WfF_iff fs).mp hfs _ hk2
            have hwl2 : WfL l2 := by
              have hwl : WfL l := hla
              rw [WfL_iff] at hwl
              exact mapStrip_wf hwl.1 hm
            exact WfF_objAssign hfs (WfF_cons hwl2 WfF_nil)
        | jstr s => simp only [applyPostP, hg] at h; cases h
        | jnum n => simp only [applyPostP, hg] at h; cases h
        | jbool b => simp only [applyPostP, hg] at h; cases h
        | jnull => simp only [applyPostP, hg] at h; cases h
        | jobj o => simp only [applyPostP, hg] at h; cases h
    | jstr s => cases h; exact hv
    | jnum n => cases h; exact hv
    | jbool b => cases h; exact hv
    | jnull => cases h; exact hv
    | jarr l => cases h; exact hv
  | dropContent =>
    cases v with
    | jobj fs =>
      cases h
      rw [WfV_jobj]
      exact WfF_removeKey ((WfV_jobj fs).mp hv)
    | jstr s => cases h; exact hv
    | jnum n => cases h; exact hv
    | jbool b => cases h; exact hv
    | jnull => cases h; exact hv
    | jarr l => cases h; exact hv
  | retagTemplate =>
    cases v with
    | jobj fs =>
      cases h
      rw [WfV_jobj]
      exact WfF_objAssign ((WfV_jobj fs).mp hv) (WfF_cons (WfV_jstr _) WfF_nil)
    | jstr s => cases h; exact hv
    | jnum n => cases h; exact hv
    | jbool b => cases h; exact hv
    | jnull => cases h; exact hv
    | jarr l => cases h; exact hv
  | nowikiCollapse =>
    cases v with
    | jobj fs =>
      rcases hg : getKey fs "content" with _ | w
      · simp only [applyPostP, hg] at h
        cases h
        exact WfL_nil
      · simp only [applyPostP, hg] at h
        cases w <;> cases h <;> first | exact hv | exact WfL_nil
    | jstr s => cases h; exact hv
    | jnum n => cases h; exact hv
    | jbool b => cases h; exact hv
    | jnull => cases h; exact hv
    | jarr l => cases h; exact hv

/-- The wrap-and-post-process tail of a `node` candidate meets the result
invariant whenever the production result does. -/
theorem nodeWrap_ok {f : GFields} {v : JVal} {s2 : St} (hs : stOK s2) (hv : WfV v) :
    ResOK WfV (nodeWrap f v s2) := by
  cases hp : f.postP with
  | none =>
    simp only [nodeWrap, hp, ResOK]
    exact ⟨hs, WfV_wrapContent f.type hv⟩
  | some pp =>
    rcases ha : applyPostP pp (wrapContent f.type v) with e | ov
    · simp only [nodeWrap, hp, ha, ResOK]
    · cases ov with
      | none => simp only [nodeWrap, hp, ha, ResOK]
      | some v2 =>
        simp only [nodeWrap, hp, ha, ResOK]
        exact ⟨hs, applyPostP_wf (WfV_wrapContent f.type hv) ha⟩

/-- Entry-level facts used by the `node` walk: heading productions are
dispatched with `keepStart` at a literal `=`, and group actions recurse into
one of the two reachable groups. -/
theorem goodG_mem {g : List GEntry} (hg : GoodG g) : ∀ e ∈ g,
    (e.act = .func .heading → e.fields.keepStart = true ∧ e.fields.start = chars "=") ∧
    (∀ g2, e.act = .group g2 → GoodG g2) ∧
    (e.fields.type = none → ∃ g2, e.act = .group g2) ∧
    (e.fields.type = some "comment" → e.act = .declarative ∧ e.fields.replaceWith = none) := by
  induction hg with
  | wiki =>
    intro e he
    simp only [wikiGrammar, List.mem_cons, List.not_mem_nil, or_false] at he
    rcases he with rfl|rfl|rfl|rfl|rfl|rfl|rfl|rfl|rfl|rfl|rfl|rfl|rfl|rfl|rfl|rfl|rfl|rfl|rfl <;>
      refine ⟨fun h => ?_, fun g2 h => ?_, fun h => ?_, fun h => ?_⟩ <;>
        first
          | exact ⟨rfl, rfl⟩
          | (cases h; exact GoodG.html)
          | (cases h; exact GoodG.tagsG)
          | exact ⟨_, rfl⟩
          | cases h
          | simp [GEntry.fields] at h
  | html =>
    intro e he
    simp only [htmlEntitiesGroup, List.mem_cons, List.not_mem_nil, or_false] at he
    rcases he with rfl|rfl|rfl|rfl|rfl|rfl|rfl|rfl <;>
      refine ⟨fun h => ?_, fun g2 h => ?_, fun h => ?_, fun h => ?_⟩ <;>
        first
          | exact ⟨rfl, rfl⟩
          | exact ⟨_, rfl⟩
          | cases h
          | simp [GEntry.fields] at h
  | tagsG =>
    intro e he
    simp only [tagsGroup, List.mem_cons, List.not_mem_nil, or_false] at he
    rcases he with rfl|rfl|rfl|rfl|rfl|rfl|rfl|rfl|rfl|rfl|rfl|rfl <;>
      refine ⟨fun h => ?_, fun g2 h => ?_, fun h => ?_, fun h => ?_⟩ <;>
        first
          | exact ⟨rfl, rfl⟩
          | exact ⟨_, rfl⟩
          | cases h
          | simp [GEntry.fields] at h
  | tail e rest _ ih =>
    intro e2 he2
    exact ih e2 (List.mem_cons_of_mem _ he2)

/-- The fresh parse state satisfies the counter invariant. -/
theorem stOK_initSt (o : Options) (i : String) : stOK (initSt o i) := Nat.zero_le _

/-- Projection of `InterpOK`: the `next` spec. -/
theorem InterpOK.nextS {I : Interp} (h : InterpOK I) : ∀ o s, stOK s → ResOK WfL (I.next o s) := h.1

/-- Projection of `InterpOK`: the `nextLoop` spec. -/
theorem InterpOK.nextLoopS {I : Interp} (h : InterpOK I) : ∀ o p cs cl content s, stOK s → WfL content → ResOK WfL (I.nextLoop o p cs cl content s) := h.2.1

/-- Projection of `InterpOK`: the `node` spec. -/
theorem InterpOK.nodeS {I : Interp} (h : InterpOK I) : ∀ a d g s, stOK s → GoodG g → ResOK (NodeP a) (I.node a d g s) := h.2.2.1

/-- Projection of `InterpOK`: the `template` spec. -/
theorem InterpOK.templateS {I : Interp} (h : InterpOK I) : ∀ a s, stOK s → ResOK WfV (I.template a s) := h.2.2.2.1

/-- Projection of `InterpOK`: the `templateParams` spec. -/
theorem InterpOK.templateParamsS {I : Interp} (h : InterpOK I) : ∀ a ps pp s, stOK s → WfF ps → WfPos pp → ResOK (fun r => WfF r.1 ∧ WfPos r.2) (I.templateParams a ps pp s) := h.2.2.2.2.1

/-- Projection of `InterpOK`: the `link` spec. -/
theorem InterpOK.linkS {I : Interp} (h : InterpOK I) : ∀ s, stOK s → ResOK WfV (I.link s) := h.2.2.2.2.2.1

/-- Projection of `InterpOK`: the `linkParams` spec. -/
theorem InterpOK.linkParamsS {I : Interp} (h : InterpOK I) : ∀ ps pp s, stOK s → WfF ps → WfPos pp → ResOK (fun r => WfF r.1 ∧ WfPos r.2) (I.linkParams ps pp s) := h.2.2.2.2.2.2.1

/-- Projection of `InterpOK`: the `externalLink` spec. -/
theorem InterpOK.externalLinkS {I : Interp} (h : InterpOK I) : ∀ s, stOK s → ResOK WfV (I.externalLink s) := h.2.2.2.2.2.2.2.1

/-- Projection of `InterpOK`: the `tag` spec. -/
theorem InterpOK.tagS {I : Interp} (h : InterpOK I) : ∀ o s, stOK s → ResOK WfV (I.tag o s) := h.2.2.2.2.2.2.2.2.1

/-- Projection of `InterpOK`: the `attributes` spec. -/
theorem InterpOK.attributesS {I : Interp} (h : InterpOK I) : ∀ eb c s, stOK s → ResOK WfF (I.attributes eb c s) := h.2.2.2.2.2.2.2.2.2.1

/-- Projection of `InterpOK`: the `attrLoop` spec. -/
theorem InterpOK.attrLoopS {I : Interp} (h : InterpOK I) : ∀ eb c attrs s, stOK s → WfF attrs → ResOK WfF (I.attrLoop eb c attrs s) := h.2.2.2.2.2.2.2.2.2.2.1

/-- Projection of `InterpOK`: the `quotedString` spec. -/
theorem InterpOK.quotedStringS {I : Interp} (h : InterpOK I) : ∀ c s, stOK s → ResOK WfV (I.quotedString c s) := h.2.2.2.2.2.2.2.2.2.2.2.1

/-- Projection of `InterpOK`: the `listLoop` spec. -/
theorem InterpOK.listLoopS {I : Interp} (h : InterpOK I) : ∀ m items s, stOK s → WfL items → ResOK WfL (I.listLoop m items s) := h.2.2.2.2.2.2.2.2.2.2.2.2.1

/-- Projection of `InterpOK`: the `indentLoop` spec. -/
theorem InterpOK.indentLoopS {I : Interp} (h : InterpOK I) : ∀ b items s, stOK s → WfL items → ResOK WfL (I.indentLoop b items s) := h.2.2.2.2.2.2.2.2.2.2.2.2.2.1

/-- Projection of `InterpOK`: the `description` spec. -/
theorem InterpOK.descriptionS {I : Interp} (h : InterpOK I) : ∀ s, stOK s → ResOK WfV (I.description s) := h.2.2.2.2.2.2.2.2.2.2.2.2.2.2.1

/-- Projection of `InterpOK`: the `heading` spec. -/
theorem InterpOK.headingS {I : Interp} (h : InterpOK I) : ∀ s, stOK s → startsWith s (chars "=") = true → ResOK WfV (I.heading s) := h.2.2.2.2.2.2.2.2.2.2.2.2.2.2.2.1

/-- Projection of `InterpOK`: the `preLoop` spec. -/
theorem InterpOK.preLoopS {I : Interp} (h : InterpOK I) : ∀ content s, stOK s → WfL content → ResOK WfL (I.preLoop content s) := h.2.2.2.2.2.2.2.2.2.2.2.2.2.2.2.2.1

/-- Projection of `InterpOK`: the `htmlEntity` spec. -/
theorem InterpOK.htmlEntityS {I : Interp} (h : InterpOK I) : ∀ s, stOK s → ResOK WfV (I.htmlEntity s) := h.2.2.2.2.2.2.2.2.2.2.2.2.2.2.2.2.2.1

/-- Projection of `InterpOK`: the `table` spec. -/
theorem InterpOK.tableS {I : Interp} (h : InterpOK I) : ∀ s, stOK s → ResOK WfV (I.table s) := h.2.2.2.2.2.2.2.2.2.2.2.2.2.2.2.2.2.2.1

/-- Projection of `InterpOK`: the `tableLoop` spec. -/
theorem InterpOK.tableLoopS {I : Interp} (h : InterpOK I) : ∀ rows s, stOK s → WfL rows → ResOK WfL (I.tableLoop rows s) := h.2.2.2.2.2.2.2.2.2.2.2.2.2.2.2.2.2.2.2.1

/-- Projection of `InterpOK`: the `tableRow` spec. -/
theorem InterpOK.tableRowS {I : Interp} (h : InterpOK I) : ∀ b s, stOK s → ResOK NStr (I.tableRow b s) := h.2.2.2.2.2.2.2.2.2.2.2.2.2.2.2.2.2.2.2.2.1

/-- Projection of `InterpOK`: the `cellLoop` spec. -/
theorem InterpOK.cellLoopS {I : Interp} (h : InterpOK I) : ∀ cells s, stOK s → WfL cells → ResOK WfL (I.cellLoop cells s) := h.2.2.2.2.2.2.2.2.2.2.2.2.2.2.2.2.2.2.2.2.2.1

/-- Projection of `InterpOK`: the `gallery` spec. -/
theorem InterpOK.galleryS {I : Interp} (h : InterpOK I) : ∀ s, stOK s → ResOK WfV (I.gallery s) := h.2.2.2.2.2.2.2.2.2.2.2.2.2.2.2.2.2.2.2.2.2.2.1

/-- Projection of `InterpOK`: the `galleryLoop` spec. -/
theorem InterpOK.galleryLoopS {I : Interp} (h : InterpOK I) : ∀ items s, stOK s → WfL items → ResOK WfL (I.galleryLoop items s) := h.2.2.2.2.2.2.2.2.2.2.2.2.2.2.2.2.2.2.2.2.2.2.2.1

/-- Projection of `InterpOK`: the `eatComments` spec. -/
theorem InterpOK.eatCommentsS {I : Interp} (h : InterpOK I) : ∀ comments s, stOK s → CommentsP comments → ResOK CommentsP (I.eatComments comments s) := h.2.2.2.2.2.2.2.2.2.2.2.2.2.2.2.2.2.2.2.2.2.2.2.2

/-- Exit of the `next` loop meets the result invariant. -/
theorem nextFinish_ok {o : NextOpts} {cs cl : Nat} {content : List JVal} {s : St}
    (hs : stOK s) (hc : WfL content) : ResOK WfL (nextFinish o cs cl content s) := by
  unfold nextFinish
  refine ⟨(stOK_popBtIf _ _).mpr hs, ?_⟩
  split
  · exact WfL_appendJS hc (by intro c hcm; simp at hcm; subst hcm; exact WfV_jstr _)
  · exact hc

/-- The plaintext step of the `next` loop meets the result invariant. -/
theorem nextPlain_ok {I : Interp} (hI : InterpOK I) {o : NextOpts} {p : Pos}
    {cs cl : Nat} {content : List JVal} {s : St} (hs : stOK s) (hc : WfL content) :
    ResOK WfL (nextPlain I o p cs cl content s) := by
  unfold nextPlain
  rcases hch : charAt s s.pos.offset with _ | c
  · exact trivial
  · exact hI.nextLoopS o p _ (cl + 1) content (advance s [c]) hs hc

/-- `Parser.next` meets the result invariant, given the previous layer. -/
theorem nextF_ok {I : Interp} (hI : InterpOK I) : ∀ o s, stOK s →
    ResOK WfL (nextF I o s) := by
  intro o s hs
  unfold nextF
  split
  · exact ⟨hs, WfL_nil⟩
  · exact hI.nextLoopS o s.pos s.pos.offset 0 [] (pushBtIf o.backtrackOn s)
      ((stOK_pushBtIf _ _).mpr hs) WfL_nil

/-- One iteration of the `next` loop meets the result invariant. -/
theorem nextLoopF_ok {I : Interp} (hI : InterpOK I) : ∀ o p cs cl content s,
    stOK s → WfL content → ResOK WfL (nextLoopF I o p cs cl content s) := by
  intro o p cs cl content s hs hc
  simp only [nextLoopF]
  split
  · exact nextFinish_ok hs hc
  · split
    · rcases hb : bump s with _ | s1
      · exact trivial
      · exact (stOK_popBtIf _ _).mpr ((stOK_withPos s1 p).mpr (bump_stOK hb))
    · split
      · rcases he : eatAnyT s o.endTok with ⟨a, s1⟩ | s1 | ⟨e, s1⟩ | _
        · exact nextFinish_ok (eatAnyT_ok_stOK he hs) hc
        · unfold eatAnyT at he
          rcases hb2 : eatAnyB s o.endTok with ⟨b, s2⟩
          rw [hb2] at he
          cases b <;> cases he
        · exact trivial
        · exact trivial
      · split
        · exact nextFinish_ok hs hc
        · have hspec := hI.nodeS o.allow o.disallow wikiGrammar (pushStack s)
            ((stOK_pushStack s).mpr hs) GoodG.wiki
          split
          · exact trivial
          · exact trivial
          · next s1 heq =>
            rw [heq] at hspec
            exact nextPlain_ok hI ((stOK_popStack s1).mpr hspec) hc
          · next v s1 heq =>
            rw [heq] at hspec
            obtain ⟨hs1, hv⟩ := hspec
            split
            · refine hI.nextLoopS o p _ 0 _ (popStack s1)
                ((stOK_popStack s1).mpr hs1) ?_
              refine WfL_appendJS ?_ (concatNode_mem_wf hv.1)
              split
              · exact WfL_appendJS hc
                  (by intro c hcm; simp at hcm; subst hcm; exact WfV_jstr _)
              · exact hc
            · exact nextPlain_ok hI ((stOK_popStack s1).mpr hs1) hc


/-- The empty positional array is well-formed. -/
theorem WfPos_nil : WfPos [] := fun o ho => absurd ho (List.not_mem_nil o)

/-- Dropping the last slot preserves positional well-formedness. -/
theorem WfPos_dropLast {l : List (Option JVal)} (h : WfPos l) : WfPos l.dropLast :=
  fun o ho => h o (List.dropLast_subset l ho)

/-- The positional branch of the template parameter loop meets the spec. -/
theorem templateParamsPositional_ok {I : Interp} (hI : InterpOK I) :
    ∀ a ps pp s, stOK s → WfF ps → WfPos pp →
    ResOK (fun r => WfF r.1 ∧ WfPos r.2) (templateParamsPositional I a ps pp s) := by
  intro a ps pp s hs hf hp
  simp only [templateParamsPositional]
  have hspec := hI.nextS (templateValueOpts a) s hs
  split
  · exact trivial
  · exact trivial
  · next vl s1 heq =>
    rw [heq] at hspec
    exact hI.templateParamsS a ps (pp ++ [some (.jarr (trimList vl))]) s1 hspec.1 hf
      (WfPos_push hp (show WfPP (some (.jarr (trimList vl))) from WfL_trimList hspec.2))
  · next s1 heq =>
    rw [heq] at hspec
    exact hI.templateParamsS a ps (pp ++ [some .jnull]) s1 hspec hf
      (WfPos_push hp (show WfPP (some JVal.jnull) from trivial))

/-- One iteration of the template parameter loop meets the spec. -/
theorem templateParamsF_ok {I : Interp} (hI : InterpOK I) :
    ∀ a ps pp s, stOK s → WfF ps → WfPos pp →
    ResOK (fun r => WfF r.1 ∧ WfPos r.2) (templateParamsF I a ps pp s) := by
  intro a ps pp s hs hf hp
  simp only [templateParamsF]
  split
  · next s1 heq =>
    have h2 := stOK_eatB s (chars "|")
    rw [heq] at h2
    exact ⟨h2.mpr hs, hf, hp⟩
  · next s1 heq =>
    have h2 := stOK_eatB s (chars "|")
    rw [heq] at h2
    have hs1 := h2.mpr hs
    have hspec := hI.nextS
      { endTok := [chars "="], allow := some ["comment"], backtrackOn := true } s1 hs1
    split
    · exact trivial
    · exact trivial
    · next s2 heq2 =>
      rw [heq2] at hspec
      exact templateParamsPositional_ok hI a ps pp _ hspec hf hp
    · next nc s2 heq2 =>
      rw [heq2] at hspec
      obtain ⟨hs2, _⟩ := hspec
      split
      · exact templateParamsPositional_ok hI a ps pp _ hs2 hf hp
      · split
        · next k0 heq3 =>
          split
          · exact templateParamsPositional_ok hI a ps pp _ hs2 hf hp
          · have hv := hI.nextS (templateValueOpts a) s2 hs2
            split
            · exact trivial
            · exact trivial
            · next vl s3 heq4 =>
              rw [heq4] at hv
              have hst := storeParameter_wf (k := jsLowerStr (jsTrimStr k0)) hf hp
                (show WfPP (some (.jarr (trimList vl))) from WfL_trimList hv.2)
              exact hI.templateParamsS _ _ _ s3 hv.1 hst.1 hst.2
            · next s3 heq4 =>
              rw [heq4] at hv
              have hst := storeParameter_wf (k := jsLowerStr (jsTrimStr k0)) hf hp
                (show WfPP (some JVal.jnull) from trivial)
              exact hI.templateParamsS _ _ _ s3 hv hst.1 hst.2
        · exact trivial

/-- `WikiParser.template` meets the result invariant. -/
theorem templateF_ok {I : Interp} (hI : InterpOK I) :
    ∀ a s, stOK s → ResOK WfV (templateF I a s) := by
  intro a s hs
  simp only [templateF]
  have hspec := hI.nextS
    { endBeforeTok := [chars "|", chars "\x7d\x7d"], allow := some ["comment", "template"] }
    s hs
  split
  · exact trivial
  · exact trivial
  · next s1 heq =>
    rw [heq] at hspec
    exact hspec
  · next parts s1 heq =>
    rw [heq] at hspec
    obtain ⟨hs1, _⟩ := hspec
    split
    · exact hs1
    · split
      · next str0 heq2 =>
        split
        · exact hs1
        · have hpar := hI.templateParamsS
            (if (jsLowerStr (jsTrimStr str0) == "code") = true then some [] else a) [] []
            (eatWhitespace true s1) ((stOK_eatWhitespace true s1).mpr hs1) WfF_nil WfPos_nil
          split
          · exact trivial
          · exact trivial
          · next s2 heq3 =>
            rw [heq3] at hpar
            exact hpar
          · next pr s2 heq3 =>
            rw [heq3] at hpar
            obtain ⟨hs2, hpr⟩ := hpar
            split
            · next s3 heq4 =>
              have h4 := stOK_eatB s2 (chars "\x7d\x7d")
              rw [heq4] at h4
              exact h4.mpr hs2
            · next s3 heq4 =>
              have h4 := stOK_eatB s2 (chars "\x7d\x7d")
              rw [heq4] at h4
              refine ⟨h4.mpr hs2, ?_⟩
              rw [WfV_jobj]
              refine WfF_cons (WfV_jstr _) (WfF_cons ?_ (WfF_cons ?_ WfF_nil))
              · rw [show WfV (JVal.jobj pr.1) ↔ WfF pr.1 from WfV_jobj pr.1]
                exact hpr.1
              · exact WfV_posParamsToJ hpr.2
      · exact trivial

/-- The positional branch of the link parameter loop meets the spec. -/
theorem linkParamsPositional_ok {I : Interp} (hI : InterpOK I) :
    ∀ ps pp s, stOK s → WfF ps → WfPos pp →
    ResOK (fun r => WfF r.1 ∧ WfPos r.2) (linkParamsPositional I ps pp s) := by
  intro ps pp s hs hf hp
  simp only [linkParamsPositional]
  have hspec := hI.nextS linkValueOpts s hs
  split
  · exact trivial
  · exact trivial
  · next vl s1 heq =>
    rw [heq] at hspec
    exact hI.linkParamsS ps (pp ++ [some (.jarr (trimList vl))]) s1 hspec.1 hf
      (WfPos_push hp (show WfPP (some (.jarr (trimList vl))) from WfL_trimList hspec.2))
  · next s1 heq =>
    rw [heq] at hspec
    exact hI.linkParamsS ps (pp ++ [some .jnull]) s1 hspec hf
      (WfPos_push hp (show WfPP (some JVal.jnull) from trivial))

/-- One iteration of the link parameter loop meets the spec. -/
theorem linkParamsF_ok {I : Interp} (hI : InterpOK I) :
    ∀ ps pp s, stOK s → WfF ps → WfPos pp →
    ResOK (fun r => WfF r.1 ∧ WfPos r.2) (linkParamsF I ps pp s) := by
  intro ps pp s hs hf hp
  simp only [linkParamsF]
  split
  · next s1 heq =>
    have h2 := stOK_eatB s (chars "|")
    rw [heq] at h2
    exact ⟨h2.mpr hs, hf, hp⟩
  · next s1 heq =>
    have h2 := stOK_eatB s (chars "|")
    rw [heq] at h2
    have hs1 := h2.mpr hs
    have hspec := hI.nextS
      { endTok := [chars "="], allow := some ["comment"], backtrackOn := true } s1 hs1
    split
    · exact trivial
    · exact trivial
    · next s2 heq2 =>
      rw [heq2] at hspec
      exact linkParamsPositional_ok hI ps pp _ hspec hf hp
    · next nc s2 heq2 =>
      rw [heq2] at hspec
      obtain ⟨hs2, _⟩ := hspec
      split
      · exact linkParamsPositional_ok hI ps pp _ hs2 hf hp
      · split
        · next k0 heq3 =>
          split
          · exact linkParamsPositional_ok hI ps pp _ hs2 hf hp
          · have hv := hI.nextS linkValueOpts s2 hs2
            split
            · exact trivial
            · exact trivial
            · next vl s3 heq4 =>
              rw [heq4] at hv
              have hst := storeParameter_wf (k := jsLowerStr (jsTrimStr k0)) hf hp
                (show WfPP (some (.jarr (trimList vl))) from WfL_trimList hv.2)
              exact hI.linkParamsS _ _ s3 hv.1 hst.1 hst.2
            · next s3 heq4 =>
              rw [heq4] at hv
              have hst := storeParameter_wf (k := jsLowerStr (jsTrimStr k0)) hf hp
                (show WfPP (some JVal.jnull) from trivial)
              exact hI.linkParamsS _ _ s3 hv hst.1 hst.2
        · exact trivial

/-- The last element of a list is a member. -/
theorem getLastQ_mem {α : Type} : ∀ {l : List α} {a : α}, l.getLast? = some a → a ∈ l
  | [], _, h => by simp at h
  | [x], a, h => by
    simp [List.getLast?] at h
    simp [h]
  | x :: y :: rest, a, h => by
    rw [List.getLast?_cons_cons] at h
    exact List.mem_cons_of_mem _ (getLastQ_mem h)

/-- The pre-trail link content is well-formed when the positional slots are. -/
theorem linkContent0_wf {pp2 : List (Option JVal)} (h : WfPos pp2) (t : String) :
    WfV (linkContent0 pp2 t) := by
  match pp2 with
  | [] =>
    show WfL [JVal.jstr t]
    rw [WfL_iff]
    refine ⟨noAdjB_single _, ?_⟩
    intro v hv
    simp at hv
    subst hv
    exact WfV_jstr t
  | o :: rest =>
    show WfV ((((o :: rest).getLast?).getD none).getD .jnull)
    rcases hgl : (o :: rest).getLast? with _ | w
    · exact WfV_jnull
    · have hw : WfPP w := h w (getLastQ_mem hgl)
      match w, hw with
      | none, _ => exact WfV_jnull
      | some .jnull, _ => exact WfV_jnull
      | some (.jarr l), hw => exact hw

/-- Dropping the popped positional slot keeps the rest well-formed. -/
theorem WfPos_linkPosParams1 {pp2 : List (Option JVal)} (h : WfPos pp2) :
    WfPos (linkPosParams1 pp2) := by
  match pp2 with
  | [] => exact WfPos_nil
  | o :: rest => exact WfPos_dropLast h

/-- The link-trail loop preserves the invariant, whatever the content. -/
theorem linkTrailAux_ok : ∀ (n : Nat) (content : JVal) (s : St), stOK s → WfV content →
    ResOK WfV (linkTrailAux n content s)
  | 0, _, _, hs, hv => ⟨hs, hv⟩
  | n + 1, content, s, hs, hv => by
    simp only [linkTrailAux]
    split
    · exact ⟨hs, hv⟩
    · next c _ =>
      split
      · split
        · next l =>
          refine linkTrailAux_ok n _ (advance s [c]) ((stOK_advance s [c]).mpr hs) ?_
          refine WfL_appendJS hv ?_
          intro d hd
          simp at hd
          subst hd
          exact WfV_jstr _
        · exact trivial
      · exact ⟨hs, hv⟩

/-- The link trail at the cursor preserves the invariant. -/
theorem linkTrail_ok {s : St} {content : JVal} (hs : stOK s) (hv : WfV content) :
    ResOK WfV (linkTrail s content) :=
  linkTrailAux_ok _ content s hs hv

/-- `WikiParser.link` meets the result invariant. -/
theorem linkF_ok {I : Interp} (hI : InterpOK I) : ∀ s, stOK s → ResOK WfV (linkF I s) := by
  intro s hs
  simp only [linkF]
  have hpage := hI.nextS
    { endBeforeTok := [chars "|", chars "]]"], allow := some ["nbsp"], backtrackOn := true }
    s hs
  split
  · exact trivial
  · exact trivial
  · next s1 heq =>
    rw [heq] at hpage
    exact hpage
  · next page s1 heq =>
    rw [heq] at hpage
    obtain ⟨hs1, -⟩ := hpage
    clear heq
    have hlp := hI.linkParamsS [] [] s1 hs1 WfF_nil WfPos_nil
    split
    · exact trivial
    · exact trivial
    · next s2 heq2 =>
      rw [heq2] at hlp
      exact hlp
    · next pp s2 heq2 =>
      rw [heq2] at hlp
      obtain ⟨hs2, hppf, hppp⟩ := hlp
      clear heq2
      split
      · next s3 heq3 =>
        have h3 := stOK_eatB s2 (chars "]]")
        rw [heq3] at h3
        exact ⟨h3.mpr hs2, WfV_jbool false⟩
      · next s3 heq3 =>
        have h3 := stOK_eatB s2 (chars "]]")
        rw [heq3] at h3
        have hs3 : stOK s3 := h3.mpr hs2
        clear heq3 h3
        split
        · exact hs3
        · split
          · next page0 =>
            have hlt := linkTrail_ok hs3
              (linkContent0_wf hppp ((jsSplitHash (jsTrimStr page0)).headD ""))
            split
            · exact trivial
            · exact trivial
            · next s4 heq5 =>
              rw [heq5] at hlt
              exact hlt
            · next content1 s4 heq5 =>
              rw [heq5] at hlt
              obtain ⟨hs4, hc1⟩ := hlt
              refine ⟨hs4, ?_⟩
              rw [WfV_jobj]
              refine WfF_append (WfF_append (WfF_append
                (WfF_cons (WfV_jstr _) (WfF_cons hc1 WfF_nil)) ?_) ?_) ?_
              · split
                · split
                  · exact WfF_cons (WfV_jstr _) WfF_nil
                  · exact WfF_nil
                · exact WfF_nil
              · split
                · exact WfF_nil
                · exact WfF_cons ((WfV_jobj pp.1).mpr hppf) WfF_nil
              · split
                · exact WfF_nil
                · exact WfF_cons (WfV_posParamsToJ (WfPos_linkPosParams1 hppp)) WfF_nil
          · exact trivial

/-- `WikiParser.externalLink` meets the result invariant. -/
theorem externalLinkF_ok {I : Interp} (hI : InterpOK I) :
    ∀ s, stOK s → ResOK WfV (externalLinkF I s) := by
  intro s hs
  simp only [externalLinkF]
  have hn1 := hI.nextS
    { endTok := [[' '], ['\t']], endBeforeTok := [chars "]"], allow := some ["comment"] } s hs
  split
  · exact trivial
  · exact trivial
  · next s1 heq =>
    rw [heq] at hn1
    exact hn1
  · next uriParts s1 heq =>
    rw [heq] at hn1
    obtain ⟨hs1, -⟩ := hn1
    clear heq
    have hn2 := hI.nextS { endTok := [chars "]"], backtrackOn := true } s1 hs1
    split
    · exact trivial
    · exact trivial
    · next l s2 heq2 =>
      rw [heq2] at hn2
      obtain ⟨hs2, hl⟩ := hn2
      refine ⟨hs2, ?_⟩
      rw [WfV_jobj]
      exact WfF_cons (WfV_jstr _)
        (WfF_cons (show WfV (.jarr (trimList l)) from WfL_trimList hl) WfF_nil)
    · next s2 heq2 =>
      rw [heq2] at hn2
      refine ⟨hn2, ?_⟩
      rw [WfV_jobj]
      exact WfF_cons (WfV_jstr _) (WfF_cons (show WfV (.jarr []) from WfL_nil) WfF_nil)

/-- `WikiParser.quotedString` meets the result invariant. -/
theorem quotedStringF_ok {I : Interp} (hI : InterpOK I) :
    ∀ c s, stOK s → ResOK WfV (quotedStringF I c s) := by
  intro cqn s hs
  simp only [quotedStringF]
  split
  · exact trivial
  · next s0 heq =>
    unfold eatT at heq
    split at heq <;> cases heq
  · exact trivial
  · next a s1 heq =>
    have hs1 : stOK s1 := by rw [eatT_ok heq]; exact hs
    clear heq
    have hn := hI.nextS
      { endTok := [chars "\x22"], endBeforeTok := if cqn then [chars "\n"] else [],
        allow := some [] } s1 hs1
    split
    · exact trivial
    · exact trivial
    · next s2 heq2 =>
      rw [heq2] at hn
      exact hn
    · next l s2 heq2 =>
      rw [heq2] at hn
      obtain ⟨hs2, hl⟩ := hn
      clear heq2
      cases l with
      | nil => exact ⟨hs2, WfV_jstr ""⟩
      | cons v0 rest =>
        show ResOK WfV (.ok (if jsTruthy v0 then v0 else .jstr "") s2)
        refine ⟨hs2, ?_⟩
        split
        · exact ((WfL_iff (v0 :: rest)).mp hl).2 v0 (List.mem_cons_self v0 rest)
        · exact WfV_jstr ""

/-- One iteration of the attribute loop meets the result invariant. -/
theorem attrLoopF_ok {I : Interp} (hI : InterpOK I) :
    ∀ eb c attrs s, stOK s → WfF attrs → ResOK WfF (attrLoopF I eb c attrs s) := by
  intro eb cqn attrs s hs hattrs
  simp only [attrLoopF]
  split
  · exact ⟨hs, hattrs⟩
  · have hn := hI.nextS { endTok := [[' '], ['\t']], endBeforeTok := eb ++ [chars "="] }
      (eatWhitespace false s) ((stOK_eatWhitespace false s).mpr hs)
    split
    · exact trivial
    · exact trivial
    · next s2 heq =>
      rw [heq] at hn
      exact ⟨(stOK_eatWhitespace false s2).mpr hn, hattrs⟩
    · next l s2 heq =>
      rw [heq] at hn
      obtain ⟨hs2, -⟩ := hn
      clear heq
      have hs3 : stOK (eatWhitespace false s2) := (stOK_eatWhitespace false s2).mpr hs2
      split
      · exact ⟨hs3, hattrs⟩
      · next n0 rest heq2 =>
        split
        · next s4 heq3 =>
          have h4 := stOK_eatB (eatWhitespace false s2) (chars "=")
          rw [heq3] at h4
          exact hI.attrLoopS eb cqn (setKey attrs (jvalCoerceStr n0) (.jbool true)) s4
            (h4.mpr hs3) (WfF_setKey hattrs (WfV_jbool true))
        · next s4 heq3 =>
          have h4 := stOK_eatB (eatWhitespace false s2) (chars "=")
          rw [heq3] at h4
          have hs4 : stOK s4 := h4.mpr hs3
          clear heq3 h4
          have hs5 : stOK (eatWhitespace false s4) := (stOK_eatWhitespace false s4).mpr hs4
          split
          · have hq := hI.quotedStringS cqn (eatWhitespace false s4) hs5
            split
            · exact trivial
            · exact trivial
            · next s6 heq4 =>
              rw [heq4] at hq
              exact ⟨hq, hattrs⟩
            · next v s6 heq4 =>
              rw [heq4] at hq
              exact hI.attrLoopS eb cqn (setKey attrs (jvalCoerceStr n0) v) s6 hq.1
                (WfF_setKey hattrs hq.2)
          · have hn2 := hI.nextS { endTok := [[' '], ['\t']], endBeforeTok := eb }
              (eatWhitespace false s4) hs5
            split
            · exact trivial
            · exact trivial
            · next s6 heq4 =>
              rw [heq4] at hn2
              exact ⟨hn2, hattrs⟩
            · next vl s6 heq4 =>
              rw [heq4] at hn2
              obtain ⟨hs6, hvl⟩ := hn2
              clear heq4
              cases vl with
              | nil => exact ⟨hs6, hattrs⟩
              | cons v0 rest2 =>
                show ResOK WfF (I.attrLoop eb cqn (setKey attrs (jvalCoerceStr n0) v0) s6)
                exact hI.attrLoopS eb cqn (setKey attrs (jvalCoerceStr n0) v0) s6 hs6
                  (WfF_setKey hattrs (((WfL_iff (v0 :: rest2)).mp hvl).2 v0
                    (List.mem_cons_self v0 rest2)))

/-- `WikiParser.attributes` meets the result invariant. -/
theorem attributesF_ok {I : Interp} (hI : InterpOK I) :
    ∀ eb c s, stOK s → ResOK WfF (attributesF I eb c s) := by
  intro eb cqn s hs
  exact hI.attrLoopS eb cqn [] (eatWhitespace false s)
    ((stOK_eatWhitespace false s).mpr hs) WfF_nil

/-- Tag nodes built by `WikiParser.tag` are well-formed when their pieces are. -/
theorem tagValue_wf {o : TagOpts} {nm : String} {extra attrs : List (String × JVal)}
    (he : WfF extra) (ha : WfF attrs) : WfV (tagValue o nm extra attrs) := by
  simp only [tagValue]
  rw [WfV_jobj]
  refine WfF_append (WfF_append (WfF_append (WfF_cons (WfV_jstr _) WfF_nil) he)
    (WfF_cons ((WfV_jobj attrs).mpr ha) WfF_nil)) ?_
  split
  · exact WfF_cons (WfV_jstr _) WfF_nil
  · exact WfF_nil

/-- The continuation of `WikiParser.tag` meets the result invariant. -/
theorem tagAfterName_ok {I : Interp} (hI : InterpOK I) :
    ∀ o nm s, stOK s → ResOK WfV (tagAfterName I o nm s) := by
  intro o nm s2 hs2
  simp only [tagAfterName]
  split
  · exact hs2
  · have hat := hI.attributesS [chars "/>", chars "/ >", chars ">"] false s2 hs2
    split
    · exact trivial
    · exact trivial
    · next s3 heq4 =>
      rw [heq4] at hat
      exact hat
    · next attrs s3 heq4 =>
      rw [heq4] at hat
      obtain ⟨hs3, hatw⟩ := hat
      clear heq4
      split
      · next s4 heq5 =>
        have h5 := stOK_eatAnyB s3 [chars "/>", chars "/ >"]
        rw [heq5] at h5
        exact ⟨h5.mpr hs3, tagValue_wf (WfF_cons (WfV_jbool true) WfF_nil) hatw⟩
      · next s4 heq5 =>
        have h5 := stOK_eatAnyB s3 [chars "/>", chars "/ >"]
        rw [heq5] at h5
        have hs4 : stOK s4 := h5.mpr hs3
        clear heq5 h5
        split
        · next s5 heq6 =>
          have h6 := stOK_eatB s4 (chars ">")
          rw [heq6] at h6
          exact h6.mpr hs4
        · next s5 heq6 =>
          have h6 := stOK_eatB s4 (chars ">")
          rw [heq6] at h6
          have hs5 : stOK s5 := h6.mpr hs4
          clear heq6 h6
          split
          · exact ⟨hs5, tagValue_wf WfF_nil hatw⟩
          · have hn2 := hI.nextS
              { endAtEos := true,
                endBeforeTok := o.endBeforeTok ++
                  [chars "</" ++ nm.data, chars "]]", chars "\x7d\x7d"],
                allow := o.allow, disallow := o.disallow } s5 hs5
            split
            · exact trivial
            · exact trivial
            · next s6 heq7 =>
              rw [heq7] at hn2
              exact hn2
            · next l s6 heq7 =>
              rw [heq7] at hn2
              obtain ⟨hs6, hl⟩ := hn2
              clear heq7
              have hc : WfV (.jarr (if o.trim then trimList l else l)) := by
                split
                · exact WfL_trimList hl
                · exact hl
              split
              · exact ⟨hs6, tagValue_wf (WfF_cons hc WfF_nil) hatw⟩
              · split
                · next s7 heq8 =>
                  have h8 := stOK_eatB s6 (chars "</" ++ nm.data ++ chars ">")
                  rw [heq8] at h8
                  exact ⟨h8.mpr hs6, tagValue_wf (WfF_cons hc WfF_nil) hatw⟩
                · next s7 heq8 =>
                  have h8 := stOK_eatB s6 (chars "</" ++ nm.data ++ chars ">")
                  rw [heq8] at h8
                  have hs7 : stOK s7 := h8.mpr hs6
                  clear heq8 h8
                  split
                  · next s8 heq9 =>
                    have h9 := stOK_eatB s7 (chars "</" ++ nm.data)
                    rw [heq9] at h9
                    exact ⟨h9.mpr hs7, tagValue_wf (WfF_cons hc WfF_nil) hatw⟩
                  · next s8 heq9 =>
                    have h9 := stOK_eatB s7 (chars "</" ++ nm.data)
                    rw [heq9] at h9
                    have hs8 : stOK s8 := h9.mpr hs7
                    clear heq9 h9
                    split
                    · next s9 heq10 =>
                      have h10 := stOK_eatB (eatWhitespace true s8) (chars ">")
                      rw [heq10] at h10
                      exact h10.mpr ((stOK_eatWhitespace true s8).mpr hs8)
                    · next s9 heq10 =>
                      have h10 := stOK_eatB (eatWhitespace true s8) (chars ">")
                      rw [heq10] at h10
                      exact ⟨h10.mpr ((stOK_eatWhitespace true s8).mpr hs8),
                        tagValue_wf (WfF_cons hc WfF_nil) hatw⟩

/-- `WikiParser.tag` meets the result invariant. -/
theorem tagF_ok {I : Interp} (hI : InterpOK I) :
    ∀ o s, stOK s → ResOK WfV (tagF I o s) := by
  intro o s hs
  simp only [tagF]
  split
  · exact trivial
  · next s0 heq =>
    unfold eatT at heq
    split at heq <;> cases heq
  · exact trivial
  · next a s1 heq =>
    have hs1 : stOK s1 := by rw [eatT_ok heq]; exact hs
    clear heq
    split
    · exact hs1
    · have hn := hI.nextS
        { endBeforeTok := [[' '], ['\t'], chars ">", chars "/"], backtrackOn := true } s1 hs1
      split
      · exact trivial
      · exact trivial
      · next s2 heq2 =>
        rw [heq2] at hn
        exact hn
      · next tagParts s2 heq2 =>
        rw [heq2] at hn
        obtain ⟨hs2, -⟩ := hn
        clear heq2
        rcases tagParts with _ | ⟨hd, tl⟩
        · exact hs2
        · rcases hd with t0 | n | b | _ | l2 | f
          · exact tagAfterName_ok hI o (jsLowerStr t0) s2 hs2
          · exact hs2
          · exact hs2
          · exact hs2
          · exact hs2
          · exact hs2

/-- Appending one non-string node on the right keeps strings non-adjacent. -/
theorem noAdjB_append_nonstr {x : JVal} (hx : isStrB x = false) :
    ∀ l, noAdjB l = true → noAdjB (l ++ [x]) = true
  | [], _ => noAdjB_single x
  | [a], _ => by simp [noAdjB, hx]
  | a :: b :: rest, h => by
    simp only [List.cons_append]
    simp only [noAdjB, Bool.and_eq_true] at h ⊢
    exact ⟨h.1, noAdjB_append_nonstr hx (b :: rest) h.2⟩

/-- Pushing one well-formed non-string node keeps a node list well-formed. -/
theorem WfL_push_nonstr {items : List JVal} {x : JVal} (hi : WfL items) (hx : WfV x)
    (hns : isStrB x = false) : WfL (items ++ [x]) := by
  rw [WfL_iff] at hi ⊢
  refine ⟨noAdjB_append_nonstr hns items hi.1, ?_⟩
  intro v hv
  rcases List.mem_append.mp hv with hv | hv
  · exact hi.2 v hv
  · rw [List.mem_singleton] at hv
    subst hv
    exact hx

/-- The embedded indent of a list item meets the result invariant. -/
theorem listEmbedded_ok {I : Interp} (hI : InterpOK I) :
    ∀ s, stOK s → ResOK WfL (listEmbedded I s) := by
  intro s hs
  simp only [listEmbedded]
  split
  · have hin := hI.indentLoopS true [] s hs WfL_nil
    split
    · next ii s2 heq =>
      rw [heq] at hin
      refine ⟨hin.1, ?_⟩
      refine WfL_appendJS WfL_nil ?_
      intro c hc
      rw [List.mem_singleton] at hc
      subst hc
      rw [WfV_jobj]
      refine WfF_objAssign (WfF_cons (WfV_jstr _) WfF_nil)
        (WfF_cons (show WfV (.jarr ii) from hin.2) WfF_nil)
    · next s2 heq =>
      rw [heq] at hin
      exact hin
    · exact trivial
    · exact trivial
  · exact ⟨hs, WfL_nil⟩

/-- One iteration of the list loop meets the result invariant. -/
theorem listLoopF_ok {I : Interp} (hI : InterpOK I) :
    ∀ m items s, stOK s → WfL items → ResOK WfL (listLoopF I m items s) := by
  intro m items s hs hitems
  simp only [listLoopF]
  split
  · next h =>
    simp only [Bool.and_eq_true] at h
    have hemb := listEmbedded_ok hI (eatCount [m] s).1 ((stOK_eatCount [m] s).mpr hs)
    split
    · exact trivial
    · exact trivial
    · next s2 heq =>
      rw [heq] at hemb
      exact hemb
    · next content0 s2 heq =>
      rw [heq] at hemb
      obtain ⟨hs2, hc0⟩ := hemb
      clear heq
      have hn := hI.nextS
        { endTok := [chars "\n"], endAtEos := true,
          endBeforeTok := [chars "\x7d\x7d", chars "</"] } s2 hs2
      split
      · exact trivial
      · exact trivial
      · exact trivial
      · next l s3 heq2 =>
        rw [heq2] at hn
        obtain ⟨hs3, hl⟩ := hn
        refine hI.listLoopS m _ s3 hs3 (WfL_push_nonstr hitems ?_ rfl)
        rw [WfV_jobj]
        refine WfF_cons (WfV_jnum (eatCount_pos h.2)) (WfF_cons ?_ WfF_nil)
        exact show WfV (.jarr (trimList (appendJS content0 l))) from
          WfL_trimList (WfL_appendJS hc0 ((WfL_iff l).mp hl).2)
  · exact ⟨hs, hitems⟩

/-- One iteration of the indent loop meets the result invariant. -/
theorem indentLoopF_ok {I : Interp} (hI : InterpOK I) :
    ∀ b items s, stOK s → WfL items → ResOK WfL (indentLoopF I b items s) := by
  intro b items s hs hitems
  simp only [indentLoopF]
  split
  · next h =>
    simp only [Bool.and_eq_true] at h
    have hn := hI.nextS
      { endTok := [chars "\n"], endAtEos := true,
        endBeforeTok := [chars "\x7d\x7d", chars "</"] } (eatCount (chars ":") s).1
      ((stOK_eatCount (chars ":") s).mpr hs)
    split
    · exact trivial
    · exact trivial
    · next s2 heq =>
      rw [heq] at hn
      refine hI.indentLoopS b _ s2 hn (WfL_push_nonstr hitems ?_ rfl)
      rw [WfV_jobj]
      exact WfF_cons (WfV_jnum (eatCount_pos h.2)) (WfF_cons WfV_jnull WfF_nil)
    · next l s2 heq =>
      rw [heq] at hn
      obtain ⟨hs2, hl⟩ := hn
      refine hI.indentLoopS b _ s2 hs2 (WfL_push_nonstr hitems ?_ rfl)
      rw [WfV_jobj]
      exact WfF_cons (WfV_jnum (eatCount_pos h.2))
        (WfF_cons (show WfV (.jarr (trimList l)) from WfL_trimList hl) WfF_nil)
  · exact ⟨hs, hitems⟩

/-- `WikiParser.description` meets the result invariant. -/
theorem descriptionF_ok {I : Interp} (hI : InterpOK I) :
    ∀ s, stOK s → ResOK WfV (descriptionF I s) := by
  intro s hs
  simp only [descriptionF]
  have hn := hI.nextS
    { endTok := [chars "\n"], endAtEos := true, endBeforeTok := [chars ":"] } s hs
  split
  · exact trivial
  · exact trivial
  · next s1 heq =>
    rw [heq] at hn
    exact hn
  · next l s1 heq =>
    rw [heq] at hn
    obtain ⟨hs1, hl⟩ := hn
    clear heq
    split
    · next s2 heq2 =>
      have h2 := stOK_eatB s1 (chars ":")
      rw [heq2] at h2
      refine ⟨h2.mpr hs1, ?_⟩
      rw [WfV_jobj]
      exact WfF_cons (show WfV (.jarr (trimList l)) from WfL_trimList hl)
        (WfF_cons (show WfV (.jarr []) from WfL_nil) WfF_nil)
    · next s2 heq2 =>
      have h2 := stOK_eatB s1 (chars ":")
      rw [heq2] at h2
      have hs2 : stOK s2 := h2.mpr hs1
      clear heq2 h2
      have hn2 := hI.nextS { endTok := [chars "\n"], endAtEos := true } s2 hs2
      split
      · exact trivial
      · exact trivial
      · next s3 heq3 =>
        rw [heq3] at hn2
        refine ⟨hn2, ?_⟩
        rw [WfV_jobj]
        exact WfF_cons (show WfV (.jarr (trimList l)) from WfL_trimList hl)
          (WfF_cons WfV_jnull WfF_nil)
      · next l2 s3 heq3 =>
        rw [heq3] at hn2
        obtain ⟨hs3, hl2⟩ := hn2
        refine ⟨hs3, ?_⟩
        rw [WfV_jobj]
        exact WfF_cons (show WfV (.jarr (trimList l)) from WfL_trimList hl)
          (WfF_cons (show WfV (.jarr (trimList l2)) from WfL_trimList hl2) WfF_nil)

/-- The closing half of the heading production meets the result invariant
when the level is positive. -/
theorem headingClose_ok {level : Nat} {content : JVal} {s : St} (hlev : 1 ≤ level)
    (hc : WfV content) (hs : stOK s) : ResOK WfV (headingClose level content s) := by
  simp only [headingClose]
  split
  · next s1 heq =>
    have h := stOK_eatB s (List.replicate level (Char.ofNat 61))
    rw [heq] at h
    exact h.mpr hs
  · next s1 heq =>
    have h := stOK_eatB s (List.replicate level (Char.ofNat 61))
    rw [heq] at h
    refine ⟨(stOK_eatB s1 (chars "\n")).mpr (h.mpr hs), ?_⟩
    rw [WfV_jobj]
    exact WfF_cons (WfV_jnum hlev) (WfF_cons hc WfF_nil)

/-- `WikiParser.heading` meets the result invariant when dispatched at a
leading equals sign. -/
theorem headingF_ok {I : Interp} (hI : InterpOK I) :
    ∀ s, stOK s → startsWith s (chars "=") = true → ResOK WfV (headingF I s) := by
  intro s hs hsw
  simp only [headingF]
  have hn := hI.nextS { endBeforeTok := [chars "="], backtrackOn := true }
    (eatCount (chars "=") s).1 ((stOK_eatCount (chars "=") s).mpr hs)
  split
  · exact trivial
  · exact trivial
  · next s1 heq =>
    rw [heq] at hn
    exact headingClose_ok (eatCount_pos hsw) WfV_jnull hn
  · next l s1 heq =>
    rw [heq] at hn
    exact headingClose_ok (eatCount_pos hsw)
      (show WfV (.jarr (trimList l)) from WfL_trimList hn.2) hn.1

/-- One iteration of the preformatted loop meets the result invariant. -/
theorem preLoopF_ok {I : Interp} (hI : InterpOK I) :
    ∀ content s, stOK s → WfL content → ResOK WfL (preLoopF I content s) := by
  intro content s hs hcontent
  simp only [preLoopF]
  split
  · split
    · exact trivial
    · next s0 heq =>
      unfold eatT at heq
      split at heq <;> cases heq
    · exact trivial
    · next a s1 heq =>
      have hs1 : stOK s1 := by rw [eatT_ok heq]; exact hs
      clear heq
      have hn := hI.nextS
        { endTok := [chars "\n"], endAtEos := true,
          allow := some ["lineBreak", "templatePreformatted", "comment",
                         "link", "bold", "italics"] } s1 hs1
      split
      · exact trivial
      · exact trivial
      · next line s2 heq2 =>
        rw [heq2] at hn
        obtain ⟨hs2, hline⟩ := hn
        refine hI.preLoopS _ s2 hs2 (WfL_appendJS hcontent ?_)
        intro c hc
        rcases List.mem_append.mp hc with hc | hc
        · exact ((WfL_iff line).mp hline).2 c hc
        · rw [List.mem_singleton] at hc
          subst hc
          exact WfV_jstr _
      · next s2 heq2 =>
        rw [heq2] at hn
        have hn2 := hI.nextS
          { endTok := [chars "\n"], endAtEos := true, allow := some [] } s2 hn
        split
        · exact trivial
        · exact trivial
        · next line s3 heq3 =>
          rw [heq3] at hn2
          obtain ⟨hs3, hline⟩ := hn2
          refine hI.preLoopS _ s3 hs3 (WfL_appendJS hcontent ?_)
          intro c hc
          rcases List.mem_append.mp hc with hc | hc
          · exact ((WfL_iff line).mp hline).2 c hc
          · rw [List.mem_singleton] at hc
            subst hc
            exact WfV_jstr _
        · exact trivial
  · exact ⟨hs, hcontent⟩

/-- `WikiParser.htmlEntity` meets the result invariant. -/
theorem htmlEntityF_ok {I : Interp} (hI : InterpOK I) :
    ∀ s, stOK s → ResOK WfV (htmlEntityF I s) := by
  intro s hs
  simp only [htmlEntityF]
  have hn := hI.nextS { endTok := [chars ";"], backtrackOn := true }
    (eatB s (chars "x")).2 ((stOK_eatB s (chars "x")).mpr hs)
  split
  · exact trivial
  · exact trivial
  · next s1 heq =>
    rw [heq] at hn
    exact hn
  · next digits s1 heq =>
    rw [heq] at hn
    exact ⟨hn.1, WfV_jstr _⟩

/-- The head of a list is a member. -/
theorem headQ_mem {α : Type} : ∀ {l : List α} {a : α}, l.head? = some a → a ∈ l
  | [], _, h => by simp at h
  | x :: xs, a, h => by
    rw [List.head?_cons] at h
    cases h
    exact List.mem_cons_self x xs

/-- The empty comments accumulator. -/
theorem commentsP_nil : CommentsP [] :=
  ⟨WfL_nil, fun x hx => absurd hx (List.not_mem_nil x)⟩

/-- Consing a non-string onto a list keeps strings non-adjacent. -/
theorem noAdjB_cons_of_head {x : JVal} {l : List JVal} (hx : isStrB x = false)
    (hl : noAdjB l = true) : noAdjB (x :: l) = true := by
  cases l with
  | nil => exact noAdjB_single x
  | cons y rest =>
    show (!(isStrB x && isStrB y) && noAdjB (y :: rest)) = true
    rw [hx, Bool.false_and, Bool.not_false, Bool.true_and]
    exact hl

/-- Prepending a list of non-strings keeps strings non-adjacent. -/
theorem noAdjB_prepend_nonstr :
    ∀ (A : List JVal), (∀ x ∈ A, isStrB x = false) →
    ∀ L, noAdjB L = true → noAdjB (A ++ L) = true
  | [], _, _, hL => hL
  | a :: A2, hA, L, hL =>
    noAdjB_cons_of_head (hA a (List.mem_cons_self a A2))
      (noAdjB_prepend_nonstr A2 (fun x hx => hA x (List.mem_cons_of_mem a hx)) L hL)

/-- Appending a list of non-strings keeps strings non-adjacent. -/
theorem noAdjB_append_all_nonstr {C : List JVal} (hC : ∀ x ∈ C, isStrB x = false) :
    ∀ B, noAdjB B = true → noAdjB (B ++ C) = true
  | [], _ => by
    have h0 := noAdjB_prepend_nonstr C hC [] rfl
    rw [List.append_nil] at h0
    exact h0
  | [b], _ => by
    cases C with
    | nil => exact noAdjB_single b
    | cons c C2 =>
      have hcc : noAdjB (c :: C2) = true := by
        have h0 := noAdjB_prepend_nonstr (c :: C2) hC [] rfl
        rw [List.append_nil] at h0
        exact h0
      show (!(isStrB b && isStrB c) && noAdjB (c :: C2)) = true
      rw [hC c (List.mem_cons_self c C2), Bool.and_false, Bool.not_false, Bool.true_and]
      exact hcc
  | b :: b2 :: B2, h => by
    simp only [List.cons_append]
    simp only [noAdjB, Bool.and_eq_true] at h ⊢
    exact ⟨h.1, noAdjB_append_all_nonstr hC (b2 :: B2) h.2⟩

/-- The merged comments list of a table row is a well-formed node list. -/
theorem commentsMerge_wfl {A B C : List JVal} (hA : CommentsP A) (hB : WfL B)
    (hC : CommentsP C) : WfL (A ++ B ++ C) := by
  rw [WfL_iff]
  constructor
  · rw [List.append_assoc]
    exact noAdjB_prepend_nonstr A hA.2 (B ++ C)
      (noAdjB_append_all_nonstr hC.2 B ((WfL_iff B).mp hB).1)
  · intro v hv
    rcases List.mem_append.mp hv with hv | hv
    · rcases List.mem_append.mp hv with hv | hv
      · exact ((WfL_iff A).mp hA.1).2 v hv
      · exact ((WfL_iff B).mp hB).2 v hv
    · exact ((WfL_iff C).mp hC.1).2 v hv

/-- A row node's stored comments list is well-formed when the row is. -/
theorem tableRowComments_wfl {row : JVal} (h : WfV row) : WfL (tableRowComments row) := by
  cases row with
  | jobj fs =>
    simp only [tableRowComments]
    split
    · next l heq =>
      obtain ⟨k2, hk⟩ := getKey_mem fs "comments" (.jarr l) heq
      exact ((WfF_iff fs).mp ((WfV_jobj fs).mp h)) (k2, .jarr l) hk
    · exact WfL_nil
  | jstr s => exact WfL_nil
  | jnum n => exact WfL_nil
  | jbool b => exact WfL_nil
  | jnull => exact WfL_nil
  | jarr l => exact WfL_nil

/-- Re-attaching comments preserves the row being a well-formed non-string. -/
theorem tableRowMerge_ok {row : JVal} {comments : List JVal} (h : NStr row)
    (hc : WfL comments) : NStr (tableRowMerge row comments) := by
  simp only [tableRowMerge]
  split
  · exact h
  · cases row with
    | jobj fs =>
      exact ⟨(WfV_jobj _).mpr (WfF_setKey ((WfV_jobj fs).mp h.1)
        (show WfV (.jarr comments) from hc)), rfl⟩
    | jstr s => exact h
    | jnum n => exact h
    | jbool b => exact h
    | jnull => exact h
    | jarr l => exact h

/-- Cell attribute resolution preserves the counter invariant. -/
theorem stOK_cellAttrsRestore (c : List (String × JVal)) (p : Pos) (s : St) :
    stOK (cellAttrsRestore c p s).2 ↔ stOK s := by
  unfold cellAttrsRestore
  split
  · exact Iff.rfl
  · split
    · next s5 heq =>
      have h := stOK_eatB s (chars "|")
      rw [heq] at h
      exact h
    · next s5 heq =>
      have h := stOK_eatB s (chars "|")
      rw [heq] at h
      exact (stOK_withPos s5 p).trans h

/-- Resolved cell attributes are well-formed when the tentative ones are. -/
theorem WfF_cellAttrsRestore {c : List (String × JVal)} {p : Pos} {s : St}
    (hc : WfF c) : WfF (cellAttrsRestore c p s).1 := by
  unfold cellAttrsRestore
  split
  · exact WfF_nil
  · split
    · exact hc
    · exact WfF_nil

/-- Separator consumption preserves the counter invariant. -/
theorem stOK_cellNextState (s : St) : stOK (cellNextState s) ↔ stOK s := by
  unfold cellNextState
  split
  · exact stOK_eatB s (chars "|")
  · split
    · exact stOK_eatB s (chars "!")
    · exact Iff.rfl

/-- One iteration of `WikiParser.eatComments` meets the result invariant. -/
theorem eatCommentsF_ok {I : Interp} (hI : InterpOK I) :
    ∀ comments s, stOK s → CommentsP comments →
    ResOK CommentsP (eatCommentsF I comments s) := by
  intro comments s hs hcp
  simp only [eatCommentsF]
  split
  · have hn := hI.nodeS (some ["comment"]) [] wikiGrammar (eatWhitespace true s)
      ((stOK_eatWhitespace true s).mpr hs) GoodG.wiki
    split
    · exact trivial
    · exact trivial
    · next s2 heq =>
      rw [heq] at hn
      exact ⟨hn, hcp⟩
    · next c s2 heq =>
      rw [heq] at hn
      obtain ⟨hs2, hc⟩ := hn
      split
      · refine hI.eatCommentsS (comments ++ [c]) s2 hs2
          ⟨WfL_push_nonstr hcp.1 hc.1 (hc.2 rfl), ?_⟩
        intro x hx
        rcases List.mem_append.mp hx with hx | hx
        · exact hcp.2 x hx
        · rw [List.mem_singleton] at hx
          subst hx
          exact hc.2 rfl
      · exact ⟨hs2, hcp⟩
  · exact ⟨(stOK_eatWhitespace true s).mpr hs, hcp⟩

/-- The row phase of `WikiParser.table` meets the result invariant. -/
theorem tableAfterCaption_ok {I : Interp} (hI : InterpOK I) :
    ∀ attrs caption s, stOK s → WfF attrs → WfV caption →
    ResOK WfV (tableAfterCaption I attrs caption s) := by
  intro attrs caption s hs hat hcap
  simp only [tableAfterCaption]
  have htl := hI.tableLoopS [] s hs WfL_nil
  split
  · exact trivial
  · exact trivial
  · next s1 heq =>
    rw [heq] at htl
    exact htl
  · next rows s1 heq =>
    rw [heq] at htl
    obtain ⟨hs1, hrows⟩ := htl
    clear heq
    split
    · next s2 heq2 =>
      have h2 := stOK_eatB s1 (chars "|\x7d")
      rw [heq2] at h2
      exact h2.mpr hs1
    · next s2 heq2 =>
      have h2 := stOK_eatB s1 (chars "|\x7d")
      rw [heq2] at h2
      refine ⟨h2.mpr hs1, ?_⟩
      rw [WfV_jobj]
      exact WfF_cons (WfV_jstr _) (WfF_cons ((WfV_jobj attrs).mpr hat)
        (WfF_cons hcap (WfF_cons (show WfV (.jarr rows) from hrows) WfF_nil)))

/-- `WikiParser.table` meets the result invariant. -/
theorem tableF_ok {I : Interp} (hI : InterpOK I) :
    ∀ s, stOK s → ResOK WfV (tableF I s) := by
  intro s hs
  simp only [tableF]
  have hat := hI.attributesS [chars "\n"] false s hs
  split
  · exact trivial
  · exact trivial
  · next s1 heq =>
    rw [heq] at hat
    exact hat
  · next attrs s1 heq =>
    rw [heq] at hat
    obtain ⟨hs1, hatw⟩ := hat
    clear heq
    have hs2 : stOK (eatWhitespace true (eatB s1 (chars "\n")).2) :=
      (stOK_eatWhitespace true _).mpr ((stOK_eatB s1 (chars "\n")).mpr hs1)
    split
    · next s3 heq2 =>
      have h2 := stOK_eatB (eatWhitespace true (eatB s1 (chars "\n")).2) (chars "|+")
      rw [heq2] at h2
      exact tableAfterCaption_ok hI attrs (.jarr []) s3 (h2.mpr hs2) hatw
        (show WfV (.jarr []) from WfL_nil)
    · next s3 heq2 =>
      have h2 := stOK_eatB (eatWhitespace true (eatB s1 (chars "\n")).2) (chars "|+")
      rw [heq2] at h2
      have hs3 : stOK s3 := h2.mpr hs2
      clear heq2 h2
      have hn := hI.nextS { endTok := [chars "\n"] } s3 hs3
      split
      · exact trivial
      · exact trivial
      · next s4 heq3 =>
        rw [heq3] at hn
        exact tableAfterCaption_ok hI attrs .jnull s4 hn hatw WfV_jnull
      · next l s4 heq3 =>
        rw [heq3] at hn
        exact tableAfterCaption_ok hI attrs (.jarr (trimList l)) s4 hn.1 hatw
          (show WfV (.jarr (trimList l)) from WfL_trimList hn.2)

/-- One iteration of the table row loop meets the result invariant. -/
theorem tableLoopF_ok {I : Interp} (hI : InterpOK I) :
    ∀ rows s, stOK s → WfL rows → ResOK WfL (tableLoopF I rows s) := by
  intro rows s hs hrows
  simp only [tableLoopF]
  have hcb := hI.eatCommentsS [] s hs commentsP_nil
  split
  · exact trivial
  · exact trivial
  · next s1 heq =>
    rw [heq] at hcb
    exact hcb
  · next commentsBefore s1 heq =>
    rw [heq] at hcb
    obtain ⟨hs1, hcbp⟩ := hcb
    clear heq
    have hrow := hI.tableRowS (rows.isEmpty && !(startsWith s1 (chars "|-"))) s1 hs1
    split
    · exact trivial
    · exact trivial
    · next s2 heq2 =>
      rw [heq2] at hrow
      exact hrow
    · next row s2 heq2 =>
      rw [heq2] at hrow
      obtain ⟨hs2, hrowp⟩ := hrow
      clear heq2
      have hca := hI.eatCommentsS [] s2 hs2 commentsP_nil
      split
      · exact trivial
      · exact trivial
      · next s3 heq3 =>
        rw [heq3] at hca
        exact hca
      · next commentsAfter s3 heq3 =>
        rw [heq3] at hca
        obtain ⟨hs3, hcap⟩ := hca
        clear heq3
        have hrm : NStr (tableRowMerge row
            (commentsBefore ++ tableRowComments row ++ commentsAfter)) :=
          tableRowMerge_ok hrowp
            (commentsMerge_wfl hcbp (tableRowComments_wfl hrowp.1) hcap)
        split
        · exact hI.tableLoopS _ s3 hs3 (WfL_push_nonstr hrows hrm.1 hrm.2)
        · exact ⟨hs3, WfL_push_nonstr hrows hrm.1 hrm.2⟩

/-- `WikiParser.tableRow` meets the result invariant. -/
theorem tableRowF_ok {I : Interp} (hI : InterpOK I) :
    ∀ b s, stOK s → ResOK NStr (tableRowF I b s) := by
  intro b s hs
  simp only [tableRowF]
  split
  · have hcl := hI.cellLoopS [] s hs WfL_nil
    split
    · exact trivial
    · exact trivial
    · next s1 heq =>
      rw [heq] at hcl
      exact hcl
    · next cells s1 heq =>
      rw [heq] at hcl
      refine ⟨hcl.1, ?_, rfl⟩
      rw [WfV_jobj]
      exact WfF_cons (WfV_jstr _) (WfF_cons ((WfV_jobj []).mpr WfF_nil)
        (WfF_cons (show WfV (.jarr cells) from hcl.2) WfF_nil))
  · split
    · exact trivial
    · next s0 heq =>
      unfold eatT at heq
      split at heq <;> cases heq
    · exact trivial
    · next a s1 heq =>
      have hs1 : stOK s1 := by rw [eatT_ok heq]; exact hs
      clear heq
      have hat := hI.attributesS [chars "\n"] true (eatCount (chars "-") s1).1
        ((stOK_eatCount (chars "-") s1).mpr hs1)
      split
      · exact trivial
      · exact trivial
      · next s2 heq2 =>
        rw [heq2] at hat
        exact hat
      · next rowAttrs s2 heq2 =>
        rw [heq2] at hat
        obtain ⟨hs2, hra⟩ := hat
        clear heq2
        split
        · next s3 heq3 =>
          have h3 := stOK_eatB s2 (chars "\n")
          rw [heq3] at h3
          exact h3.mpr hs2
        · next s3 heq3 =>
          have h3 := stOK_eatB s2 (chars "\n")
          rw [heq3] at h3
          have hs3 : stOK s3 := h3.mpr hs2
          clear heq3 h3
          have hco := hI.eatCommentsS [] s3 hs3 commentsP_nil
          split
          · exact trivial
          · exact trivial
          · next s4 heq4 =>
            rw [heq4] at hco
            exact hco
          · next comments s4 heq4 =>
            rw [heq4] at hco
            obtain ⟨hs4, hcomp⟩ := hco
            clear heq4
            have hcl := hI.cellLoopS [] s4 hs4 WfL_nil
            split
            · exact trivial
            · exact trivial
            · next s5 heq5 =>
              rw [heq5] at hcl
              exact hcl
            · next cells s5 heq5 =>
              rw [heq5] at hcl
              refine ⟨hcl.1, ?_, rfl⟩
              rw [WfV_jobj]
              refine WfF_append (WfF_cons (WfV_jstr _)
                (WfF_cons ((WfV_jobj rowAttrs).mpr hra)
                  (WfF_cons (show WfV (.jarr cells) from hcl.2) WfF_nil))) ?_
              split
              · exact WfF_nil
              · exact WfF_cons (show WfV (.jarr comments) from hcomp.1) WfF_nil

/-- One iteration of the cell loop meets the result invariant. -/
theorem cellLoopF_ok {I : Interp} (hI : InterpOK I) :
    ∀ cells s, stOK s → WfL cells → ResOK WfL (cellLoopF I cells s) := by
  intro cells s hs hcells
  simp only [cellLoopF]
  split
  · exact ⟨(stOK_eatWhitespace true s).mpr hs, hcells⟩
  · have hhr : stOK (eatB (eatWhitespace true s) (chars "!")).2 :=
      (stOK_eatB (eatWhitespace true s) (chars "!")).mpr ((stOK_eatWhitespace true s).mpr hs)
    split
    · exact trivial
    · next s2 heq =>
      split at heq
      · cases heq
      · unfold eatT at heq
        split at heq <;> cases heq
    · exact trivial
    · next a s2 heq =>
      have hs2 : stOK s2 := by
        split at heq
        · cases heq
          exact hhr
        · rw [eatT_ok heq]
          exact hhr
      clear heq
      have hat := hI.attributesS [chars "|", chars "!!", chars "\n"] false
        (eatWhitespace false s2) ((stOK_eatWhitespace false s2).mpr hs2)
      split
      · exact trivial
      · exact trivial
      · next s4 heq2 =>
        rw [heq2] at hat
        exact hat
      · next cellAttrs0 s4 heq2 =>
        rw [heq2] at hat
        obtain ⟨hs4, hca⟩ := hat
        clear heq2
        have hn := hI.nextS
          { endTok := [chars "\n"], endBeforeTok := [chars "|", chars "!!"],
            disallow := ["preformatted"] }
          (eatCount (chars "\n")
            (cellAttrsRestore cellAttrs0 (eatWhitespace false s2).pos s4).2).1
          ((stOK_eatCount _ _).mpr ((stOK_cellAttrsRestore _ _ _).mpr hs4))
        split
        · exact trivial
        · exact trivial
        · next s6 heq3 =>
          rw [heq3] at hn
          exact hn
        · next l s6 heq3 =>
          rw [heq3] at hn
          obtain ⟨hs6, hl⟩ := hn
          have hc1 : WfL (cells ++ [JVal.jobj
              [("type", .jstr "table-cell"),
               ("header", .jbool (eatB (eatWhitespace true s) (chars "!")).1),
               ("attributes",
                .jobj (cellAttrsRestore cellAttrs0 (eatWhitespace false s2).pos s4).1),
               ("content", .jarr (trimList l))]]) := by
            refine WfL_push_nonstr hcells ?_ rfl
            rw [WfV_jobj]
            exact WfF_cons (WfV_jstr _) (WfF_cons (WfV_jbool _)
              (WfF_cons ((WfV_jobj _).mpr (WfF_cellAttrsRestore hca))
                (WfF_cons (show WfV (.jarr (trimList l)) from WfL_trimList hl) WfF_nil)))
          split
          · exact hI.cellLoopS _ (cellNextState s6) ((stOK_cellNextState s6).mpr hs6) hc1
          · exact ⟨(stOK_cellNextState s6).mpr hs6, hc1⟩

/-- `WikiParser.gallery` meets the result invariant. -/
theorem galleryF_ok {I : Interp} (hI : InterpOK I) :
    ∀ s, stOK s → ResOK WfV (galleryF I s) := by
  intro s hs
  simp only [galleryF]
  have hat := hI.attributesS [chars ">"] false s hs
  split
  · exact trivial
  · exact trivial
  · next s1 heq =>
    rw [heq] at hat
    exact hat
  · next attrs s1 heq =>
    rw [heq] at hat
    obtain ⟨hs1, hatw⟩ := hat
    clear heq
    split
    · next s2 heq2 =>
      have h2 := stOK_eatB s1 (chars ">")
      rw [heq2] at h2
      exact h2.mpr hs1
    · next s2 heq2 =>
      have h2 := stOK_eatB s1 (chars ">")
      rw [heq2] at h2
      have hgl := hI.galleryLoopS [] (eatWhitespace true s2)
        ((stOK_eatWhitespace true s2).mpr (h2.mpr hs1)) WfL_nil
      split
      · exact trivial
      · exact trivial
      · next s3 heq3 =>
        rw [heq3] at hgl
        exact hgl
      · next items s3 heq3 =>
        rw [heq3] at hgl
        obtain ⟨hs3, hitems⟩ := hgl
        clear heq3
        split
        · next s4 heq4 =>
          have h4 := stOK_eatB s3 (chars "</gallery>")
          rw [heq4] at h4
          exact h4.mpr hs3
        · next s4 heq4 =>
          have h4 := stOK_eatB s3 (chars "</gallery>")
          rw [heq4] at h4
          refine ⟨h4.mpr hs3, ?_⟩
          rw [WfV_jobj]
          exact WfF_cons ((WfV_jobj attrs).mpr hatw)
            (WfF_cons (show WfV (.jarr items) from hitems) WfF_nil)

/-- One iteration of the gallery line loop meets the result invariant. -/
theorem galleryLoopF_ok {I : Interp} (hI : InterpOK I) :
    ∀ items s, stOK s → WfL items → ResOK WfL (galleryLoopF I items s) := by
  intro items s hs hitems
  simp only [galleryLoopF]
  split
  · exact ⟨hs, hitems⟩
  · split
    · exact ⟨(stOK_eatWhitespace true s).mpr hs, hitems⟩
    · have hn := hI.nextS
        { endTok := [chars "\n"], endBeforeTok := [chars "|", chars "</gallery>"] }
        (eatWhitespace true s) ((stOK_eatWhitespace true s).mpr hs)
      split
      · exact trivial
      · exact trivial
      · next s2 heq =>
        rw [heq] at hn
        exact hn
      · next toRaw s2 heq =>
        rw [heq] at hn
        obtain ⟨hs2, htr⟩ := hn
        clear heq
        split
        · split
          · next s3 heq2 =>
            have h2 := stOK_eatB s2 (chars "|")
            rw [heq2] at h2
            exact h2.mpr hs2
          · next s3 heq2 =>
            have h2 := stOK_eatB s2 (chars "|")
            rw [heq2] at h2
            exact hI.galleryLoopS items (eatWhitespace true s3)
              ((stOK_eatWhitespace true s3).mpr (h2.mpr hs2)) hitems
        · have htoVal : WfV (((trimList toRaw).head?).getD .jnull) := by
            rcases hh : (trimList toRaw).head? with _ | v
            · exact WfV_jnull
            · exact ((WfL_iff _).mp (WfL_trimList htr)).2 v (headQ_mem hh)
          split
          · next s3 heq2 =>
            have h2 := stOK_eatB s2 (chars "|")
            rw [heq2] at h2
            refine hI.galleryLoopS _ s3 (h2.mpr hs2) (WfL_push_nonstr hitems ?_ rfl)
            rw [WfV_jobj]
            exact WfF_cons (WfV_jstr _) (WfF_cons htoVal
              (WfF_cons (show WfV (.jarr []) from WfL_nil) WfF_nil))
          · next s3 heq2 =>
            have h2 := stOK_eatB s2 (chars "|")
            rw [heq2] at h2
            have hs3 : stOK s3 := h2.mpr hs2
            clear heq2 h2
            have hn2 := hI.nextS
              { endTok := [chars "\n"], endBeforeTok := [chars "</gallery>"] } s3 hs3
            split
            · exact trivial
            · exact trivial
            · next s4 heq3 =>
              rw [heq3] at hn2
              refine hI.galleryLoopS _ s4 hn2 (WfL_push_nonstr hitems ?_ rfl)
              rw [WfV_jobj]
              exact WfF_cons (WfV_jstr _) (WfF_cons htoVal
                (WfF_cons WfV_jnull WfF_nil))
            · next cl s4 heq3 =>
              rw [heq3] at hn2
              refine hI.galleryLoopS _ s4 hn2.1 (WfL_push_nonstr hitems ?_ rfl)
              rw [WfV_jobj]
              exact WfF_cons (WfV_jstr _) (WfF_cons htoVal
                (WfF_cons (show WfV (.jarr (trimList cl)) from WfL_trimList hn2.2)
                  WfF_nil))

/-- Weakening of the result post-condition. -/
theorem ResOK_weaken {α : Type} {P Q : α → Prop} (h : ∀ a, P a → Q a) :
    ∀ r, ResOK P r → ResOK Q r
  | .ok a _, hr => ⟨hr.1, h a hr.2⟩
  | .nullRes _, hr => hr
  | .fault _ _, _ => trivial
  | .noFuel, _ => trivial

/-- Under the `['comment']` allow list, a surviving descriptor is untyped or
the comment descriptor. -/
theorem filteredOut_comment_cases {t : Option String} {d : List String}
    (h : filteredOut t (some ["comment"]) d = false) : t = none ∨ t = some "comment" := by
  cases t with
  | none => exact Or.inl rfl
  | some ty =>
    right
    simp only [filteredOut] at h
    cases hb : List.contains ["comment"] ty
    · rw [hb] at h
      simp at h
    · simp only [List.contains_cons, List.contains_nil, Bool.or_false, beq_iff_eq] at hb
      rw [hb]

/-- A descriptor surviving the `['comment']` filter in a reachable grammar is
a group or the comment descriptor (a `declarative` without `replaceWith`). -/
theorem comment_allow_entry {f : GFields} {act : GAction} {rest : List GEntry}
    {d : List String} (hg : GoodG (GEntry.mk f act :: rest))
    (hfilt : filteredOut f.type (some ["comment"]) d = false) :
    (∃ g2, act = .group g2) ∨ (act = .declarative ∧ f.replaceWith = none) := by
  have hfacts := goodG_mem hg (GEntry.mk f act) (List.mem_cons_self _ _)
  rcases filteredOut_comment_cases hfilt with ht | ht
  · exact Or.inl (hfacts.2.2.1 ht)
  · exact Or.inr (hfacts.2.2.2 ht)

/-- Post-processing an object never yields a plain string. -/
theorem applyPostP_jobj_res {pp : PostP} {fs : List (String × JVal)} {r : JVal}
    (h : applyPostP pp (.jobj fs) = .ok (some r)) : isStrB r = false := by
  cases pp with
  | commentStrip =>
    simp only [applyPostP] at h
    split at h
    · split at h
      · cases h
        rfl
      · cases h
    · cases h
  | dropContent =>
    simp only [applyPostP] at h
    cases h
    rfl
  | retagTemplate =>
    simp only [applyPostP] at h
    cases h
    rfl
  | nowikiCollapse =>
    simp only [applyPostP] at h
    split at h
    · cases h
      rfl
    · cases h
      rfl
    · cases h
      rfl

/-- Wrapping a content list yields an object, and post-processing keeps it a
non-string; so a declarative candidate's node is never a plain string. -/
theorem nodeWrap_jarr_ok {f : GFields} {l : List JVal} {s2 : St} (hs : stOK s2)
    (hl : WfL l) : ResOK (fun v => WfV v ∧ isStrB v = false) (nodeWrap f (.jarr l) s2) := by
  have hwv : WfV (wrapContent f.type (.jarr l)) :=
    WfV_wrapContent f.type (show WfV (.jarr l) from hl)
  simp only [nodeWrap]
  split
  · exact ⟨hs, hwv, rfl⟩
  · split
    · exact trivial
    · exact trivial
    · next v2 heq2 =>
      refine ⟨hs, applyPostP_wf hwv heq2, ?_⟩
      exact applyPostP_jobj_res
        (show applyPostP _ (.jobj ((match f.type with
          | some ty => [("type", .jstr ty)]
          | none => []) ++ [("content", .jarr l)])) = .ok (some v2) from heq2)

/-- Dispatching a production function meets the result invariant; the
heading production additionally receives its dispatch fact. -/
theorem runGFunc_ok {I : Interp} (hI : InterpOK I) :
    ∀ (gf : GFunc) (s : St), stOK s →
    (gf = .heading → startsWith s (chars "=") = true) →
    ResOK WfV (runGFunc I gf s) := by
  intro gf s hs hcond
  cases gf with
  | link => exact hI.linkS s hs
  | externalLink => exact hI.externalLinkS s hs
  | template a => exact hI.templateS a s hs
  | list m =>
    simp only [runGFunc]
    have h := hI.listLoopS m [] s hs WfL_nil
    split
    · next items s1 heq =>
      rw [heq] at h
      refine ⟨h.1, ?_⟩
      rw [WfV_jobj]
      exact WfF_cons (show WfV (.jarr items) from h.2) WfF_nil
    · next s1 heq =>
      rw [heq] at h
      exact h
    · exact trivial
    · exact trivial
  | indent =>
    simp only [runGFunc]
    have h := hI.indentLoopS false [] s hs WfL_nil
    split
    · next items s1 heq =>
      rw [heq] at h
      refine ⟨h.1, ?_⟩
      rw [WfV_jobj]
      exact WfF_cons (show WfV (.jarr items) from h.2) WfF_nil
    · next s1 heq =>
      rw [heq] at h
      exact h
    · exact trivial
    · exact trivial
  | description => exact hI.descriptionS s hs
  | heading => exact hI.headingS s hs (hcond rfl)
  | preformatted =>
    simp only [runGFunc]
    have h := hI.preLoopS [] s hs WfL_nil
    split
    · next content s1 heq =>
      rw [heq] at h
      exact ⟨h.1, show WfV (.jarr content) from h.2⟩
    · next s1 heq =>
      rw [heq] at h
      exact h
    · exact trivial
    · exact trivial
  | htmlEntity => exact hI.htmlEntityS s hs
  | tag o => exact hI.tagS o s hs
  | table => exact hI.tableS s hs
  | gallery => exact hI.galleryS s hs

/-- The candidate start state preserves the counter invariant. -/
theorem stOK_entryStart (f : GFields) (s : St) : stOK (entryStart f s) ↔ stOK s := by
  unfold entryStart
  split
  · exact Iff.rfl
  · exact Iff.rfl

/-- With `keepStart` the candidate runs at the unconsumed cursor. -/
theorem entryStart_keepStart {f : GFields} {s : St} (h : f.keepStart = true) :
    entryStart f s = s := by
  unfold entryStart
  rw [h]
  exact if_pos rfl

/-- The grammar walk of `Parser.node` meets the result invariant. -/
theorem nodeGo_ok {I : Interp} (hI : InterpOK I) :
    ∀ (allow : Option (List String)) (d : List String) (p : Pos) (g : List GEntry) (s : St),
    GoodG g → stOK s → ResOK (NodeP allow) (nodeGo I allow d p g s)
  | allow, d, p, [], s, _, hs => hs
  | allow, d, p, .mk f .declarative :: rest, s, hg, hs => by
    have hrest : GoodG rest := GoodG.tail _ _ hg
    simp only [nodeGo]
    split
    · exact nodeGo_ok hI allow d p rest s hrest hs
    · next h1 =>
      have hsf : startsWith s f.start = true := by
        cases hsw : startsWith s f.start
        · exact absurd (by rw [hsw]; rfl) h1
        · rfl
      have hfilt : filteredOut f.type allow d = false := by
        cases hf2 : filteredOut f.type allow d
        · rfl
        · exact absurd (by rw [hf2]; exact Bool.or_true _) h1
      split
      · exact nodeGo_ok hI allow d p rest _ hrest ((stOK_withPos s p).mpr hs)
      · have hs1 : stOK (entryStart f s) := (stOK_entryStart f s).mpr hs
        split
        · exact nodeGo_ok hI allow d p rest _ hrest ((stOK_withPos _ p).mpr hs1)
        · have hcf : allow = some ["comment"] → f.replaceWith = none := fun ha => by
            rcases comment_allow_entry hg (ha ▸ hfilt) with ⟨g3, hga⟩ | hgd
            · exact nomatch hga
            · exact hgd.2
          have hnext := hI.nextS f.toNextOpts (entryStart f s) hs1
          split
          · exact trivial
          · exact trivial
          · next l s2 heq =>
            rw [heq] at hnext
            obtain ⟨hs2, hl⟩ := hnext
            clear heq
            split
            · next rw0 heqrw =>
              refine ⟨hs2, WfV_jstr _, fun ha => ?_⟩
              rw [hcf ha] at heqrw
              cases heqrw
            · exact ResOK_weaken (fun v hv => ⟨hv.1, fun _ => hv.2⟩) _
                (nodeWrap_jarr_ok hs2 hl)
          · next s2 heq =>
            rw [heq] at hnext
            split
            · next rw0 heqrw =>
              refine ⟨hnext, WfV_jstr _, fun ha => ?_⟩
              rw [hcf ha] at heqrw
              cases heqrw
            · split
              · exact trivial
              · next s3 heqb =>
                exact nodeGo_ok hI allow d p rest _ hrest
                  ((stOK_withPos s3 p).mpr (bump_stOK heqb))
  | allow, d, p, .mk f (.func gf) :: rest, s, hg, hs => by
    have hrest : GoodG rest := GoodG.tail _ _ hg
    simp only [nodeGo]
    split
    · exact nodeGo_ok hI allow d p rest s hrest hs
    · next h1 =>
      have hsf : startsWith s f.start = true := by
        cases hsw : startsWith s f.start
        · exact absurd (by rw [hsw]; rfl) h1
        · rfl
      have hfilt : filteredOut f.type allow d = false := by
        cases hf2 : filteredOut f.type allow d
        · rfl
        · exact absurd (by rw [hf2]; exact Bool.or_true _) h1
      split
      · exact nodeGo_ok hI allow d p rest _ hrest ((stOK_withPos s p).mpr hs)
      · have hs1 : stOK (entryStart f s) := (stOK_entryStart f s).mpr hs
        split
        · exact nodeGo_ok hI allow d p rest _ hrest ((stOK_withPos _ p).mpr hs1)
        · have hcf : allow = some ["comment"] → False := fun ha => by
            rcases comment_allow_entry hg (ha ▸ hfilt) with ⟨g3, hga⟩ | hgd
            · exact nomatch hga
            · exact nomatch hgd.1
          have hhead : gf = .heading →
              startsWith (entryStart f s) (chars "=") = true :=
            fun hgf => by
              have hks : f.keepStart = true ∧ f.start = chars "=" :=
                (goodG_mem hg (.mk f (.func gf)) (List.mem_cons_self _ _)).1 (by rw [hgf]; rfl)
              rw [entryStart_keepStart hks.1, ← hks.2]
              exact hsf
          have hrun := runGFunc_ok hI gf (entryStart f s) hs1 hhead
          split
          · exact trivial
          · exact trivial
          · next v s2 heq =>
            rw [heq] at hrun
            obtain ⟨hs2, hv⟩ := hrun
            clear heq
            split
            · exact ⟨hs2, WfV_jstr _, fun ha => (hcf ha).elim⟩
            · exact ResOK_weaken (fun w hw => ⟨hw, fun ha => (hcf ha).elim⟩) _
                (nodeWrap_ok hs2 hv)
          · next s2 heq =>
            rw [heq] at hrun
            split
            · exact ⟨hrun, WfV_jstr _, fun ha => (hcf ha).elim⟩
            · split
              · exact trivial
              · next s3 heqb =>
                exact nodeGo_ok hI allow d p rest _ hrest
                  ((stOK_withPos s3 p).mpr (bump_stOK heqb))
  | allow, d, p, .mk f (.group g2) :: rest, s, hg, hs => by
    have hrest : GoodG rest := GoodG.tail _ _ hg
    simp only [nodeGo]
    split
    · exact nodeGo_ok hI allow d p rest s hrest hs
    · next h1 =>
      split
      · exact nodeGo_ok hI allow d p rest _ hrest ((stOK_withPos s p).mpr hs)
      · have hs1 : stOK (entryStart f s) := (stOK_entryStart f s).mpr hs
        split
        · exact nodeGo_ok hI allow d p rest _ hrest ((stOK_withPos _ p).mpr hs1)
        · have hgood2 : GoodG g2 :=
            (goodG_mem hg (.mk f (.group g2)) (List.mem_cons_self _ _)).2.1 g2 rfl
          have hnode := hI.nodeS allow d g2 (entryStart f s) hs1 hgood2
          split
          · next s2 heq =>
            rw [heq] at hnode
            exact nodeGo_ok hI allow d p rest _ hrest ((stOK_withPos s2 p).mpr hnode)
          · exact hnode

/-- `Parser.node` meets the result invariant. -/
theorem nodeF_ok {I : Interp} (hI : InterpOK I) :
    ∀ a d g s, stOK s → GoodG g → ResOK (NodeP a) (nodeF I a d g s) := by
  intro a d g s hs hg
  exact nodeGo_ok hI a d s.pos g s hg hs

/-- The zero-fuel interpreter satisfies every routine invariant. -/
theorem interpOK_zero : InterpOK interpZero := by
  repeat' apply And.intro
  all_goals intros
  all_goals exact trivial

/-- One fuel layer preserves the routine invariants. -/
theorem interpOK_step {I : Interp} (hI : InterpOK I) : InterpOK (interpStep I) :=
  ⟨nextF_ok hI, nextLoopF_ok hI, nodeF_ok hI, templateF_ok hI, templateParamsF_ok hI,
   linkF_ok hI, linkParamsF_ok hI, externalLinkF_ok hI, tagF_ok hI, attributesF_ok hI,
   attrLoopF_ok hI, quotedStringF_ok hI, listLoopF_ok hI, indentLoopF_ok hI,
   descriptionF_ok hI, headingF_ok hI, preLoopF_ok hI, htmlEntityF_ok hI, tableF_ok hI,
   tableLoopF_ok hI, tableRowF_ok hI, cellLoopF_ok hI, galleryF_ok hI, galleryLoopF_ok hI,
   eatCommentsF_ok hI⟩

/-- The fuel-indexed interpreter satisfies every routine invariant. -/
theorem interpOK : ∀ n, InterpOK (interp n)
  | 0 => interpOK_zero
  | n + 1 => interpOK_step (interpOK n)

/-- A returned AST is well-formed: coalesced everywhere and with every
stored number positive. -/
theorem parse_ast_wfl {o : Options} {i : String} {n : Nat} {l : List JVal}
    (h : parse o i n = .ast l) : WfL l := by
  unfold parse at h
  split at h
  · next l2 s heq =>
    cases h
    have hspec := (interpOK n).nextS { endAtEos := true } (initSt o i) (stOK_initSt o i)
    rw [heq] at hspec
    exact hspec.2
  · cases h
  · split at h
    · cases h
    · split at h <;> cases h
  · cases h

/-- C1: the spec and the test suite expect a colon-prefixed link to have the
leading colon stripped from `to` and `plain: true` set, but `WikiParser.link`
has no such logic: `[[:Category:Y]]` parses to a link whose `to` keeps the
colon and which carries no `plain` key at all. -/
theorem C1_colon_link_not_plain :
    ∃ fs, parse {} "[[:Category:Y]]" 300 = .ast [.jobj fs] ∧
      getKey fs "to" = some (.jstr ":Category:Y") ∧
      getKey fs "plain" = none :=
  ⟨[("type", .jstr "link"), ("to", .jstr ":Category:Y"),
    ("content", .jarr [.jstr ":Category:Y"])], rfl, rfl, rfl⟩

/-- The heading production does not cap the `=` run at six: a run of seven
parses to a heading of level `7`, refuting the `1..6` bound. -/
theorem C2_level_seven :
    parse {} "======= x =======" 300 = .ast [.jobj
      [("type", .jstr "heading"), ("level", .jnum 7),
       ("content", .jarr [.jstr "x"])]] := rfl

/-- C2 (amended): every number stored in a returned AST — in particular
every heading, list and indent `level` — is at least `1`; the upper bound
`6` of the original claim is false (`C2_level_seven`). -/
theorem C2_heading_level_positive (o : Options) (i : String) (n : Nat) (l : List JVal)
    (h : parse o i n = .ast l) : hdL l = true :=
  (parse_ast_wfl h).2

/-- C2 witness: the amended bound at a concrete heading parse. -/
theorem C2_heading_level_positive_witness :
    hdL [.jobj [("type", .jstr "heading"), ("level", .jnum 2),
                ("content", .jarr [.jstr "x"])]] = true :=
  C2_heading_level_positive {} "== x ==" 300
    [.jobj [("type", .jstr "heading"), ("level", .jnum 2),
            ("content", .jarr [.jstr "x"])]] rfl

/-- C3: numeric template keys go to `positionalParameters[key-1]`, others to
`parameters`; keys are trimmed and lowercased, values trimmed but not
case-folded — both on the claim's example and on a whitespace/case one. -/
theorem C3_template_parameters :
    parse {} "\x7b\x7bt|2=b|a=1|1=a\x7d\x7d" 300 = .ast [.jobj
      [("type", .jstr "template"), ("name", .jstr "t"),
       ("parameters", .jobj [("a", .jarr [.jstr "1"])]),
       ("positionalParameters", .jarr [.jarr [.jstr "a"], .jarr [.jstr "b"]])]] ∧
    parse {} "\x7b\x7bt| A =  X y \x7d\x7d" 300 = .ast [.jobj
      [("type", .jstr "template"), ("name", .jstr "t"),
       ("parameters", .jobj [("a", .jarr [.jstr "X y"])]),
       ("positionalParameters", .jarr [])]] :=
  ⟨rfl, rfl⟩

/-- C4: whenever the engine returns an AST the backtrack counter respects
the configured limit (the options record is the one the state carries,
threaded unchanged from `initSt`); and a parse whose first backtrack would
exceed a zero limit fails with `BacktrackingLimitExceeded`. -/
theorem C4_backtracking_limit :
    (∀ (o : Options) (i : String) (n : Nat) (l : List JVal) (s : St),
      (interp n).next { endAtEos := true } (initSt o i) = .ok l s →
      s.backtrackingCount ≤ s.options.backtrackingLimit) ∧
    parse { backtrackingLimit := 0, returnError := true } "\x27\x27x" 300 =
      .returnedError .backtrackingLimitExceeded := by
  constructor
  · intro o i n l s h
    have hspec := (interpOK n).nextS { endAtEos := true } (initSt o i) (stOK_initSt o i)
    rw [h] at hspec
    exact hspec.1
  · exact rfl

/-- C4 witness: the counter bound at a concrete successful parse. -/
theorem C4_backtracking_limit_witness :
    ∃ s : St, s.backtrackingCount ≤ s.options.backtrackingLimit := by
  obtain ⟨s, h⟩ : ∃ s, (interp 3).next { endAtEos := true } (initSt {} "a") =
      .ok [.jstr "a"] s := ⟨_, rfl⟩
  exact ⟨s, C4_backtracking_limit.1 {} "a" 3 [.jstr "a"] s h⟩

/-- C5: a fault is routed by `parse` through `throwError`, then
`returnError`, else swallowed into the null return — and each route is
realised on a concrete faulting input. -/
theorem C5_fault_routing :
    (∀ (o : Options) (i : String) (n : Nat) (e : Fault) (s : St),
      (interp n).next { endAtEos := true } (initSt o i) = .fault e s →
      parse o i n = if o.«throwError» then .thrown e
        else if o.returnError then .returnedError e else .returnedNull) ∧
    parse { backtrackingLimit := 0, «throwError» := true } "\x27\x27x" 300 =
      .thrown .backtrackingLimitExceeded ∧
    parse { backtrackingLimit := 0, returnError := true, debug := true } "\x27\x27x" 300 =
      .returnedError .backtrackingLimitExceeded ∧
    parse { backtrackingLimit := 0 } "\x27\x27x" 300 = .returnedNull := by
  refine ⟨?_, rfl, rfl, rfl⟩
  intro o i n e s h
  unfold parse
  rw [h]

/-- C5 witness: the routing rule applied at a concrete faulting parse. -/
theorem C5_fault_routing_witness :
    parse { backtrackingLimit := 0, «throwError» := true } "\x27\x27x" 300 =
      .thrown .backtrackingLimitExceeded := by
  obtain ⟨s, h⟩ : ∃ s, (interp 300).next { endAtEos := true }
      (initSt { backtrackingLimit := 0, «throwError» := true } "\x27\x27x") =
      .fault .backtrackingLimitExceeded s := ⟨_, rfl⟩
  exact C5_fault_routing.1 { backtrackingLimit := 0, «throwError» := true } "\x27\x27x" 300
    .backtrackingLimitExceeded s h

/-- C6: in every returned AST no two adjacent elements of any node list, at
any depth, are both strings (`coalV` states exactly that recursively). -/
theorem C6_coalesced (o : Options) (i : String) (n : Nat) (l : List JVal)
    (h : parse o i n = .ast l) : coalV (.jarr l) = true :=
  (parse_ast_wfl h).1

/-- C6 witness: the coalescing invariant at a concrete parse that merges an
entity between two plaintext runs into one string. -/
theorem C6_coalesced_witness : coalV (.jarr [.jstr "x A y"]) = true :=
  C6_coalesced {} "x &#65; y" 300 [.jstr "x A y"] rfl

/-- C8: `parse` is a function of the options, the input and the fuel alone,
so equal inputs give structurally identical outcomes. -/
theorem C8_deterministic (o1 o2 : Options) (i1 i2 : String) (n : Nat)
    (h1 : o1 = o2) (h2 : i1 = i2) : parse o1 i1 n = parse o2 i2 n := by
  rw [h1, h2]

/-- C8 witness: determinism at a concrete input. -/
theorem C8_deterministic_witness : parse {} "a" 3 = parse {} "a" 3 :=
  C8_deterministic {} {} "a" "a" 3 rfl rfl

/-- C9: the empty input parses to the empty node list under any options,
whenever the interpreter has fuel to take the first step. -/
theorem C9_empty_input (o : Options) (n : Nat) : parse o "" (n + 2) = .ast [] := rfl

/-- C10: numeric character references: the claim's decimal/hex example, the
coalescing of an entity with surrounding plaintext, the top code unit
`0xFFFF`, and the digit-to-code-unit pipeline facts behind them. -/
theorem C10_numeric_entities :
    parse {} "&#1059; &#x5000;" 300 = .ast [.jstr "У 倀"] ∧
    parse {} "a&#66;c" 300 = .ast [.jstr "aBc"] ∧
    parse {} "&#xFFFF;" 300 = .ast [.jstr (String.mk [Char.ofNat 0xFFFF])] ∧
    jsParseInt "1059" 10 = some 1059 ∧
    jsParseInt "5000" 16 = some 0x5000 ∧
    fromCharCode 1059 = 'У' ∧
    fromCharCode 0x5000 = Char.ofNat 0x5000 :=
  ⟨rfl, rfl, rfl, rfl, rfl, rfl, rfl⟩

/-- Appending the empty string on the right. -/
theorem strAppendNil (t : String) : t ++ String.mk [] = t :=
  congrArg String.mk (List.append_nil t.data)

/-- Moving one pushed character into the appended tail. -/
theorem strPushAppend (t : String) (c : Char) (w : List Char) :
    (t ++ String.mk [c]) ++ String.mk w = t ++ String.mk (c :: w) :=
  congrArg String.mk (List.append_assoc t.data [c] w)

/-- The link-trail loop on a single-string content list appends exactly the
maximal run of word characters at the cursor and advances past it. -/
theorem linkTrailAux_words :
    ∀ (n : Nat) (t : String) (s : St), s.str.length - s.pos.offset ≤ n →
    ∃ s2, linkTrailAux n (.jarr [.jstr t]) s =
        .ok (.jarr [.jstr (t ++
          String.mk ((s.str.drop s.pos.offset).takeWhile isWordChar))]) s2 ∧
      s2.pos.offset = s.pos.offset + ((s.str.drop s.pos.offset).takeWhile isWordChar).length
  | 0, t, s, hn => by
    have hdrop : s.str.drop s.pos.offset = [] := List.drop_eq_nil_of_le (by omega)
    refine ⟨s, ?_, ?_⟩
    · rw [hdrop]
      simp only [List.takeWhile_nil]
      rw [strAppendNil]
      rfl
    · rw [hdrop]
      simp
  | n + 1, t, s, hn => by
    simp only [linkTrailAux]
    rcases hc : charAt s s.pos.offset with _ | c
    · have hlen : s.str.length ≤ s.pos.offset :=
        (List.get?_eq_none).mp hc
      have hdrop : s.str.drop s.pos.offset = [] := List.drop_eq_nil_of_le hlen
      refine ⟨s, ?_, ?_⟩
      · rw [hdrop]
        simp only [List.takeWhile_nil]
        rw [strAppendNil]
      · rw [hdrop]
        simp
    · have hcg : s.str.get? s.pos.offset = some c := hc
      obtain ⟨hlt, hget⟩ := List.get?_eq_some.mp hcg
      have hdropc : s.str.drop s.pos.offset = c :: s.str.drop (s.pos.offset + 1) := by
        rw [List.drop_eq_getElem_cons hlt]
        rw [show s.str[s.pos.offset] = c from hget]
      show ∃ s2, (if isWordChar c = true then
          linkTrailAux n (.jarr (appendJS [JVal.jstr t] [JVal.jstr (String.mk [c])]))
            (advance s [c])
        else .ok (.jarr [.jstr t]) s) =
          .ok (.jarr [.jstr (t ++
            String.mk ((s.str.drop s.pos.offset).takeWhile isWordChar))]) s2 ∧
        s2.pos.offset = s.pos.offset + ((s.str.drop s.pos.offset).takeWhile isWordChar).length
      cases hw : isWordChar c with
      | true =>
        rw [if_pos rfl]
        obtain ⟨s2, h1, h2⟩ := linkTrailAux_words n (t ++ String.mk [c]) (advance s [c])
          (by show s.str.length - (s.pos.offset + 1) ≤ n; omega)
        refine ⟨s2, ?_, ?_⟩
        · rw [show appendJS [JVal.jstr t] [JVal.jstr (String.mk [c])] =
              [JVal.jstr (t ++ String.mk [c])] from rfl]
          rw [h1, hdropc, List.takeWhile_cons_of_pos hw]
          rw [show (advance s [c]).str = s.str from rfl,
              show (advance s [c]).pos.offset = s.pos.offset + 1 from rfl]
          rw [strPushAppend]
        · have hoff : (advance s [c]).pos.offset = s.pos.offset + 1 := rfl
          rw [show (advance s [c]).str = s.str from rfl, hoff] at h2
          rw [hdropc, List.takeWhile_cons_of_pos hw, h2]
          simp only [List.length_cons]
          omega
      | false =>
        rw [if_neg (by simp [hw])]
        have htw : (s.str.drop s.pos.offset).takeWhile isWordChar = [] := by
          rw [hdropc]
          exact List.takeWhile_cons_of_neg (by simp [hw])
        refine ⟨s, ?_, ?_⟩
        · rw [htw, strAppendNil]
        · rw [htw]
          simp

/-- C7: after a link's closing brackets the trail rule appends exactly the
maximal run of word characters to the displayed content and advances past
it; on the claim's example the content becomes `["mammals"]`. -/
theorem C7_link_trail :
    (∀ (s : St) (t : String), ∃ s2,
      linkTrail s (.jarr [.jstr t]) =
        .ok (.jarr [.jstr (t ++
          String.mk ((s.str.drop s.pos.offset).takeWhile isWordChar))]) s2 ∧
      s2.pos.offset = s.pos.offset +
        ((s.str.drop s.pos.offset).takeWhile isWordChar).length) ∧
    parse {} "[[mammal]]s" 300 = .ast [.jobj
      [("type", .jstr "link"), ("to", .jstr "mammal"),
       ("content", .jarr [.jstr "mammals"])]] :=
  ⟨fun s t => linkTrailAux_words (s.str.length - s.pos.offset) t s (Nat.le_refl _), rfl⟩

end Wikiparse
